import Mathlib

set_option maxHeartbeats 1000000
set_option linter.unusedVariables false

/-! Shallow embedding of `sync_folders.py`, a one-way periodic folder
    synchronization engine.  Relative paths are lists of characters (so the
    character-level substring test used by the cascade deduplication can be
    expressed exactly as Python's `in` operator on `str`).  A directory tree
    is a finite map from relative file paths to modification times together
    with a finite set of relative folder paths.  OS-level failures are
    modelled by two oracles: `opL` lists paths on which a mutating call
    (`shutil.rmtree`, `os.remove`, `shutil.copytree`, `shutil.copy2`) raises
    `OSError`, and `statL` lists paths on which `os.path.getmtime` raises. -/

namespace Sync

abbrev Path := List Char

def sep : Char := '/'

/-- Boolean list membership for paths. -/
def pmem (p : Path) : List Path → Bool
  | [] => false
  | x :: xs => if x = p then true else pmem p xs

/-- Boolean test that `a` is an initial segment of `b`. -/
def isPre : Path → Path → Bool
  | [], _ => true
  | _ :: _, [] => false
  | a :: as, b :: bs => if a = b then isPre as bs else false

/-- Python substring containment: the `in` operator on `str`, used at
    `sync_folders.py` lines 175 and 214 for cascade deduplication. -/
def strContainsB (a b : Path) : Bool :=
  (List.range (b.length + 1)).any (fun i => isPre a (b.drop i))

/-- The path `b` lies strictly below folder `a` in the directory hierarchy. -/
def isUnderB (a b : Path) : Bool := isPre (a ++ [sep]) b

/-- The path `b` equals `a` or lies strictly below it. -/
def sameOrUnderB (a b : Path) : Bool := (if a = b then true else false) || isUnderB a b

/-- Number of path separators: the sort key `x.count(os.path.sep)` of lines 169/207. -/
def depthOf (p : Path) : Nat := p.count sep

/-- Stable insertion before the first element of depth `≥ depthOf x`. -/
def insDepth (x : Path) : List Path → List Path
  | [] => [x]
  | y :: ys => if depthOf y < depthOf x then y :: insDepth x ys else x :: y :: ys

/-- Stable sort by ascending separator count, as `sorted(..., key=lambda x:
    x.count(os.path.sep))` on lines 169 and 207. -/
def sortByDepth : List Path → List Path
  | [] => []
  | x :: xs => insDepth x (sortByDepth xs)

/-- Some folder of `S` equals `p` or lies above it. -/
def coveredB (S : List Path) (p : Path) : Bool := S.any (fun g => sameOrUnderB g p)

/-- The joined path `os.path.join(root, p)`. -/
def joinP (root p : Path) : Path := root ++ sep :: p

/-- All strict hierarchical ancestors of `p`. -/
def ancestorsOf (p : Path) : List Path :=
  (List.range p.length).filterMap
    (fun i => if p.get? i = some sep then some (p.take i) else none)

/-- The parent directory of a relative path, `none` when the path has a
    single segment. -/
def parentDir (p : Path) : Option Path :=
  match p.reverse.dropWhile (fun c => !(c = sep : Bool)) with
  | [] => none
  | _ :: rest => some rest.reverse

/-- Event levels emitted by the engine (constants at lines 14-19). -/
inductive LogType where
  | CREATED
  | DELETED
  | UPDATED
  | ERROR
deriving DecidableEq

abbrev LogEntry := LogType × Path

/-- Occurrence count of a log entry. -/
def countE (e : LogEntry) : List LogEntry → Nat
  | [] => 0
  | x :: xs => (if x = e then 1 else 0) + countE e xs

/-- A directory tree: files with modification times, and folders, all by
    relative path.  This is what one `get_all_files_and_folders` walk of a
    real tree observes. -/
structure Tree where
  files : List (Path × Nat)
  folders : List Path
deriving DecidableEq

def lookupM : List (Path × Nat) → Path → Option Nat
  | [], _ => none
  | e :: rest, p => if e.1 = p then some e.2 else lookupM rest p

def Tree.mtime (t : Tree) (p : Path) : Option Nat := lookupM t.files p

def Tree.hasFile (t : Tree) (p : Path) : Bool := (t.mtime p).isSome

def Tree.hasFolder (t : Tree) (p : Path) : Bool := pmem p t.folders

def filesOf (t : Tree) : List Path := t.files.map (fun e => e.1)

/-- `shutil.rmtree`: removes the folder and its whole subtree; raises when
    the folder is absent or the oracle `op` fails the call. -/
def rmtree (op : List Path) (t : Tree) (g : Path) : Except Unit Tree :=
  if pmem g op || !(t.hasFolder g) then .error () else
    .ok ⟨t.files.filter (fun e => !(sameOrUnderB g e.1)),
         t.folders.filter (fun f => !(sameOrUnderB g f))⟩

/-- `os.remove`: removes one file; raises when absent or the oracle fails it. -/
def removeFile (op : List Path) (t : Tree) (p : Path) : Except Unit Tree :=
  if pmem p op || !(t.hasFile p) then .error () else
    .ok ⟨t.files.filter (fun e => if e.1 = p then false else true), t.folders⟩

/-- `shutil.copytree` from the source subtree at `g` to the same relative
    location in `dst`: raises when the destination exists or the source is
    absent; `os.makedirs` inside it creates missing ancestors of `g`. -/
def copytree (op : List Path) (src : Tree) (dst : Tree) (g : Path) : Except Unit Tree :=
  if pmem g op || !(src.hasFolder g) || dst.hasFolder g || dst.hasFile g then .error ()
  else
    .ok ⟨dst.files ++ src.files.filter (fun e => isUnderB g e.1),
         dst.folders ++ (ancestorsOf g).filter (fun a => !(dst.hasFolder a))
           ++ g :: src.folders.filter (fun f => isUnderB g f)⟩

/-- Overwriting copy of one file's content and metadata (modification time). -/
def copyWrite (src dst : Tree) (p : Path) : Tree :=
  ⟨dst.files.filter (fun e => if e.1 = p then false else true) ++ [(p, (src.mtime p).getD 0)],
   dst.folders⟩

/-- `shutil.copy2`: copy with metadata; raises when the source file is absent,
    the destination's parent directory is missing, or the oracle fails it. -/
def copy2 (op : List Path) (src : Tree) (dst : Tree) (p : Path) : Except Unit Tree :=
  if pmem p op || !(src.hasFile p) then .error ()
  else
    match parentDir p with
    | some d => if dst.hasFolder d then .ok (copyWrite src dst p) else .error ()
    | none => .ok (copyWrite src dst p)

/-- `os.path.getmtime`: raises when the file is absent or the stat oracle
    fails it.  In `update_files` this call sits outside the `try` block. -/
def getmtimeE (statL : List Path) (t : Tree) (p : Path) : Except Unit Nat :=
  if pmem p statL then .error ()
  else
    match t.mtime p with
    | some m => .ok m
    | none => .error ()

structure LoopSt where
  tree : Tree
  marked : List Path
  log : List LogEntry

/-- First loop of `delete_files` (lines 169-181): folders in ascending depth
    order; a successful `rmtree` marks and logs every item of
    `all_folders | all_files` that contains the folder's path as a substring. -/
def delFolderLoop (root : Path) (items : List Path) (op : List Path) :
    List Path → LoopSt → LoopSt
  | [], s => s
  | g :: rest, s =>
    if pmem g s.marked then delFolderLoop root items op rest s
    else
      match rmtree op s.tree g with
      | .ok t' =>
          let newly := items.filter (fun p => strContainsB g p)
          delFolderLoop root items op rest
            ⟨t', s.marked ++ newly,
             s.log ++ newly.map (fun p => (LogType.DELETED, joinP root p))⟩
      | .error _ =>
          delFolderLoop root items op rest
            ⟨s.tree, s.marked, s.log ++ [(LogType.ERROR, joinP root g)]⟩

/-- Second loop of `delete_files` (lines 183-190): files not already marked
    are removed individually. -/
def delFileLoop (root : Path) (op : List Path) : List Path → LoopSt → LoopSt
  | [], s => s
  | f :: rest, s =>
    if pmem f s.marked then delFileLoop root op rest s
    else
      match removeFile op s.tree f with
      | .ok t' =>
          delFileLoop root op rest ⟨t', s.marked, s.log ++ [(LogType.DELETED, joinP root f)]⟩
      | .error _ =>
          delFileLoop root op rest ⟨s.tree, s.marked, s.log ++ [(LogType.ERROR, joinP root f)]⟩

/-- `delete_files` (lines 157-190). -/
def delete_files (all_folders all_files : List Path) (path : Path) (t : Tree)
    (op : List Path) : Tree × List LogEntry :=
  let s1 := delFolderLoop path (all_folders ++ all_files) op (sortByDepth all_folders)
    ⟨t, [], []⟩
  let s2 := delFileLoop path op all_files s1
  (s2.tree, s2.log)

/-- First loop of `create_files` (lines 207-220): folders in ascending depth
    order; a successful `copytree` marks and logs every item containing the
    folder's path as a substring. -/
def creFolderLoop (src : Tree) (destRoot : Path) (items : List Path) (op : List Path) :
    List Path → LoopSt → LoopSt
  | [], s => s
  | g :: rest, s =>
    if pmem g s.marked then creFolderLoop src destRoot items op rest s
    else
      match copytree op src s.tree g with
      | .ok t' =>
          let newly := items.filter (fun p => strContainsB g p)
          creFolderLoop src destRoot items op rest
            ⟨t', s.marked ++ newly,
             s.log ++ newly.map (fun p => (LogType.CREATED, joinP destRoot p))⟩
      | .error _ =>
          creFolderLoop src destRoot items op rest
            ⟨s.tree, s.marked, s.log ++ [(LogType.ERROR, joinP destRoot g)]⟩

/-- Second loop of `create_files` (lines 222-230). -/
def creFileLoop (src : Tree) (destRoot : Path) (op : List Path) :
    List Path → LoopSt → LoopSt
  | [], s => s
  | f :: rest, s =>
    if pmem f s.marked then creFileLoop src destRoot op rest s
    else
      match copy2 op src s.tree f with
      | .ok t' =>
          creFileLoop src destRoot op rest
            ⟨t', s.marked, s.log ++ [(LogType.CREATED, joinP destRoot f)]⟩
      | .error _ =>
          creFileLoop src destRoot op rest
            ⟨s.tree, s.marked, s.log ++ [(LogType.ERROR, joinP destRoot f)]⟩

/-- `create_files` (lines 194-230). -/
def create_files (all_folders all_files : List Path) (src : Tree)
    (destination_path : Path) (t : Tree) (op : List Path) : Tree × List LogEntry :=
  let s1 := creFolderLoop src destination_path (all_folders ++ all_files) op
    (sortByDepth all_folders) ⟨t, [], []⟩
  let s2 := creFileLoop src destination_path op all_files s1
  (s2.tree, s2.log)

/-- Loop of `update_files` (lines 242-254).  The two `getmtime` calls sit
    outside the `try` block, so a stat failure aborts the whole cycle; the
    `Except` error value carries the offending relative path. -/
def updLoop (destRoot : Path) (src : Tree) (statL opL : List Path) :
    List Path → Tree → List LogEntry → Except Path (Tree × List LogEntry)
  | [], t, log => .ok (t, log)
  | f :: rest, t, log =>
    match getmtimeE statL src f with
    | .error _ => .error f
    | .ok ms =>
      match getmtimeE statL t f with
      | .error _ => .error f
      | .ok md =>
        if md ≠ ms then
          match copy2 opL src t f with
          | .ok t' =>
              updLoop destRoot src statL opL rest t'
                (log ++ [(LogType.UPDATED, joinP destRoot f)])
          | .error _ =>
              updLoop destRoot src statL opL rest t
                (log ++ [(LogType.ERROR, joinP destRoot f)])
        else updLoop destRoot src statL opL rest t log

/-- `update_files` (lines 232-254). -/
def update_files (all_files : List Path) (src : Tree) (destination_path : Path)
    (t : Tree) (statL opL : List Path) : Except Path (Tree × List LogEntry) :=
  updLoop destination_path src statL opL all_files t []

/-- The five diff sets of lines 281-285. -/
structure DiffResult where
  deletedFiles : List Path
  deletedFolders : List Path
  createdFiles : List Path
  createdFolders : List Path
  commonFiles : List Path

/-- List difference with membership semantics of Python set difference. -/
def diffL (a b : List Path) : List Path := a.filter (fun x => !(pmem x b))

/-- List intersection with membership semantics of Python set intersection. -/
def interL (a b : List Path) : List Path := a.filter (fun x => pmem x b)

/-- `get_all_files_and_folders` (lines 131-155): one snapshot of a tree. -/
def get_all_files_and_folders (t : Tree) : List Path × List Path :=
  (filesOf t, t.folders)

/-- The Diff Computer: lines 281-285 of `sync_folders`. -/
def compute_diff (source_files source_folders replica_files replica_folders : List Path) :
    DiffResult :=
  { deletedFiles := diffL replica_files source_files
    deletedFolders := diffL replica_folders source_folders
    createdFiles := diffL source_files replica_files
    createdFolders := diffL source_folders replica_folders
    commonFiles := interL source_files replica_files }

/-- The world a cycle acts on: the two trees plus the four existence bits
    tested at line 275. -/
structure World where
  source : Tree
  replica : Tree
  logDirExists : Bool
  logFileExists : Bool
  sourceExists : Bool
  replicaExists : Bool

/-- `sync_folders` (lines 257-291): precondition check, two snapshots, diff,
    then Deletion, Creation, Update in that order. -/
def sync_folders (source_path replica_path : Path) (w : World)
    (statL opL : List Path) : Except Path (Bool × Tree × List LogEntry) :=
  if !(w.logDirExists && w.logFileExists && w.sourceExists && w.replicaExists) then
    .ok (false, w.replica, [])
  else
    let s := get_all_files_and_folders w.source
    let r := get_all_files_and_folders w.replica
    let d := compute_diff s.1 s.2 r.1 r.2
    let r1 := delete_files d.deletedFolders d.deletedFiles replica_path w.replica opL
    let r2 := create_files d.createdFolders d.createdFiles w.source replica_path r1.1 opL
    match update_files d.commonFiles w.source replica_path r2.1 statL opL with
    | .error p => .error p
    | .ok u => .ok (true, u.1, r1.2 ++ r2.2 ++ u.2)

/-- `log_message` with a non-`None` file path (lines 55-57): `open(file_path,
    "a")` appends, creating the file when it does not exist, so the file state
    is `none` (absent) or `some entries`. -/
def log_message (file : Option (List LogEntry)) (e : LogEntry) : Option (List LogEntry) :=
  some (file.getD [] ++ [e])

def okFlag : Except Path (Bool × Tree × List LogEntry) → Option Bool
  | .ok r => some r.1
  | .error _ => none

def okTree : Except Path (Bool × Tree × List LogEntry) → Option Tree
  | .ok r => some r.2.1
  | .error _ => none

def okLog : Except Path (Bool × Tree × List LogEntry) → Option (List LogEntry)
  | .ok r => some r.2.2
  | .error _ => none

/-- The propagated pre-exception path of a failed cycle, if any. -/
def errPath : Except Path (Bool × Tree × List LogEntry) → Option Path
  | .ok _ => none
  | .error p => some p

/-- Occurrence count of a path in a list of paths. -/
def countP (p : Path) : List Path → Nat
  | [] => 0
  | x :: xs => (if x = p then 1 else 0) + countP p xs

/-- Well-formedness of a snapshot of a real directory tree: no duplicate
    entries, no path that is both a file and a folder, and every hierarchical
    ancestor of a recorded path is a recorded folder (guaranteed by `os.walk`
    on a real filesystem). -/
def WF (t : Tree) : Prop :=
  (filesOf t).Nodup ∧ t.folders.Nodup ∧
  (∀ p ∈ t.folders, p ∉ filesOf t) ∧
  (∀ p ∈ t.folders, ∀ a ∈ ancestorsOf p, a ∈ t.folders) ∧
  (∀ p ∈ filesOf t, ∀ a ∈ ancestorsOf p, a ∈ t.folders)

instance (t : Tree) : Decidable (WF t) := by
  unfold WF
  infer_instance

/-! Concrete instances used to evaluate the engine at specific inputs. -/

def sroot : Path := ['s']
def rroot : Path := ['r']
def pA : Path := ['a']
def pAx : Path := ['a', '/', 'x']
def pAB : Path := ['a', 'b']
def pB : Path := ['b']
def pABx : Path := ['a', 'b', '/', 'x']
def pB1 : Path := ['b', '1']
def pB10 : Path := ['b', '1', '0']
def pB10x : Path := ['b', '1', '0', '/', 'x']
def pC : Path := ['c']
def pD : Path := ['d']

def emptyTree : Tree := ⟨[], []⟩

/-- Replica holding folders `b1` and `b10` and file `b10/x`: deleting `b1`
    marks `b10` and `b10/x` as handled because `"b1"` is a substring of both. -/
def repB : Tree := ⟨[(pB10x, 7)], [pB1, pB10]⟩

def wB : World := ⟨emptyTree, repB, true, true, true, true⟩

/-- Source holding folders `b1` and `b10` and file `b10/x`, for the creation
    side of the substring collision. -/
def srcB : Tree := ⟨[(pB10x, 7)], [pB1, pB10]⟩

def wBc : World := ⟨srcB, emptyTree, true, true, true, true⟩

/-- Replica with folders `ab` and `b` and file `ab/x`: after `ab` is removed,
    removing `b` re-logs `ab` and `ab/x` because `"b"` is a substring of both. -/
def repAB : Tree := ⟨[(pABx, 5)], [pAB, pB]⟩

def wAB : World := ⟨emptyTree, repAB, true, true, true, true⟩

/-- Replica whose only replica-only items are folder `a` and file `a/x`. -/
def repA : Tree := ⟨[(pAx, 5)], [pA]⟩

def wA : World := ⟨emptyTree, repA, true, true, true, true⟩

/-- Source with folder `a` and file `a/x`, replica empty: a clean creation run. -/
def srcA : Tree := ⟨[(pAx, 3)], [pA]⟩

def wCreate : World := ⟨srcA, emptyTree, true, true, true, true⟩

/-- Both trees share file `c` with different timestamps. -/
def srcC : Tree := ⟨[(pC, 1)], []⟩
def repC : Tree := ⟨[(pC, 2)], []⟩
def wC : World := ⟨srcC, repC, true, true, true, true⟩

/-- Both trees share file `d` with different timestamps. -/
def srcD : Tree := ⟨[(pD, 1)], []⟩
def repD : Tree := ⟨[(pD, 2)], []⟩
def wD : World := ⟨srcD, repD, true, true, true, true⟩

/-- Replica state left behind by the first cycle on `wB`. -/
def treeB1 : Tree := (okTree (sync_folders sroot rroot wB [] [])).getD emptyTree

/-- Second-cycle world after the first cycle on `wB`, with no external change. -/
def wB2 : World := ⟨emptyTree, treeB1, true, true, true, true⟩

/-- Replica holding only the file `c`, with an empty source: its deletion is
    attempted directly, with no folder cascade involved. -/
def repE : Tree := ⟨[(pC, 2)], []⟩

def wE : World := ⟨emptyTree, repE, true, true, true, true⟩

/-- Source holding only the file `c`, with an empty replica. -/
def wCreateFile : World := ⟨srcC, emptyTree, true, true, true, true⟩

/-- A world whose log file has vanished: the cycle-start check fails. -/
def wNoLog : World := ⟨emptyTree, emptyTree, true, false, true, true⟩

/-! ### Basic bridging lemmas -/

theorem bool_ext {a b : Bool} (h : a = true ↔ b = true) : a = b := by
  cases a <;> cases b <;> simp_all

theorem pmem_iff {p : Path} {l : List Path} : pmem p l = true ↔ p ∈ l := by
  induction l with
  | nil => simp [pmem]
  | cons x xs ih =>
    by_cases h : x = p
    · simp [pmem, h]
    · have h' : ¬ p = x := fun hh => h hh.symm
      simp [pmem, h, h', ih]

theorem pmem_cons {p x : Path} {l : List Path} :
    pmem p (x :: l) = if x = p then true else pmem p l := rfl

theorem pmem_append {p : Path} {a b : List Path} :
    pmem p (a ++ b) = (pmem p a || pmem p b) := by
  induction a with
  | nil => simp [pmem]
  | cons x xs ih =>
    by_cases h : x = p <;> simp [pmem, h, ih]

theorem pmem_filter {p : Path} {q : Path → Bool} {l : List Path} :
    pmem p (l.filter q) = (q p && pmem p l) := by
  induction l with
  | nil => simp [pmem]
  | cons x xs ih =>
    by_cases hx : x = p
    · subst hx
      cases hq : q x <;> simp [pmem, List.filter_cons, hq, ih]
    · cases hq : q x <;> simp [pmem, List.filter_cons, hq, hx, ih]

theorem isPre_iff : ∀ (a b : Path), isPre a b = true ↔ ∃ t, b = a ++ t
  | [], b => ⟨fun _ => ⟨b, rfl⟩, fun _ => rfl⟩
  | x :: as, [] => by
      constructor
      · intro h; exact absurd h (by simp [isPre])
      · rintro ⟨t, ht⟩; exact absurd ht (by simp)
  | x :: as, y :: bs => by
      constructor
      · intro h
        have hxy : x = y := by
          by_contra hne
          simp [isPre, hne] at h
        subst hxy
        have h2 : isPre as bs = true := by simpa [isPre] using h
        obtain ⟨t, rfl⟩ := (isPre_iff as bs).1 h2
        exact ⟨t, rfl⟩
      · rintro ⟨t, ht⟩
        have h1 : y = x := by injection ht
        have h2 : bs = as ++ t := by injection ht
        subst h1
        simp only [isPre, if_pos rfl]
        exact (isPre_iff as bs).2 ⟨t, h2⟩

theorem strContainsB_iff {a b : Path} :
    strContainsB a b = true ↔ ∃ s t, b = s ++ a ++ t := by
  constructor
  · intro h
    obtain ⟨i, _, hi⟩ := List.any_eq_true.1 h
    obtain ⟨t, ht⟩ := (isPre_iff a (b.drop i)).1 hi
    exact ⟨b.take i, t, by rw [List.append_assoc, ← ht, List.take_append_drop]⟩
  · rintro ⟨s, t, rfl⟩
    apply List.any_eq_true.2
    refine ⟨s.length, ?_, ?_⟩
    · simp [List.mem_range]
      omega
    · have : ((s ++ a ++ t).drop s.length) = a ++ t := by
        rw [List.append_assoc]
        exact List.drop_left s (a ++ t)
      rw [this]
      exact (isPre_iff a (a ++ t)).2 ⟨t, rfl⟩

theorem isUnderB_iff {a b : Path} :
    isUnderB a b = true ↔ ∃ t, b = a ++ sep :: t := by
  unfold isUnderB
  rw [isPre_iff]
  constructor
  · rintro ⟨t, rfl⟩; exact ⟨t, by simp⟩
  · rintro ⟨t, rfl⟩; exact ⟨t, by simp⟩

theorem sameOrUnderB_iff {a b : Path} :
    sameOrUnderB a b = true ↔ a = b ∨ isUnderB a b = true := by
  by_cases h : a = b <;> simp [sameOrUnderB, h]

theorem sameOrUnder_refl (a : Path) : sameOrUnderB a a = true := by
  simp [sameOrUnderB]

theorem isUnder_strContains {g p : Path} (h : isUnderB g p = true) :
    strContainsB g p = true := by
  obtain ⟨t, rfl⟩ := isUnderB_iff.1 h
  exact strContainsB_iff.2 ⟨[], sep :: t, rfl⟩

theorem strContains_self (a : Path) : strContainsB a a = true :=
  strContainsB_iff.2 ⟨[], [], by simp⟩

theorem sameOrUnder_strContains {g p : Path} (h : sameOrUnderB g p = true) :
    strContainsB g p = true := by
  rcases sameOrUnderB_iff.1 h with rfl | h2
  · exact strContains_self g
  · exact isUnder_strContains h2

theorem sameOrUnder_trans {a b c : Path} (h1 : sameOrUnderB a b = true)
    (h2 : sameOrUnderB b c = true) : sameOrUnderB a c = true := by
  rcases sameOrUnderB_iff.1 h1 with rfl | hu1
  · exact h2
  · rcases sameOrUnderB_iff.1 h2 with rfl | hu2
    · exact sameOrUnderB_iff.2 (Or.inr hu1)
    · obtain ⟨t, rfl⟩ := isUnderB_iff.1 hu1
      obtain ⟨u, rfl⟩ := isUnderB_iff.1 hu2
      refine sameOrUnderB_iff.2 (Or.inr (isUnderB_iff.2 ⟨t ++ sep :: u, ?_⟩))
      simp

theorem isUnder_depth {g p : Path} (h : isUnderB g p = true) :
    depthOf g < depthOf p := by
  obtain ⟨t, rfl⟩ := isUnderB_iff.1 h
  simp [depthOf, List.count_append, List.count_cons, sep]

theorem sameOrUnder_depth {g p : Path} (h : sameOrUnderB g p = true) :
    depthOf g ≤ depthOf p := by
  rcases sameOrUnderB_iff.1 h with rfl | hu
  · exact le_rfl
  · exact le_of_lt (isUnder_depth hu)

theorem pre_comparable : ∀ (a b p : Path), (∃ t, p = a ++ t) → (∃ s, p = b ++ s) →
    (∃ u, b = a ++ u) ∨ (∃ u, a = b ++ u)
  | [], b, p, _, _ => .inl ⟨b, rfl⟩
  | x :: as, [], p, _, _ => .inr ⟨x :: as, rfl⟩
  | x :: as, y :: bs, p, ⟨t, ht⟩, ⟨s, hs⟩ => by
      subst ht
      have h1 : x = y := by
        have := hs
        simp only [List.cons_append] at this
        injection this
      have h2 : as ++ t = bs ++ s := by
        have := hs
        simp only [List.cons_append] at this
        injection this
      subst h1
      rcases pre_comparable as bs (as ++ t) ⟨t, rfl⟩ ⟨s, h2⟩ with ⟨u, hu⟩ | ⟨u, hu⟩
      · exact .inl ⟨u, by rw [List.cons_append, ← hu]⟩
      · exact .inr ⟨u, by rw [List.cons_append, ← hu]⟩

theorem appendSep_cases (f g u : Path) (h : g ++ [sep] = f ++ [sep] ++ u) :
    f = g ∨ ∃ w, g = f ++ sep :: w := by
  rcases List.eq_nil_or_concat u with rfl | ⟨w, x, rfl⟩
  · left
    have h2 : g ++ [sep] = f ++ [sep] := by simpa using h
    exact ((List.append_left_inj _).1 h2).symm
  · right
    have h2 : g ++ [sep] = (f ++ [sep] ++ w) ++ [x] := by
      rw [h]
      simp [List.concat_eq_append, List.append_assoc]
    have h3 := List.append_inj' h2 rfl
    exact ⟨w, by rw [h3.1]; simp [List.append_assoc]⟩

theorem sameOrUnder_comparable {f g p : Path} (hf : sameOrUnderB f p = true)
    (hg : sameOrUnderB g p = true) :
    sameOrUnderB f g = true ∨ sameOrUnderB g f = true := by
  rcases sameOrUnderB_iff.1 hf with rfl | huf
  · exact .inr hg
  · rcases sameOrUnderB_iff.1 hg with rfl | hug
    · exact .inl hf
    · obtain ⟨t, rfl⟩ := isUnderB_iff.1 huf
      obtain ⟨s, hs⟩ := isUnderB_iff.1 hug
      have hp1 : ∃ t2, f ++ sep :: t = (f ++ [sep]) ++ t2 := ⟨t, by simp⟩
      have hp2 : ∃ t2, f ++ sep :: t = (g ++ [sep]) ++ t2 := ⟨s, by simpa using hs⟩
      rcases pre_comparable (f ++ [sep]) (g ++ [sep]) (f ++ sep :: t) hp1 hp2 with
        ⟨u, hu⟩ | ⟨u, hu⟩
      · rcases appendSep_cases f g u (by simpa using hu) with rfl | ⟨w, hw⟩
        · exact .inl (sameOrUnder_refl f)
        · exact .inl (sameOrUnderB_iff.2 (.inr (isUnderB_iff.2 ⟨w, hw⟩)))
      · rcases appendSep_cases g f u (by simpa using hu) with rfl | ⟨w, hw⟩
        · exact .inl (sameOrUnder_refl g)
        · exact .inr (sameOrUnderB_iff.2 (.inr (isUnderB_iff.2 ⟨w, hw⟩)))

theorem joinP_inj {r a b : Path} (h : joinP r a = joinP r b) : a = b := by
  unfold joinP at h
  have h2 : sep :: a = sep :: b := List.append_cancel_left h
  injection h2

/-! ### Coverage lemmas -/

theorem coveredB_nil {p : Path} : coveredB [] p = false := rfl

theorem coveredB_iff {S : List Path} {p : Path} :
    coveredB S p = true ↔ ∃ g ∈ S, sameOrUnderB g p = true := by
  simp [coveredB, List.any_eq_true]

theorem coveredB_cons {g : Path} {S : List Path} {p : Path} :
    coveredB (g :: S) p = (sameOrUnderB g p || coveredB S p) := by
  simp [coveredB]

theorem coveredB_append {A B : List Path} {p : Path} :
    coveredB (A ++ B) p = (coveredB A p || coveredB B p) := by
  simp [coveredB]

theorem coveredB_congr {A B : List Path} (h : ∀ g, g ∈ A ↔ g ∈ B) (p : Path) :
    coveredB A p = coveredB B p := by
  apply bool_ext
  rw [coveredB_iff, coveredB_iff]
  constructor
  · rintro ⟨g, hg, hs⟩; exact ⟨g, (h g).1 hg, hs⟩
  · rintro ⟨g, hg, hs⟩; exact ⟨g, (h g).2 hg, hs⟩

theorem covered_absorbs {S : List Path} {g p : Path} (hg : coveredB S g = true)
    (hp : sameOrUnderB g p = true) : coveredB S p = true := by
  obtain ⟨h, hh, hs⟩ := coveredB_iff.1 hg
  exact coveredB_iff.2 ⟨h, hh, sameOrUnder_trans hs hp⟩

theorem covered_self {S : List Path} {g : Path} (h : g ∈ S) : coveredB S g = true :=
  coveredB_iff.2 ⟨g, h, sameOrUnder_refl g⟩

/-! ### Counting lemmas -/

theorem countE_append {e : LogEntry} {a b : List LogEntry} :
    countE e (a ++ b) = countE e a + countE e b := by
  induction a with
  | nil => simp [countE]
  | cons x xs ih => simp [countE, ih]; omega

theorem countE_zero {e : LogEntry} {l : List LogEntry} (h : ∀ x ∈ l, x ≠ e) :
    countE e l = 0 := by
  induction l with
  | nil => rfl
  | cons x xs ih =>
    have hx : x ≠ e := h x (by simp)
    simp [countE, hx, ih fun y hy => h y (by simp [hy])]

theorem countP_append {p : Path} {a b : List Path} :
    countP p (a ++ b) = countP p a + countP p b := by
  induction a with
  | nil => simp [countP]
  | cons x xs ih => simp [countP, ih]; omega

theorem countP_filter {p : Path} {q : Path → Bool} {l : List Path} :
    countP p (l.filter q) = if q p = true then countP p l else 0 := by
  induction l with
  | nil => simp [countP]
  | cons x xs ih =>
    by_cases hx : x = p
    · subst hx
      cases hq : q x <;> simp [List.filter_cons, hq, countP, ih]
    · cases hq : q x <;> simp [List.filter_cons, hq, countP, hx, ih]

theorem countP_nodup {p : Path} {l : List Path} (h : l.Nodup) :
    countP p l = if pmem p l = true then 1 else 0 := by
  induction l with
  | nil => simp [countP, pmem]
  | cons x xs ih =>
    have hx : x ∉ xs := (List.nodup_cons.1 h).1
    by_cases hxp : x = p
    · subst hxp
      have : pmem x xs = false := by
        cases hm : pmem x xs
        · rfl
        · exact absurd (pmem_iff.1 hm) hx
      simp [countP, pmem, this, ih (List.nodup_cons.1 h).2]
    · simp [countP, pmem, hxp, ih (List.nodup_cons.1 h).2]

theorem countE_map_join {ty : LogType} {root p : Path} {l : List Path} :
    countE (ty, joinP root p) (l.map fun q => (ty, joinP root q)) = countP p l := by
  induction l with
  | nil => rfl
  | cons x xs ih =>
    by_cases hx : x = p
    · subst hx; simp [countE, countP, ih]
    · have hj : ¬ ((ty, joinP root x) = (ty, joinP root p)) := by
        intro hc
        exact hx (joinP_inj (congrArg Prod.snd hc))
      simp [countE, countP, hx, hj, ih]

/-! ### Sorting lemmas -/

theorem insDepth_perm (x : Path) (l : List Path) : (insDepth x l).Perm (x :: l) := by
  induction l with
  | nil => simp [insDepth]
  | cons y ys ih =>
    by_cases h : depthOf y < depthOf x
    · simp only [insDepth, if_pos h]
      exact (ih.cons y).trans (List.Perm.swap x y ys)
    · simp [insDepth, if_neg h]

theorem sortByDepth_perm (l : List Path) : (sortByDepth l).Perm l := by
  induction l with
  | nil => simp [sortByDepth]
  | cons x xs ih =>
    exact (insDepth_perm x (sortByDepth xs)).trans (ih.cons x)

theorem sortByDepth_mem {l : List Path} {x : Path} : x ∈ sortByDepth l ↔ x ∈ l :=
  (sortByDepth_perm l).mem_iff

theorem insDepth_le {x : Path} {l : List Path}
    (h : l.Pairwise (fun a b => depthOf a ≤ depthOf b)) :
    (insDepth x l).Pairwise (fun a b => depthOf a ≤ depthOf b) := by
  induction l with
  | nil => simp [insDepth]
  | cons y ys ih =>
    rcases List.pairwise_cons.1 h with ⟨hy, hys⟩
    by_cases hd : depthOf y < depthOf x
    · simp only [insDepth, if_pos hd]
      refine List.pairwise_cons.2 ⟨?_, ih hys⟩
      intro z hz
      rcases List.mem_cons.1 ((insDepth_perm x ys).mem_iff.1 hz) with rfl | hz2
      · exact le_of_lt hd
      · exact hy z hz2
    · simp only [insDepth, if_neg hd]
      refine List.pairwise_cons.2 ⟨?_, h⟩
      intro z hz
      have hxy : depthOf x ≤ depthOf y := le_of_not_lt hd
      rcases List.mem_cons.1 hz with rfl | hz2
      · exact hxy
      · exact hxy.trans (hy z hz2)

theorem sortByDepth_sorted (l : List Path) :
    (sortByDepth l).Pairwise (fun a b => depthOf a ≤ depthOf b) := by
  induction l with
  | nil => simp [sortByDepth]
  | cons x xs ih => exact insDepth_le ih

/-- The depth-sorted copy of a duplicate-free list never shows a folder after
    one of its descendants: the relation needed by the marking arguments. -/
theorem sortByDepth_pairwiseR {l : List Path} (h : l.Nodup) :
    (sortByDepth l).Pairwise (fun a b => sameOrUnderB b a = false) := by
  have h1 := sortByDepth_sorted l
  have h2 : (sortByDepth l).Nodup := ((sortByDepth_perm l).nodup_iff).2 h
  have h3 := h1.and h2
  refine h3.imp ?_
  intro a b hab
  cases hc : sameOrUnderB b a with
  | false => rfl
  | true =>
    rcases sameOrUnderB_iff.1 hc with rfl | hu
    · exact absurd rfl hab.2
    · exact absurd hab.1 (not_le.2 (isUnder_depth hu))

/-! ### Ancestors and parent directories -/

theorem dropWhile_head_not {q : Char → Bool} :
    ∀ {l : List Char} {x : Char} {xs : List Char},
      l.dropWhile q = x :: xs → q x = false := by
  intro l
  induction l with
  | nil => intro x xs h; cases h
  | cons y ys ih =>
    intro x xs h
    cases hq : q y
    · rw [List.dropWhile_cons_of_neg (by simp [hq])] at h
      injection h with h1 _
      subst h1; exact hq
    · rw [List.dropWhile_cons_of_pos hq] at h
      exact ih h

theorem ancestorsOf_iff {a p : Path} : a ∈ ancestorsOf p ↔ isUnderB a p = true := by
  unfold ancestorsOf
  rw [List.mem_filterMap]
  constructor
  · rintro ⟨i, hi, hcond⟩
    by_cases hc : p.get? i = some sep
    · rw [if_pos hc] at hcond
      injection hcond with ha
      subst ha
      rcases List.get?_eq_some.1 hc with ⟨hlen, hget⟩
      apply isUnderB_iff.2
      refine ⟨p.drop (i + 1), ?_⟩
      conv_lhs => rw [← List.take_append_drop i p]
      congr 1
      have hpi : p[i] = sep := by simpa [List.get_eq_getElem] using hget
      rw [List.drop_eq_getElem_cons hlen, hpi]
    · rw [if_neg hc] at hcond; cases hcond
  · intro h
    obtain ⟨t, rfl⟩ := isUnderB_iff.1 h
    refine ⟨a.length, ?_, ?_⟩
    · rw [List.mem_range, List.length_append, List.length_cons]
      omega
    · have hget : (a ++ sep :: t).get? a.length = some sep := by
        rw [List.get?_append_right (le_refl _)]
        simp
      rw [if_pos hget]
      congr 1
      exact List.take_left a (sep :: t)

theorem parentDir_isUnder {p d : Path} (h : parentDir p = some d) :
    isUnderB d p = true := by
  unfold parentDir at h
  cases hd : p.reverse.dropWhile (fun c => !(c = sep : Bool)) with
  | nil => rw [hd] at h; cases h
  | cons x rest =>
    rw [hd] at h
    injection h with h2
    have hx : (!(x = sep : Bool)) = false := dropWhile_head_not hd
    have hxs : x = sep := by simpa using hx
    subst hxs
    have hsplit :
        p.reverse.takeWhile (fun c => !(c = sep : Bool)) ++ (sep :: rest) = p.reverse := by
      rw [← hd]; exact List.takeWhile_append_dropWhile _ _
    apply isUnderB_iff.2
    refine ⟨(p.reverse.takeWhile (fun c => !(c = sep : Bool))).reverse, ?_⟩
    subst h2
    conv_lhs => rw [← List.reverse_reverse p, ← hsplit]
    rw [List.reverse_append, List.reverse_cons, List.append_assoc]
    simp

/-! ### Lookup lemmas -/

theorem lookupM_filter {P : Path × Nat → Bool} {Q : Path → Bool}
    (hPQ : ∀ e, P e = Q e.1) :
    ∀ (l : List (Path × Nat)) (p : Path),
      lookupM (l.filter P) p = if Q p = true then lookupM l p else none := by
  intro l
  induction l with
  | nil => intro p; simp [lookupM]
  | cons e rest ih =>
    intro p
    rw [List.filter_cons]
    by_cases hq : P e = true
    · rw [if_pos hq]
      by_cases hp : e.1 = p
      · have hQp : Q p = true := by rw [← hp, ← hPQ]; exact hq
        subst hp; simp [lookupM, hQp]
      · simp [lookupM, hp, ih]
    · rw [if_neg hq]
      by_cases hp : e.1 = p
      · have hQp : ¬ Q p = true := by rw [← hp, ← hPQ]; exact hq
        subst hp
        rw [ih]
        simp [lookupM, hQp]
      · simp [lookupM, hp, ih]

theorem lookupM_append :
    ∀ (l1 l2 : List (Path × Nat)) (p : Path),
      lookupM (l1 ++ l2) p =
        match lookupM l1 p with
        | some m => some m
        | none => lookupM l2 p := by
  intro l1
  induction l1 with
  | nil => intro l2 p; simp [lookupM]
  | cons e rest ih =>
    intro l2 p
    by_cases hp : e.1 = p
    · subst hp; simp [lookupM]
    · simp [lookupM, hp, ih]

theorem lookupM_isSome_iff {l : List (Path × Nat)} {p : Path} :
    (lookupM l p).isSome = true ↔ p ∈ l.map (fun e => e.1) := by
  induction l with
  | nil => simp [lookupM]
  | cons e rest ih =>
    by_cases hp : e.1 = p
    · subst hp; simp [lookupM]
    · have hp' : ¬ p = e.1 := fun hh => hp hh.symm
      simp [lookupM, hp, hp', ih]

theorem hasFile_iff {t : Tree} {p : Path} : t.hasFile p = true ↔ p ∈ filesOf t := by
  unfold Tree.hasFile Tree.mtime filesOf
  exact lookupM_isSome_iff

theorem hasFolder_iff {t : Tree} {p : Path} : t.hasFolder p = true ↔ p ∈ t.folders := by
  unfold Tree.hasFolder
  exact pmem_iff

theorem mtime_isSome_of_mem {t : Tree} {p : Path} (h : p ∈ filesOf t) :
    (t.mtime p).isSome = true := hasFile_iff.2 h

/-! ### Filesystem operation specifications -/

theorem rmtree_ok {op : List Path} {t : Tree} {g : Path} {t' : Tree}
    (h : rmtree op t g = .ok t') :
    pmem g op = false ∧ t.hasFolder g = true ∧
    (∀ p, t'.mtime p = if sameOrUnderB g p = true then none else t.mtime p) ∧
    (∀ p, t'.hasFolder p = (!(sameOrUnderB g p) && t.hasFolder p)) := by
  unfold rmtree at h
  by_cases hc : (pmem g op || !t.hasFolder g) = true
  · rw [if_pos hc] at h; cases h
  · rw [if_neg hc] at h
    injection h with h'
    have hop : pmem g op = false ∧ t.hasFolder g = true := by
      constructor
      · cases hv : pmem g op
        · rfl
        · exact absurd (by simp [hv]) hc
      · cases hv : t.hasFolder g
        · exact absurd (by simp [hv]) hc
        · rfl
    refine ⟨hop.1, hop.2, ?_, ?_⟩
    · intro p
      have hl := lookupM_filter (Q := fun x => !(sameOrUnderB g x)) (fun e => rfl) t.files p
      rw [← h']
      show lookupM (t.files.filter fun e => !(sameOrUnderB g e.1)) p = _
      rw [hl]
      cases hs : sameOrUnderB g p <;> simp [hs, Tree.mtime]
    · intro p
      rw [← h']
      show pmem p (t.folders.filter fun f => !(sameOrUnderB g f)) = _
      rw [pmem_filter]
      cases hs : sameOrUnderB g p <;> simp [hs, Tree.hasFolder]

theorem rmtree_isOk {op : List Path} {t : Tree} {g : Path}
    (h1 : pmem g op = false) (h2 : t.hasFolder g = true) :
    ∃ t', rmtree op t g = .ok t' := by
  unfold rmtree
  rw [if_neg (by simp [h1, h2])]
  exact ⟨_, rfl⟩

theorem removeFile_ok {op : List Path} {t : Tree} {f : Path} {t' : Tree}
    (h : removeFile op t f = .ok t') :
    pmem f op = false ∧ t.hasFile f = true ∧
    (∀ p, t'.mtime p = if p = f then none else t.mtime p) ∧
    t'.folders = t.folders := by
  unfold removeFile at h
  by_cases hc : (pmem f op || !t.hasFile f) = true
  · rw [if_pos hc] at h; cases h
  · rw [if_neg hc] at h
    injection h with h'
    have hop : pmem f op = false ∧ t.hasFile f = true := by
      constructor
      · cases hv : pmem f op
        · rfl
        · exact absurd (by simp [hv]) hc
      · cases hv : t.hasFile f
        · exact absurd (by simp [hv]) hc
        · rfl
    refine ⟨hop.1, hop.2, ?_, ?_⟩
    · intro p
      have hl := lookupM_filter (Q := fun x => if x = f then false else true)
        (fun e => rfl) t.files p
      rw [← h']
      show lookupM (t.files.filter fun e => if e.1 = f then false else true) p = _
      rw [hl]
      by_cases hp : p = f <;> simp [hp, Tree.mtime]
    · rw [← h']

theorem removeFile_isOk {op : List Path} {t : Tree} {f : Path}
    (h1 : pmem f op = false) (h2 : t.hasFile f = true) :
    ∃ t', removeFile op t f = .ok t' := by
  unfold removeFile
  rw [if_neg (by simp [h1, h2])]
  exact ⟨_, rfl⟩

theorem removeFile_error {op : List Path} {t : Tree} {f : Path}
    (h : pmem f op = true ∨ t.hasFile f = false) :
    removeFile op t f = .error () := by
  unfold removeFile
  rcases h with h | h
  · rw [if_pos (by simp [h])]
  · rw [if_pos (by simp [h])]

theorem copytree_ok {op : List Path} {src dst : Tree} {g : Path} {t' : Tree}
    (h : copytree op src dst g = .ok t') :
    pmem g op = false ∧ src.hasFolder g = true ∧ dst.hasFolder g = false ∧
    dst.hasFile g = false ∧
    (∀ p, t'.mtime p =
      match dst.mtime p with
      | some m => some m
      | none => if isUnderB g p = true then src.mtime p else none) ∧
    (∀ p, t'.hasFolder p = true ↔
      dst.hasFolder p = true ∨ isUnderB p g = true ∨ p = g ∨
        (isUnderB g p = true ∧ src.hasFolder p = true)) := by
  unfold copytree at h
  by_cases hc : (pmem g op || !src.hasFolder g || dst.hasFolder g || dst.hasFile g) = true
  · rw [if_pos hc] at h; cases h
  · rw [if_neg hc] at h
    injection h with h'
    have hop : pmem g op = false ∧ src.hasFolder g = true ∧ dst.hasFolder g = false ∧
        dst.hasFile g = false := by
      refine ⟨?_, ?_, ?_, ?_⟩
      · cases hv : pmem g op
        · rfl
        · exact absurd (by simp [hv]) hc
      · cases hv : src.hasFolder g
        · exact absurd (by simp [hv]) hc
        · rfl
      · cases hv : dst.hasFolder g
        · rfl
        · exact absurd (by simp [hv]) hc
      · cases hv : dst.hasFile g
        · rfl
        · exact absurd (by simp [hv]) hc
    refine ⟨hop.1, hop.2.1, hop.2.2.1, hop.2.2.2, ?_, ?_⟩
    · intro p
      have hl := lookupM_filter (Q := fun x => isUnderB g x) (fun e => rfl) src.files p
      rw [← h']
      show lookupM (dst.files ++ src.files.filter fun e => isUnderB g e.1) p = _
      rw [lookupM_append, hl]
      cases hd : lookupM dst.files p
      · cases hu : isUnderB g p <;> simp [hu, Tree.mtime, hd]
      · simp [Tree.mtime, hd]
    · intro p
      rw [← h']
      show pmem p (dst.folders ++ ((ancestorsOf g).filter fun a => !(dst.hasFolder a))
        ++ g :: src.folders.filter fun f => isUnderB g f) = true ↔ _
      rw [pmem_append, pmem_append, pmem_filter, pmem_cons, pmem_filter]
      by_cases hg : g = p
      · rw [if_pos hg]
        constructor
        · intro _; exact .inr (.inr (.inl hg.symm))
        · intro _; simp
      · rw [if_neg hg]
        constructor
        · intro hh
          have hh2 : (pmem p dst.folders = true ∨
              (dst.hasFolder p = false ∧ pmem p (ancestorsOf g) = true)) ∨
              (isUnderB g p = true ∧ pmem p src.folders = true) := by
            simpa [Bool.or_eq_true, Bool.and_eq_true] using hh
          rcases hh2 with (h1 | ⟨_, h2⟩) | ⟨h3, h4⟩
          · exact .inl h1
          · exact .inr (.inl (ancestorsOf_iff.1 (pmem_iff.1 h2)))
          · exact .inr (.inr (.inr ⟨h3, h4⟩))
        · intro hh
          rcases hh with h1 | h2 | h3 | ⟨h4, h5⟩
          · have h1' : pmem p dst.folders = true := h1
            simp [h1']
          · by_cases hdp : dst.hasFolder p = true
            · have hdp' : pmem p dst.folders = true := hdp
              simp [hdp']
            · have hb : dst.hasFolder p = false := by
                cases hv : dst.hasFolder p
                · rfl
                · exact absurd hv hdp
              have ha : pmem p (ancestorsOf g) = true := pmem_iff.2 (ancestorsOf_iff.2 h2)
              simp [hb, ha]
          · exact absurd h3.symm hg
          · have h5' : pmem p src.folders = true := h5
            simp [h4, h5']

theorem copytree_isOk {op : List Path} {src dst : Tree} {g : Path}
    (h1 : pmem g op = false) (h2 : src.hasFolder g = true)
    (h3 : dst.hasFolder g = false) (h4 : dst.hasFile g = false) :
    ∃ t', copytree op src dst g = .ok t' := by
  unfold copytree
  rw [if_neg (by simp [h1, h2, h3, h4])]
  exact ⟨_, rfl⟩

theorem copytree_error {op : List Path} {src dst : Tree} {g : Path}
    (h : pmem g op = true ∨ src.hasFolder g = false ∨ dst.hasFolder g = true ∨
      dst.hasFile g = true) :
    copytree op src dst g = .error () := by
  unfold copytree
  rcases h with h | h | h | h
  · rw [if_pos (by simp [h])]
  · rw [if_pos (by simp [h])]
  · rw [if_pos (by simp [h])]
  · rw [if_pos (by simp [h])]

theorem copyWrite_mtime {src dst : Tree} {p : Path} (hs : src.hasFile p = true) :
    ∀ q, (copyWrite src dst p).mtime q = if q = p then src.mtime p else dst.mtime q := by
  intro q
  have hl := lookupM_filter (Q := fun x => if x = p then false else true)
    (fun e => rfl) dst.files q
  show lookupM ((dst.files.filter fun e => if e.1 = p then false else true)
    ++ [(p, (src.mtime p).getD 0)]) q = _
  rw [lookupM_append, hl]
  by_cases hq : q = p
  · subst hq
    obtain ⟨m, hm⟩ := Option.isSome_iff_exists.1 hs
    simp [lookupM, Tree.mtime, hm]
    have : lookupM src.files q = some m := hm
    simp [Tree.mtime] at this
    simp [this]
  · cases hd : lookupM dst.files q <;>
      simp [lookupM, hq, Tree.mtime, hd, show ¬ p = q from fun hh => hq hh.symm]

theorem copy2_ok {op : List Path} {src dst : Tree} {f : Path} {t' : Tree}
    (h : copy2 op src dst f = .ok t') :
    pmem f op = false ∧ src.hasFile f = true ∧
    (∀ q, t'.mtime q = if q = f then src.mtime f else dst.mtime q) ∧
    t'.folders = dst.folders := by
  unfold copy2 at h
  by_cases hc : (pmem f op || !src.hasFile f) = true
  · rw [if_pos hc] at h; cases h
  · rw [if_neg hc] at h
    have hop : pmem f op = false ∧ src.hasFile f = true := by
      constructor
      · cases hv : pmem f op
        · rfl
        · exact absurd (by simp [hv]) hc
      · cases hv : src.hasFile f
        · exact absurd (by simp [hv]) hc
        · rfl
    have hw : t' = copyWrite src dst f := by
      cases hpd : parentDir f with
      | some d =>
        rw [hpd] at h
        have h2 : (if dst.hasFolder d = true then Except.ok (copyWrite src dst f)
            else (Except.error () : Except Unit Tree)) = Except.ok t' := h
        by_cases hdd : dst.hasFolder d = true
        · rw [if_pos hdd] at h2; injection h2 with h3; exact h3.symm
        · rw [if_neg hdd] at h2; cases h2
      | none =>
        rw [hpd] at h
        have h2 : (Except.ok (copyWrite src dst f) : Except Unit Tree) = Except.ok t' := h
        injection h2 with h3; exact h3.symm
    subst hw
    exact ⟨hop.1, hop.2, copyWrite_mtime hop.2, rfl⟩

theorem copy2_isOk {op : List Path} {src dst : Tree} {f : Path}
    (h1 : pmem f op = false) (h2 : src.hasFile f = true)
    (h3 : ∀ d, parentDir f = some d → dst.hasFolder d = true) :
    copy2 op src dst f = .ok (copyWrite src dst f) := by
  unfold copy2
  rw [if_neg (by simp [h1, h2])]
  cases hpd : parentDir f with
  | some d => simp [h3 d hpd]
  | none => rfl

theorem copy2_error_locked {op : List Path} {src dst : Tree} {f : Path}
    (h : pmem f op = true) : copy2 op src dst f = .error () := by
  unfold copy2
  rw [if_pos (by simp [h])]

theorem getmtimeE_ok {statL : List Path} {t : Tree} {f : Path} {m : Nat}
    (h1 : pmem f statL = false) (h2 : t.mtime f = some m) :
    getmtimeE statL t f = .ok m := by
  unfold getmtimeE
  rw [if_neg (by simp [h1]), h2]

theorem getmtimeE_isOk {statL : List Path} {t : Tree} {f : Path}
    (h1 : pmem f statL = false) (h2 : (t.mtime f).isSome = true) :
    ∃ m, getmtimeE statL t f = .ok m ∧ t.mtime f = some m := by
  obtain ⟨m, hm⟩ := Option.isSome_iff_exists.1 h2
  exact ⟨m, getmtimeE_ok h1 hm, hm⟩

/-! ### Diff and well-formedness lemmas -/

theorem pmem_diffL {p : Path} {a b : List Path} :
    pmem p (diffL a b) = (pmem p a && !(pmem p b)) := by
  unfold diffL
  rw [pmem_filter]
  cases pmem p a <;> cases pmem p b <;> simp

theorem pmem_interL {p : Path} {a b : List Path} :
    pmem p (interL a b) = (pmem p a && pmem p b) := by
  unfold interL
  rw [pmem_filter]
  cases pmem p a <;> cases pmem p b <;> simp

theorem diffL_subset {p : Path} {a b : List Path} (h : p ∈ diffL a b) : p ∈ a :=
  List.mem_of_mem_filter h

theorem interL_subset {p : Path} {a b : List Path} (h : p ∈ interL a b) : p ∈ a :=
  List.mem_of_mem_filter h

theorem diffL_nodup {a b : List Path} (h : a.Nodup) : (diffL a b).Nodup :=
  h.filter _

theorem mem_diffL_iff {p : Path} {a b : List Path} :
    p ∈ diffL a b ↔ p ∈ a ∧ pmem p b = false := by
  constructor
  · intro h
    have h1 := pmem_iff.2 h
    rw [pmem_diffL] at h1
    have h2 := Bool.and_eq_true_iff.1 h1
    exact ⟨pmem_iff.1 h2.1, by
      cases hv : pmem p b
      · rfl
      · rw [hv] at h2; exact absurd h2.2 (by simp)⟩
  · rintro ⟨h1, h2⟩
    apply pmem_iff.1
    rw [pmem_diffL, pmem_iff.2 h1, h2]
    rfl

theorem mem_interL_iff {p : Path} {a b : List Path} :
    p ∈ interL a b ↔ p ∈ a ∧ p ∈ b := by
  constructor
  · intro h
    have h1 := pmem_iff.2 h
    rw [pmem_interL] at h1
    have h2 := Bool.and_eq_true_iff.1 h1
    exact ⟨pmem_iff.1 h2.1, pmem_iff.1 h2.2⟩
  · rintro ⟨h1, h2⟩
    apply pmem_iff.1
    rw [pmem_interL, pmem_iff.2 h1, pmem_iff.2 h2]
    rfl

theorem wf_filesNd {t : Tree} (h : WF t) : (filesOf t).Nodup := h.1

theorem wf_foldersNd {t : Tree} (h : WF t) : t.folders.Nodup := h.2.1

theorem wf_disj {t : Tree} (h : WF t) {p : Path} (hp : p ∈ t.folders) :
    p ∉ filesOf t := h.2.2.1 p hp

theorem wf_closed_folder {t : Tree} (h : WF t) {g p : Path} (hp : p ∈ t.folders)
    (hu : isUnderB g p = true) : g ∈ t.folders :=
  h.2.2.2.1 p hp g (ancestorsOf_iff.2 hu)

theorem wf_closed_file {t : Tree} (h : WF t) {g p : Path} (hp : p ∈ filesOf t)
    (hu : isUnderB g p = true) : g ∈ t.folders :=
  h.2.2.2.2 p hp g (ancestorsOf_iff.2 hu)

/-! ### Deletion applier characterization -/

theorem coveredB_snoc {S : List Path} {g p : Path} :
    coveredB (S ++ [g]) p = (coveredB S p || sameOrUnderB g p) := by
  rw [coveredB_append, coveredB_cons, coveredB_nil]
  simp

/-- Behaviour of the folder-deletion loop under a ghost list `S` of folders
    already successfully removed, when no operation fails and the substring
    test agrees with hierarchical containment on the processed items. -/
theorem delFolderLoop_char (root : Path) (items : List Path) (t0 : Tree)
    (hnditems : items.Nodup) :
    ∀ (l : List Path) (S : List Path) (s : LoopSt),
      (∀ p, s.tree.hasFolder p = (!(coveredB S p) && t0.hasFolder p)) →
      (∀ p, s.tree.mtime p = if coveredB S p = true then none else t0.mtime p) →
      (∀ p, pmem p s.marked = (pmem p items && coveredB S p)) →
      (∀ g ∈ l, t0.hasFolder g = true) →
      (∀ g ∈ l, g ∈ items) →
      (∀ g ∈ l, ∀ p ∈ items, strContainsB g p = sameOrUnderB g p) →
      (∀ g ∈ l, ∀ h ∈ S, sameOrUnderB g h = false) →
      l.Pairwise (fun a b => sameOrUnderB b a = false) →
      (∀ p, (delFolderLoop root items [] l s).tree.hasFolder p =
          (!(coveredB (S ++ l) p) && t0.hasFolder p)) ∧
      (∀ p, (delFolderLoop root items [] l s).tree.mtime p =
          if coveredB (S ++ l) p = true then none else t0.mtime p) ∧
      (∀ p, pmem p (delFolderLoop root items [] l s).marked =
          (pmem p items && coveredB (S ++ l) p)) ∧
      (∀ p, countE (LogType.DELETED, joinP root p) (delFolderLoop root items [] l s).log =
          countE (LogType.DELETED, joinP root p) s.log +
            (if (pmem p items && coveredB (S ++ l) p && !(coveredB S p)) = true
              then 1 else 0)) ∧
      (∀ e ∈ (delFolderLoop root items [] l s).log,
          e ∈ s.log ∨ ∃ q, pmem q items = true ∧ e = (LogType.DELETED, joinP root q)) := by
  intro l
  induction l with
  | nil =>
    intro S s hfo hfi hm hl hli hex hSl hR
    refine ⟨?_, ?_, ?_, ?_, ?_⟩
    · intro p; rw [List.append_nil]; exact hfo p
    · intro p; rw [List.append_nil]; exact hfi p
    · intro p; rw [List.append_nil]; exact hm p
    · intro p
      rw [List.append_nil]
      have : (pmem p items && coveredB S p && !(coveredB S p)) = false := by
        cases pmem p items <;> cases coveredB S p <;> simp
      rw [this]
      simp [delFolderLoop]
    · intro e he; exact .inl he
  | cons g rest ih =>
    intro S s hfo hfi hm hl hli hex hSl hR
    have hgitems : pmem g items = true := pmem_iff.2 (hli g (by simp))
    have hmg : pmem g s.marked = coveredB S g := by rw [hm g, hgitems]; simp
    by_cases hcov : coveredB S g = true
    · -- the folder was already handled by an earlier removal: it is skipped
      have hskip : delFolderLoop root items [] (g :: rest) s =
          delFolderLoop root items [] rest s := by
        simp [delFolderLoop, hmg, hcov]
      have hcoveq : ∀ p, coveredB (S ++ g :: rest) p = coveredB (S ++ rest) p := by
        intro p
        rw [coveredB_append, coveredB_cons, coveredB_append]
        cases hsu : sameOrUnderB g p
        · simp
        · rw [covered_absorbs hcov hsu]
          simp
      obtain ⟨c1, c2, c3, c4, c5⟩ := ih S s hfo hfi hm
        (fun g' hg' => hl g' (by simp [hg'])) (fun g' hg' => hli g' (by simp [hg']))
        (fun g' hg' => hex g' (by simp [hg'])) (fun g' hg' => hSl g' (by simp [hg']))
        (List.pairwise_cons.1 hR).2
      rw [hskip]
      refine ⟨?_, ?_, ?_, ?_, c5⟩
      · intro p; rw [hcoveq p]; exact c1 p
      · intro p; rw [hcoveq p]; exact c2 p
      · intro p; rw [hcoveq p]; exact c3 p
      · intro p; rw [hcoveq p]; exact c4 p
    · -- the folder is still present: rmtree succeeds and marks by substring
      have hcovf : coveredB S g = false := by
        cases hv : coveredB S g
        · rfl
        · exact absurd hv hcov
      have hpres : s.tree.hasFolder g = true := by
        rw [hfo g, hcovf, hl g (by simp)]
        rfl
      obtain ⟨t', hr⟩ := @rmtree_isOk [] _ _ rfl hpres
      obtain ⟨_, _, hrm, hrf⟩ := rmtree_ok hr
      have hnewly : items.filter (fun p => strContainsB g p) =
          items.filter (fun p => sameOrUnderB g p) :=
        List.filter_congr (fun p hp => hex g (by simp) p hp)
      have hstep : delFolderLoop root items [] (g :: rest) s =
          delFolderLoop root items [] rest
            ⟨t', s.marked ++ items.filter (fun p => strContainsB g p),
              s.log ++ (items.filter (fun p => strContainsB g p)).map
                (fun p => (LogType.DELETED, joinP root p))⟩ := by
        simp only [delFolderLoop, hmg, hcovf, Bool.false_eq_true, if_false, hr]
      have hBC : ∀ p, coveredB S p = true → sameOrUnderB g p = true → False := by
        intro p hB hC
        obtain ⟨h, hhS, hhp⟩ := coveredB_iff.1 hB
        rcases sameOrUnder_comparable hC hhp with hgh | hhg
        · rw [hSl g (by simp) h hhS] at hgh
          cases hgh
        · rw [covered_absorbs (covered_self hhS) hhg] at hcovf
          cases hcovf
      have hfo2 : ∀ p,
          t'.hasFolder p = (!(coveredB (S ++ [g]) p) && t0.hasFolder p) := by
        intro p
        rw [hrf p, hfo p, coveredB_snoc]
        cases coveredB S p <;> cases sameOrUnderB g p <;> simp
      have hfi2 : ∀ p,
          t'.mtime p = if coveredB (S ++ [g]) p = true then none else t0.mtime p := by
        intro p
        rw [hrm p, hfi p, coveredB_snoc]
        cases hb : coveredB S p <;> cases hs : sameOrUnderB g p <;> simp
      have hm2 : ∀ p,
          pmem p (s.marked ++ items.filter (fun q => strContainsB g q)) =
            (pmem p items && coveredB (S ++ [g]) p) := by
        intro p
        rw [pmem_append, hm p, hnewly, pmem_filter, coveredB_snoc]
        cases pmem p items <;> cases coveredB S p <;> cases sameOrUnderB g p <;> simp
      have hSl2 : ∀ g' ∈ rest, ∀ h ∈ S ++ [g], sameOrUnderB g' h = false := by
        intro g' hg' h hh
        rcases List.mem_append.1 hh with hh1 | hh2
        · exact hSl g' (by simp [hg']) h hh1
        · rcases List.mem_singleton.1 hh2 with rfl
          exact (List.pairwise_cons.1 hR).1 g' hg'
      obtain ⟨c1, c2, c3, c4, c5⟩ := ih (S ++ [g])
        ⟨t', s.marked ++ items.filter (fun q => strContainsB g q),
          s.log ++ (items.filter (fun q => strContainsB g q)).map
            (fun q => (LogType.DELETED, joinP root q))⟩
        hfo2 hfi2 hm2
        (fun g' hg' => hl g' (by simp [hg'])) (fun g' hg' => hli g' (by simp [hg']))
        (fun g' hg' => hex g' (by simp [hg'])) hSl2
        (List.pairwise_cons.1 hR).2
      have hlist : (S ++ [g]) ++ rest = S ++ g :: rest := by
        rw [List.append_assoc]
        rfl
      rw [hstep]
      rw [hlist] at c1 c2 c3 c4
      refine ⟨c1, c2, c3, ?_, ?_⟩
      · intro p
        rw [c4 p, countE_append, countE_map_join, hnewly, countP_filter,
          countP_nodup hnditems]
        have hfull : coveredB (S ++ g :: rest) p =
            (coveredB S p || sameOrUnderB g p || coveredB rest p) := by
          rw [coveredB_append, coveredB_cons]
          cases coveredB S p <;> cases sameOrUnderB g p <;> cases coveredB rest p <;> simp
        rw [hfull, coveredB_snoc]
        by_cases hA : pmem p items = true
        · by_cases hC : sameOrUnderB g p = true
          · have hB : coveredB S p = false := by
              cases hv : coveredB S p
              · rfl
              · exact absurd (hBC p hv hC) not_false
            simp [hA, hB, hC]
          · have hC' : sameOrUnderB g p = false := by
              cases hv : sameOrUnderB g p
              · rfl
              · exact absurd hv hC
            cases hB : coveredB S p <;> cases hRr : coveredB rest p <;>
              simp [hA, hB, hC', hRr]
        · have hA' : pmem p items = false := by
            cases hv : pmem p items
            · rfl
            · exact absurd hv hA
          simp [hA']
      · intro e he
        rcases c5 e he with he1 | he2
        · rcases List.mem_append.1 he1 with he3 | he4
          · exact .inl he3
          · right
            obtain ⟨q, hq1, hq2⟩ := List.mem_map.1 he4
            refine ⟨q, ?_, hq2.symm⟩
            exact pmem_iff.2 (List.mem_of_mem_filter hq1)
        · exact .inr he2

/-- Behaviour of the file-deletion loop when no operation fails: files not yet
    marked are removed and logged exactly once; marked files are untouched. -/
theorem delFileLoop_char (root : Path) (M : Path → Bool) :
    ∀ (l : List Path) (s : LoopSt),
      l.Nodup →
      (∀ p, pmem p s.marked = M p) →
      (∀ f ∈ l, M f = false → (s.tree.mtime f).isSome = true) →
      (delFileLoop root [] l s).marked = s.marked ∧
      (∀ p, (delFileLoop root [] l s).tree.mtime p =
          if (pmem p l && !(M p)) = true then none else s.tree.mtime p) ∧
      (delFileLoop root [] l s).tree.folders = s.tree.folders ∧
      (∀ p, countE (LogType.DELETED, joinP root p) (delFileLoop root [] l s).log =
          countE (LogType.DELETED, joinP root p) s.log +
            (if (pmem p l && !(M p)) = true then 1 else 0)) ∧
      (∀ e ∈ (delFileLoop root [] l s).log,
          e ∈ s.log ∨ ∃ q, pmem q l = true ∧ e = (LogType.DELETED, joinP root q)) := by
  intro l
  induction l with
  | nil =>
    intro s hnd hm hpres
    refine ⟨rfl, ?_, rfl, ?_, ?_⟩
    · intro p; simp [delFileLoop, pmem]
    · intro p; simp [delFileLoop, pmem]
    · intro e he; exact .inl he
  | cons f rest ih =>
    intro s hnd hm hpres
    have hfrest : f ∉ rest := (List.nodup_cons.1 hnd).1
    have hfrestB : pmem f rest = false := by
      cases hv : pmem f rest
      · rfl
      · exact absurd (pmem_iff.1 hv) hfrest
    by_cases hMf : M f = true
    · have hskip : delFileLoop root [] (f :: rest) s = delFileLoop root [] rest s := by
        simp [delFileLoop, hm f, hMf]
      obtain ⟨c1, c2, c3, c4, c5⟩ := ih s (List.nodup_cons.1 hnd).2 hm
        (fun q hq => hpres q (by simp [hq]))
      rw [hskip]
      refine ⟨c1, ?_, c3, ?_, ?_⟩
      · intro p
        rw [c2 p, pmem_cons]
        by_cases hp : f = p
        · subst hp
          rw [if_pos rfl, hMf]
          simp [hfrestB]
        · rw [if_neg hp]
      · intro p
        rw [c4 p, pmem_cons]
        by_cases hp : f = p
        · subst hp
          rw [if_pos rfl, hMf]
          simp [hfrestB]
        · rw [if_neg hp]
      · intro e he
        rcases c5 e he with he1 | ⟨q, hq1, hq2⟩
        · exact .inl he1
        · refine .inr ⟨q, ?_, hq2⟩
          rw [pmem_cons]
          by_cases hq : f = q
          · rw [if_pos hq]
          · rw [if_neg hq]; exact hq1
    · have hMf' : M f = false := by
        cases hv : M f
        · rfl
        · exact absurd hv hMf
      have hhas : s.tree.hasFile f = true := hpres f (by simp) hMf'
      obtain ⟨t', hr⟩ := @removeFile_isOk [] _ _ rfl hhas
      obtain ⟨_, _, hrm, hrf⟩ := removeFile_ok hr
      have hstep : delFileLoop root [] (f :: rest) s =
          delFileLoop root [] rest
            ⟨t', s.marked, s.log ++ [(LogType.DELETED, joinP root f)]⟩ := by
        simp only [delFileLoop, hm f, hMf', Bool.false_eq_true, if_false, hr]
      obtain ⟨c1, c2, c3, c4, c5⟩ := ih
        ⟨t', s.marked, s.log ++ [(LogType.DELETED, joinP root f)]⟩
        (List.nodup_cons.1 hnd).2 hm
        (by
          intro q hq hMq
          rw [hrm q]
          have hqf : ¬ q = f := fun hh => hfrest (hh ▸ hq)
          rw [if_neg hqf]
          exact hpres q (by simp [hq]) hMq)
      rw [hstep]
      refine ⟨c1, ?_, c3.trans hrf, ?_, ?_⟩
      · intro p
        rw [c2 p, hrm p, pmem_cons]
        by_cases hp : f = p
        · subst hp
          rw [if_pos rfl, if_pos rfl, hMf']
          simp [hfrestB]
        · have hp' : ¬ p = f := fun hh => hp hh.symm
          rw [if_neg hp, if_neg hp']
      · intro p
        rw [c4 p, countE_append, pmem_cons]
        by_cases hp : f = p
        · subst hp
          rw [if_pos rfl, hMf']
          simp [hfrestB, countE]
        · have hp' : ¬ ((LogType.DELETED, joinP root f) =
              (LogType.DELETED, joinP root p)) := by
            intro hc
            exact hp (joinP_inj (congrArg Prod.snd hc))
          rw [if_neg hp]
          simp only [countE, hp', if_false, if_neg hp']
          omega
      · intro e he
        rcases c5 e he with he1 | ⟨q, hq1, hq2⟩
        · rcases List.mem_append.1 he1 with he2 | he3
          · exact .inl he2
          · refine .inr ⟨f, ?_, ?_⟩
            · rw [pmem_cons, if_pos rfl]
            · simpa using (List.mem_singleton.1 he3)
        · refine .inr ⟨q, ?_, hq2⟩
          rw [pmem_cons]
          by_cases hq : f = q
          · rw [if_pos hq]
          · rw [if_neg hq]; exact hq1

/-- Full characterization of `delete_files` on a failure-free run whose
    substring tests agree with hierarchical containment: exactly the items of
    the two diff sets disappear, and each produces exactly one DELETED line. -/
theorem delete_files_char (root : Path) (Fo Fi : List Path) (t : Tree)
    (hndFo : Fo.Nodup) (hndFi : Fi.Nodup)
    (hdisj : ∀ p ∈ Fo, p ∉ Fi)
    (hFo : ∀ g ∈ Fo, t.hasFolder g = true)
    (hFi : ∀ f ∈ Fi, t.hasFile f = true)
    (hex : ∀ g ∈ Fo, ∀ p ∈ Fo ++ Fi, strContainsB g p = sameOrUnderB g p) :
    (∀ p, (delete_files Fo Fi root t []).1.hasFolder p =
        (!(coveredB Fo p) && t.hasFolder p)) ∧
    (∀ p, (delete_files Fo Fi root t []).1.mtime p =
        if (coveredB Fo p || pmem p Fi) = true then none else t.mtime p) ∧
    (∀ p, countE (LogType.DELETED, joinP root p) (delete_files Fo Fi root t []).2 =
        if pmem p (Fo ++ Fi) = true then 1 else 0) ∧
    (∀ e ∈ (delete_files Fo Fi root t []).2,
        ∃ q, pmem q (Fo ++ Fi) = true ∧ e = (LogType.DELETED, joinP root q)) := by
  have hnditems : (Fo ++ Fi).Nodup :=
    List.Nodup.append hndFo hndFi (fun a ha hb => hdisj a ha hb)
  obtain ⟨c1, c2, c3, c4, c5⟩ := delFolderLoop_char root (Fo ++ Fi) t hnditems
    (sortByDepth Fo) [] ⟨t, [], []⟩
    (by intro p; simp [coveredB_nil])
    (by intro p; simp [coveredB_nil])
    (by intro p; simp [coveredB_nil, pmem])
    (fun g hg => hFo g (sortByDepth_mem.1 hg))
    (fun g hg => List.mem_append.2 (.inl (sortByDepth_mem.1 hg)))
    (fun g hg => hex g (sortByDepth_mem.1 hg))
    (by intro g hg h hh; cases hh)
    (sortByDepth_pairwiseR hndFo)
  have hcovs : ∀ p, coveredB ([] ++ sortByDepth Fo) p = coveredB Fo p := by
    intro p
    exact coveredB_congr (fun g => by simp [sortByDepth_mem]) p
  simp only [hcovs, coveredB_nil, Bool.not_false, Bool.and_true] at c1 c2 c3 c4
  obtain ⟨d1, d2, d3, d4, d5⟩ := delFileLoop_char root
    (fun p => pmem p (Fo ++ Fi) && coveredB Fo p) Fi
    (delFolderLoop root (Fo ++ Fi) [] (sortByDepth Fo) ⟨t, [], []⟩)
    hndFi c3
    (by
      intro f hf hMf
      have hfB : pmem f (Fo ++ Fi) = true :=
        pmem_iff.2 (List.mem_append.2 (.inr hf))
      have hcovf : coveredB Fo f = false := by
        cases hv : coveredB Fo f
        · rfl
        · simp [hfB, hv] at hMf
      rw [c2 f, hcovf]
      simpa [Tree.hasFile] using hFi f hf)
  refine ⟨?_, ?_, ?_, ?_⟩
  · intro p
    show pmem p (delFileLoop root [] Fi _).tree.folders = _
    rw [d3]
    exact c1 p
  · intro p
    rw [show (delete_files Fo Fi root t []).1 =
        (delFileLoop root [] Fi
          (delFolderLoop root (Fo ++ Fi) [] (sortByDepth Fo) ⟨t, [], []⟩)).tree from rfl]
    rw [d2 p, c2 p]
    have hAp : pmem p (Fo ++ Fi) = (pmem p Fo || pmem p Fi) := pmem_append
    cases hcv : coveredB Fo p
    · rw [hAp]
      cases hfo2 : pmem p Fo
      · cases hfi2 : pmem p Fi <;> simp [hfi2]
      · rw [covered_self (pmem_iff.1 hfo2)] at hcv
        cases hcv
    · cases hfi2 : pmem p Fi <;> simp [hAp, hfi2]
  · intro p
    rw [show (delete_files Fo Fi root t []).2 =
        (delFileLoop root [] Fi
          (delFolderLoop root (Fo ++ Fi) [] (sortByDepth Fo) ⟨t, [], []⟩)).log from rfl]
    rw [d4 p, c4 p]
    have hAp : pmem p (Fo ++ Fi) = (pmem p Fo || pmem p Fi) := pmem_append
    cases hfo2 : pmem p Fo
    · cases hfi2 : pmem p Fi
      · simp [countE, hAp, hfo2, hfi2]
      · cases hcv : coveredB Fo p <;> simp [countE, hAp, hfo2, hfi2, hcv]
    · have hcv : coveredB Fo p = true := covered_self (pmem_iff.1 hfo2)
      cases hfi2 : pmem p Fi <;> simp [countE, hAp, hfo2, hfi2, hcv]
  · intro e he
    rcases d5 e he with he1 | ⟨q, hq1, hq2⟩
    · rcases c5 e he1 with he2 | he3
      · cases he2
      · exact he3
    · refine ⟨q, ?_, hq2⟩
      rw [pmem_append, hq1]
      simp

/-! ### Creation applier characterization -/

theorem covered_mono {A B : List Path} {p : Path} (hsub : ∀ x ∈ A, x ∈ B)
    (h : coveredB A p = true) : coveredB B p = true := by
  obtain ⟨g, hg, hs⟩ := coveredB_iff.1 h
  exact coveredB_iff.2 ⟨g, hsub g hg, hs⟩

theorem mtime_none {t : Tree} {p : Path} (h : t.hasFile p = false) :
    t.mtime p = none := by
  unfold Tree.hasFile at h
  cases ht : t.mtime p
  · rfl
  · rw [ht] at h; cases h

/-- Behaviour of the folder-creation loop under a ghost list `S` of folders
    already successfully copied, when no operation fails, the substring test
    agrees with hierarchical containment on the processed items, and the
    pending folders come after any of their pending ancestors. -/
theorem creFolderLoop_char (destRoot : Path) (items : List Path) (src dst0 : Tree)
    (hnditems : items.Nodup)
    (hsrc_disj : ∀ p, src.hasFolder p = true → src.hasFile p = false)
    (hsrc_closed : ∀ g p, src.hasFolder p = true → isUnderB g p = true →
      src.hasFolder g = true) :
    ∀ (l : List Path) (S : List Path) (s : LoopSt),
      (∀ p, s.tree.hasFolder p =
          (dst0.hasFolder p || (src.hasFolder p && coveredB S p))) →
      (∀ p, s.tree.mtime p =
          if (src.hasFile p && coveredB S p) = true then src.mtime p
          else dst0.mtime p) →
      (∀ p, pmem p s.marked = (pmem p items && coveredB S p)) →
      (∀ g ∈ l, src.hasFolder g = true) →
      (∀ g ∈ l, dst0.hasFolder g = false) →
      (∀ g ∈ l, dst0.hasFile g = false) →
      (∀ g ∈ l, g ∈ items) →
      (∀ g ∈ l, ∀ p ∈ items, strContainsB g p = sameOrUnderB g p) →
      (∀ g ∈ l, ∀ h ∈ S, sameOrUnderB g h = false) →
      l.Pairwise (fun a b => sameOrUnderB b a = false) →
      (∀ g ∈ l, ∀ a, isUnderB a g = true →
          (dst0.hasFolder a = true ∨ coveredB S a = true ∨ a ∈ l)) →
      (∀ q, dst0.hasFile q = true → src.hasFile q = true →
          coveredB (S ++ l) q = false) →
      (∀ p, (creFolderLoop src destRoot items [] l s).tree.hasFolder p =
          (dst0.hasFolder p || (src.hasFolder p && coveredB (S ++ l) p))) ∧
      (∀ p, (creFolderLoop src destRoot items [] l s).tree.mtime p =
          if (src.hasFile p && coveredB (S ++ l) p) = true then src.mtime p
          else dst0.mtime p) ∧
      (∀ p, pmem p (creFolderLoop src destRoot items [] l s).marked =
          (pmem p items && coveredB (S ++ l) p)) ∧
      (∀ p, countE (LogType.CREATED, joinP destRoot p)
          (creFolderLoop src destRoot items [] l s).log =
        countE (LogType.CREATED, joinP destRoot p) s.log +
          (if (pmem p items && coveredB (S ++ l) p && !(coveredB S p)) = true
            then 1 else 0)) ∧
      (∀ e ∈ (creFolderLoop src destRoot items [] l s).log,
          e ∈ s.log ∨ ∃ q, pmem q items = true ∧
            e = (LogType.CREATED, joinP destRoot q)) := by
  intro l
  induction l with
  | nil =>
    intro S s hfo hfi hm hlsrc hldst hldstf hli hex hSl hR hanc hsep
    refine ⟨?_, ?_, ?_, ?_, ?_⟩
    · intro p; rw [List.append_nil]; exact hfo p
    · intro p; rw [List.append_nil]; exact hfi p
    · intro p; rw [List.append_nil]; exact hm p
    · intro p
      rw [List.append_nil]
      have : (pmem p items && coveredB S p && !(coveredB S p)) = false := by
        cases pmem p items <;> cases coveredB S p <;> simp
      rw [this]
      simp [creFolderLoop]
    · intro e he; exact .inl he
  | cons g rest ih =>
    intro S s hfo hfi hm hlsrc hldst hldstf hli hex hSl hR hanc hsep
    have hgitems : pmem g items = true := pmem_iff.2 (hli g (by simp))
    have hmg : pmem g s.marked = coveredB S g := by rw [hm g, hgitems]; simp
    by_cases hcov : coveredB S g = true
    · have hskip : creFolderLoop src destRoot items [] (g :: rest) s =
          creFolderLoop src destRoot items [] rest s := by
        simp [creFolderLoop, hmg, hcov]
      have hcoveq : ∀ p, coveredB (S ++ g :: rest) p = coveredB (S ++ rest) p := by
        intro p
        rw [coveredB_append, coveredB_cons, coveredB_append]
        cases hsu : sameOrUnderB g p
        · simp
        · rw [covered_absorbs hcov hsu]
          simp
      obtain ⟨c1, c2, c3, c4, c5⟩ := ih S s hfo hfi hm
        (fun g' hg' => hlsrc g' (by simp [hg'])) (fun g' hg' => hldst g' (by simp [hg']))
        (fun g' hg' => hldstf g' (by simp [hg'])) (fun g' hg' => hli g' (by simp [hg']))
        (fun g' hg' => hex g' (by simp [hg'])) (fun g' hg' => hSl g' (by simp [hg']))
        (List.pairwise_cons.1 hR).2
        (by
          intro g' hg' a ha
          rcases hanc g' (by simp [hg']) a ha with h1 | h2 | h3
          · exact .inl h1
          · exact .inr (.inl h2)
          · rcases List.mem_cons.1 h3 with rfl | h4
            · exact .inr (.inl (covered_absorbs hcov (sameOrUnder_refl a)))
            · exact .inr (.inr h4))
        (by
          intro q hq1 hq2
          rw [← hcoveq q]
          exact hsep q hq1 hq2)
      rw [hskip]
      refine ⟨?_, ?_, ?_, ?_, c5⟩
      · intro p; rw [hcoveq p]; exact c1 p
      · intro p; rw [hcoveq p]; exact c2 p
      · intro p; rw [hcoveq p]; exact c3 p
      · intro p; rw [hcoveq p]; exact c4 p
    · have hcovf : coveredB S g = false := by
        cases hv : coveredB S g
        · rfl
        · exact absurd hv hcov
      have hdstg : s.tree.hasFolder g = false := by
        rw [hfo g, hldst g (by simp), hcovf]
        simp
      have hdstgf : s.tree.hasFile g = false := by
        have hsf : src.hasFile g = false := hsrc_disj g (hlsrc g (by simp))
        have := hfi g
        rw [hsf] at this
        simp only [Bool.false_and, if_neg] at this
        unfold Tree.hasFile
        rw [show s.tree.mtime g = dst0.mtime g from by
          rw [hfi g, hsf]; simp]
        have hd := hldstf g (by simp)
        unfold Tree.hasFile at hd
        exact hd
      obtain ⟨t', hcp⟩ := @copytree_isOk [] _ _ _ rfl (hlsrc g (by simp)) hdstg hdstgf
      obtain ⟨_, _, _, _, hcm, hcf⟩ := copytree_ok hcp
      have hnewly : items.filter (fun p => strContainsB g p) =
          items.filter (fun p => sameOrUnderB g p) :=
        List.filter_congr (fun p hp => hex g (by simp) p hp)
      have hstep : creFolderLoop src destRoot items [] (g :: rest) s =
          creFolderLoop src destRoot items [] rest
            ⟨t', s.marked ++ items.filter (fun p => strContainsB g p),
              s.log ++ (items.filter (fun p => strContainsB g p)).map
                (fun p => (LogType.CREATED, joinP destRoot p))⟩ := by
        simp only [creFolderLoop, hmg, hcovf, Bool.false_eq_true, if_false, hcp]
      have hBC : ∀ p, coveredB S p = true → sameOrUnderB g p = true → False := by
        intro p hB hC
        obtain ⟨h, hhS, hhp⟩ := coveredB_iff.1 hB
        rcases sameOrUnder_comparable hC hhp with hgh | hhg
        · rw [hSl g (by simp) h hhS] at hgh
          cases hgh
        · rw [covered_absorbs (covered_self hhS) hhg] at hcovf
          cases hcovf
      have hanc_here : ∀ a, isUnderB a g = true →
          s.tree.hasFolder a = true := by
        intro a ha
        rcases hanc g (by simp) a ha with h1 | h2 | h3
        · rw [hfo a, h1]; rfl
        · rw [hfo a, h2]
          have hsa : src.hasFolder a = true :=
            hsrc_closed a g (hlsrc g (by simp)) ha
          simp [hsa]
        · rcases List.mem_cons.1 h3 with rfl | h4
          · exact absurd (isUnder_depth ha) (lt_irrefl _)
          · have := (List.pairwise_cons.1 hR).1 a h4
            rw [sameOrUnderB_iff.2 (.inr ha)] at this
            cases this
      have hfo2 : ∀ p, t'.hasFolder p =
          (dst0.hasFolder p || (src.hasFolder p && coveredB (S ++ [g]) p)) := by
        intro p
        apply bool_ext
        rw [hcf p]
        rw [coveredB_snoc]
        constructor
        · intro hh
          rcases hh with h1 | h2 | h3 | ⟨h4, h5⟩
          · rw [hfo p] at h1
            rcases Bool.or_eq_true_iff.1 h1 with h6 | h7
            · simp [h6]
            · have h8 := Bool.and_eq_true_iff.1 h7
              simp [h8.1, h8.2]
          · have hsp := hanc_here p h2
            rw [hfo p] at hsp
            rcases Bool.or_eq_true_iff.1 hsp with h6 | h7
            · simp [h6]
            · have h8 := Bool.and_eq_true_iff.1 h7
              simp [h8.1, h8.2]
          · rw [h3]
            simp [hlsrc g (by simp), sameOrUnder_refl]
          · simp [h5, sameOrUnderB_iff.2 (.inr h4)]
        · intro hh
          rcases Bool.or_eq_true_iff.1 hh with h1 | h2
          · left; rw [hfo p]; simp [h1]
          · have h3 := Bool.and_eq_true_iff.1 h2
            rcases Bool.or_eq_true_iff.1 h3.2 with h4 | h5
            · left; rw [hfo p]; simp [h3.1, h4]
            · rcases sameOrUnderB_iff.1 h5 with rfl | h6
              · exact .inr (.inr (.inl rfl))
              · exact .inr (.inr (.inr ⟨h6, h3.1⟩))
      have hfi2 : ∀ p, t'.mtime p =
          if (src.hasFile p && coveredB (S ++ [g]) p) = true then src.mtime p
          else dst0.mtime p := by
        intro p
        rw [hcm p, hfi p, coveredB_snoc]
        by_cases hsf : src.hasFile p = true
        · by_cases hcs : coveredB S p = true
          · rw [hsf, hcs]
            simp only [Bool.true_and, Bool.true_or, if_pos rfl]
            obtain ⟨m, hm2⟩ := Option.isSome_iff_exists.1 hsf
            simp [hm2]
          · have hcs' : coveredB S p = false := by
              cases hv : coveredB S p
              · rfl
              · exact absurd hv hcs
            rw [hsf, hcs']
            simp only [Bool.true_and, Bool.false_or]
            by_cases hdf : dst0.hasFile p = true
            · have hnc : coveredB (S ++ g :: rest) p = false := hsep p hdf hsf
              have hng : sameOrUnderB g p = false := by
                cases hv : sameOrUnderB g p
                · rfl
                · have : coveredB (S ++ g :: rest) p = true := by
                    rw [coveredB_append, coveredB_cons, hv]
                    simp
                  rw [this] at hnc; cases hnc
              rw [hng]
              obtain ⟨m, hm2⟩ := Option.isSome_iff_exists.1 hdf
              simp [hm2]
            · have hdn : dst0.mtime p = none := mtime_none (by
                cases hv : dst0.hasFile p
                · rfl
                · exact absurd hv hdf)
              rw [hdn]
              cases hv : sameOrUnderB g p
              · have hu : isUnderB g p = false := by
                  cases hu2 : isUnderB g p
                  · rfl
                  · rw [sameOrUnderB_iff.2 (.inr hu2)] at hv
                    cases hv
                simp [hu]
              · rcases sameOrUnderB_iff.1 hv with heq | h6
                · have hgf : src.hasFile g = false := hsrc_disj g (hlsrc g (by simp))
                  rw [← heq, hgf] at hsf
                  cases hsf
                · simp [h6]
        · have hsf' : src.hasFile p = false := by
            cases hv : src.hasFile p
            · rfl
            · exact absurd hv hsf
          have hsn : src.mtime p = none := mtime_none hsf'
          rw [hsf']
          simp only [Bool.false_and, if_false]
          cases hd : dst0.mtime p
          · simp [hsn]
          · simp
      have hm2 : ∀ p,
          pmem p (s.marked ++ items.filter (fun q => strContainsB g q)) =
            (pmem p items && coveredB (S ++ [g]) p) := by
        intro p
        rw [pmem_append, hm p, hnewly, pmem_filter, coveredB_snoc]
        cases pmem p items <;> cases coveredB S p <;> cases sameOrUnderB g p <;> simp
      have hSl2 : ∀ g' ∈ rest, ∀ h ∈ S ++ [g], sameOrUnderB g' h = false := by
        intro g' hg' h hh
        rcases List.mem_append.1 hh with hh1 | hh2
        · exact hSl g' (by simp [hg']) h hh1
        · rcases List.mem_singleton.1 hh2 with rfl
          exact (List.pairwise_cons.1 hR).1 g' hg'
      have hlistS : (S ++ [g]) ++ rest = S ++ g :: rest := by
        rw [List.append_assoc]; rfl
      obtain ⟨c1, c2, c3, c4, c5⟩ := ih (S ++ [g])
        ⟨t', s.marked ++ items.filter (fun q => strContainsB g q),
          s.log ++ (items.filter (fun q => strContainsB g q)).map
            (fun q => (LogType.CREATED, joinP destRoot q))⟩
        hfo2 hfi2 hm2
        (fun g' hg' => hlsrc g' (by simp [hg'])) (fun g' hg' => hldst g' (by simp [hg']))
        (fun g' hg' => hldstf g' (by simp [hg'])) (fun g' hg' => hli g' (by simp [hg']))
        (fun g' hg' => hex g' (by simp [hg'])) hSl2
        (List.pairwise_cons.1 hR).2
        (by
          intro g' hg' a ha
          rcases hanc g' (by simp [hg']) a ha with h1 | h2 | h3
          · exact .inl h1
          · exact .inr (.inl (covered_mono (fun x hx => by simp [hx]) h2))
          · rcases List.mem_cons.1 h3 with rfl | h4
            · refine .inr (.inl ?_)
              rw [coveredB_snoc, sameOrUnder_refl]
              simp
            · exact .inr (.inr h4))
        (by
          intro q hq1 hq2
          rw [hlistS]
          exact hsep q hq1 hq2)
      rw [hstep]
      rw [hlistS] at c1 c2 c3 c4
      refine ⟨c1, c2, c3, ?_, ?_⟩
      · intro p
        rw [c4 p, countE_append, countE_map_join, hnewly, countP_filter,
          countP_nodup hnditems]
        have hfull : coveredB (S ++ g :: rest) p =
            (coveredB S p || sameOrUnderB g p || coveredB rest p) := by
          rw [coveredB_append, coveredB_cons]
          cases coveredB S p <;> cases sameOrUnderB g p <;> cases coveredB rest p <;> simp
        rw [hfull, coveredB_snoc]
        by_cases hA : pmem p items = true
        · by_cases hC : sameOrUnderB g p = true
          · have hB : coveredB S p = false := by
              cases hv : coveredB S p
              · rfl
              · exact absurd (hBC p hv hC) not_false
            simp [hA, hB, hC]
          · have hC' : sameOrUnderB g p = false := by
              cases hv : sameOrUnderB g p
              · rfl
              · exact absurd hv hC
            cases hB : coveredB S p <;> cases hRr : coveredB rest p <;>
              simp [hA, hB, hC', hRr]
        · have hA' : pmem p items = false := by
            cases hv : pmem p items
            · rfl
            · exact absurd hv hA
          simp [hA']
      · intro e he
        rcases c5 e he with he1 | he2
        · rcases List.mem_append.1 he1 with he3 | he4
          · exact .inl he3
          · right
            obtain ⟨q, hq1, hq2⟩ := List.mem_map.1 he4
            refine ⟨q, ?_, hq2.symm⟩
            exact pmem_iff.2 (List.mem_of_mem_filter hq1)
        · exact .inr he2

/-- Behaviour of the file-creation loop when no operation fails and every
    marked file already carries the source timestamp. -/
theorem creFileLoop_char (destRoot : Path) (src : Tree) (M : Path → Bool) :
    ∀ (l : List Path) (s : LoopSt),
      l.Nodup →
      (∀ p, pmem p s.marked = M p) →
      (∀ f ∈ l, src.hasFile f = true) →
      (∀ f ∈ l, ∀ d, parentDir f = some d → s.tree.hasFolder d = true) →
      (∀ f ∈ l, M f = true → s.tree.mtime f = src.mtime f) →
      (creFileLoop src destRoot [] l s).marked = s.marked ∧
      (∀ p, (creFileLoop src destRoot [] l s).tree.mtime p =
          if pmem p l = true then src.mtime p else s.tree.mtime p) ∧
      (creFileLoop src destRoot [] l s).tree.folders = s.tree.folders ∧
      (∀ p, countE (LogType.CREATED, joinP destRoot p)
          (creFileLoop src destRoot [] l s).log =
        countE (LogType.CREATED, joinP destRoot p) s.log +
          (if (pmem p l && !(M p)) = true then 1 else 0)) ∧
      (∀ e ∈ (creFileLoop src destRoot [] l s).log,
          e ∈ s.log ∨ ∃ q, pmem q l = true ∧ e = (LogType.CREATED, joinP destRoot q)) := by
  intro l
  induction l with
  | nil =>
    intro s hnd hm hsrc hpar hmt
    refine ⟨rfl, ?_, rfl, ?_, ?_⟩
    · intro p; simp [creFileLoop, pmem]
    · intro p; simp [creFileLoop, pmem]
    · intro e he; exact .inl he
  | cons f rest ih =>
    intro s hnd hm hsrc hpar hmt
    have hfrest : f ∉ rest := (List.nodup_cons.1 hnd).1
    have hfrestB : pmem f rest = false := by
      cases hv : pmem f rest
      · rfl
      · exact absurd (pmem_iff.1 hv) hfrest
    by_cases hMf : M f = true
    · have hskip : creFileLoop src destRoot [] (f :: rest) s =
          creFileLoop src destRoot [] rest s := by
        simp [creFileLoop, hm f, hMf]
      obtain ⟨c1, c2, c3, c4, c5⟩ := ih s (List.nodup_cons.1 hnd).2 hm
        (fun q hq => hsrc q (by simp [hq])) (fun q hq => hpar q (by simp [hq]))
        (fun q hq => hmt q (by simp [hq]))
      rw [hskip]
      refine ⟨c1, ?_, c3, ?_, ?_⟩
      · intro p
        rw [c2 p, pmem_cons]
        by_cases hp : f = p
        · subst hp
          rw [if_pos rfl, hfrestB]
          simp [hmt f (by simp) hMf]
        · rw [if_neg hp]
      · intro p
        rw [c4 p, pmem_cons]
        by_cases hp : f = p
        · subst hp
          rw [if_pos rfl, hMf]
          simp [hfrestB]
        · rw [if_neg hp]
      · intro e he
        rcases c5 e he with he1 | ⟨q, hq1, hq2⟩
        · exact .inl he1
        · refine .inr ⟨q, ?_, hq2⟩
          rw [pmem_cons]
          by_cases hq : f = q
          · rw [if_pos hq]
          · rw [if_neg hq]; exact hq1
    · have hMf' : M f = false := by
        cases hv : M f
        · rfl
        · exact absurd hv hMf
      have hcp : copy2 [] src s.tree f = .ok (copyWrite src s.tree f) :=
        copy2_isOk rfl (hsrc f (by simp)) (fun d hd => hpar f (by simp) d hd)
      have hwm := @copyWrite_mtime _ s.tree _ (hsrc f (by simp))
      have hstep : creFileLoop src destRoot [] (f :: rest) s =
          creFileLoop src destRoot [] rest
            ⟨copyWrite src s.tree f, s.marked,
              s.log ++ [(LogType.CREATED, joinP destRoot f)]⟩ := by
        simp only [creFileLoop, hm f, hMf', Bool.false_eq_true, if_false, hcp]
      obtain ⟨c1, c2, c3, c4, c5⟩ := ih
        ⟨copyWrite src s.tree f, s.marked,
          s.log ++ [(LogType.CREATED, joinP destRoot f)]⟩
        (List.nodup_cons.1 hnd).2 hm
        (fun q hq => hsrc q (by simp [hq]))
        (by
          intro q hq d hd
          show pmem d (copyWrite src s.tree f).folders = true
          exact hpar q (by simp [hq]) d hd)
        (by
          intro q hq hMq
          rw [hwm q]
          have hqf : ¬ q = f := fun hh => hfrest (hh ▸ hq)
          rw [if_neg hqf]
          exact hmt q (by simp [hq]) hMq)
      rw [hstep]
      refine ⟨c1, ?_, c3, ?_, ?_⟩
      · intro p
        rw [c2 p, hwm p, pmem_cons]
        by_cases hp : f = p
        · subst hp
          rw [if_pos rfl, if_pos rfl, hfrestB]
          simp
        · have hp' : ¬ p = f := fun hh => hp hh.symm
          rw [if_neg hp, if_neg hp']
      · intro p
        rw [c4 p, countE_append, pmem_cons]
        by_cases hp : f = p
        · subst hp
          rw [if_pos rfl, hMf']
          simp [hfrestB, countE]
        · have hp' : ¬ ((LogType.CREATED, joinP destRoot f) =
              (LogType.CREATED, joinP destRoot p)) := by
            intro hc
            exact hp (joinP_inj (congrArg Prod.snd hc))
          rw [if_neg hp]
          simp only [countE, hp', if_false, if_neg hp']
          omega
      · intro e he
        rcases c5 e he with he1 | ⟨q, hq1, hq2⟩
        · rcases List.mem_append.1 he1 with he2 | he3
          · exact .inl he2
          · refine .inr ⟨f, ?_, ?_⟩
            · rw [pmem_cons, if_pos rfl]
            · simpa using (List.mem_singleton.1 he3)
        · refine .inr ⟨q, ?_, hq2⟩
          rw [pmem_cons]
          by_cases hq : f = q
          · rw [if_pos hq]
          · rw [if_neg hq]; exact hq1

/-- Full characterization of `create_files` on a failure-free run: the source
    items are copied into the destination with source timestamps, and each
    produces exactly one CREATED line. -/
theorem create_files_char (destRoot : Path) (Fo Fi : List Path) (src dst0 : Tree)
    (hndFo : Fo.Nodup) (hndFi : Fi.Nodup)
    (hdisj : ∀ p ∈ Fo, p ∉ Fi)
    (hsrc_disj : ∀ p, src.hasFolder p = true → src.hasFile p = false)
    (hsrc_closed : ∀ g p, src.hasFolder p = true → isUnderB g p = true →
      src.hasFolder g = true)
    (hFo_src : ∀ g ∈ Fo, src.hasFolder g = true)
    (hFo_dst : ∀ g ∈ Fo, dst0.hasFolder g = false)
    (hFo_dstf : ∀ g ∈ Fo, dst0.hasFile g = false)
    (hFi_src : ∀ f ∈ Fi, src.hasFile f = true)
    (hanc : ∀ g ∈ Fo, ∀ a, isUnderB a g = true →
      (dst0.hasFolder a = true ∨ a ∈ Fo))
    (hsep : ∀ q, dst0.hasFile q = true → src.hasFile q = true →
      coveredB Fo q = false)
    (hFipar : ∀ f ∈ Fi, ∀ d, parentDir f = some d →
      (dst0.hasFolder d = true ∨ d ∈ Fo))
    (hex : ∀ g ∈ Fo, ∀ p ∈ Fo ++ Fi, strContainsB g p = sameOrUnderB g p) :
    (∀ p, (create_files Fo Fi src destRoot dst0 []).1.hasFolder p =
        (dst0.hasFolder p || (src.hasFolder p && coveredB Fo p))) ∧
    (∀ p, (create_files Fo Fi src destRoot dst0 []).1.mtime p =
        if (src.hasFile p && (coveredB Fo p || pmem p Fi)) = true
          then src.mtime p else dst0.mtime p) ∧
    (∀ p, countE (LogType.CREATED, joinP destRoot p)
        (create_files Fo Fi src destRoot dst0 []).2 =
      if pmem p (Fo ++ Fi) = true then 1 else 0) ∧
    (∀ e ∈ (create_files Fo Fi src destRoot dst0 []).2,
        ∃ q, pmem q (Fo ++ Fi) = true ∧ e = (LogType.CREATED, joinP destRoot q)) := by
  have hnditems : (Fo ++ Fi).Nodup :=
    List.Nodup.append hndFo hndFi (fun a ha hb => hdisj a ha hb)
  obtain ⟨c1, c2, c3, c4, c5⟩ := creFolderLoop_char destRoot (Fo ++ Fi) src dst0
    hnditems hsrc_disj hsrc_closed
    (sortByDepth Fo) [] ⟨dst0, [], []⟩
    (by intro p; simp [coveredB_nil])
    (by intro p; simp [coveredB_nil])
    (by intro p; simp [coveredB_nil, pmem])
    (fun g hg => hFo_src g (sortByDepth_mem.1 hg))
    (fun g hg => hFo_dst g (sortByDepth_mem.1 hg))
    (fun g hg => hFo_dstf g (sortByDepth_mem.1 hg))
    (fun g hg => List.mem_append.2 (.inl (sortByDepth_mem.1 hg)))
    (fun g hg => hex g (sortByDepth_mem.1 hg))
    (by intro g hg h hh; cases hh)
    (sortByDepth_pairwiseR hndFo)
    (by
      intro g hg a ha
      rcases hanc g (sortByDepth_mem.1 hg) a ha with h1 | h2
      · exact .inl h1
      · exact .inr (.inr (sortByDepth_mem.2 h2)))
    (by
      intro q hq1 hq2
      rw [coveredB_congr (A := [] ++ sortByDepth Fo) (B := Fo)
        (fun g => by simp [sortByDepth_mem]) q]
      exact hsep q hq1 hq2)
  have hcovs : ∀ p, coveredB ([] ++ sortByDepth Fo) p = coveredB Fo p := by
    intro p
    exact coveredB_congr (fun g => by simp [sortByDepth_mem]) p
  simp only [hcovs, coveredB_nil, Bool.not_false, Bool.and_true] at c1 c2 c3 c4
  obtain ⟨d1, d2, d3, d4, d5⟩ := creFileLoop_char destRoot src
    (fun p => pmem p (Fo ++ Fi) && coveredB Fo p) Fi
    (creFolderLoop src destRoot (Fo ++ Fi) [] (sortByDepth Fo) ⟨dst0, [], []⟩)
    hndFi c3
    (fun f hf => hFi_src f hf)
    (by
      intro f hf d hd
      rw [c1 d]
      rcases hFipar f hf d hd with h1 | h2
      · simp [h1]
      · simp [hFo_src d h2, covered_self h2])
    (by
      intro f hf hMf
      have h2 := Bool.and_eq_true_iff.1 hMf
      rw [c2 f, hFi_src f hf, h2.2]
      simp)
  refine ⟨?_, ?_, ?_, ?_⟩
  · intro p
    show pmem p (creFileLoop src destRoot [] Fi _).tree.folders = _
    rw [d3]
    exact c1 p
  · intro p
    rw [show (create_files Fo Fi src destRoot dst0 []).1 =
        (creFileLoop src destRoot [] Fi
          (creFolderLoop src destRoot (Fo ++ Fi) [] (sortByDepth Fo)
            ⟨dst0, [], []⟩)).tree from rfl]
    rw [d2 p, c2 p]
    cases hfi2 : pmem p Fi
    · simp only [if_neg (by simp : ¬ (false = true))]
      cases hsf : src.hasFile p <;> cases hcv : coveredB Fo p <;> simp [hsf, hcv]
    · have hsf : src.hasFile p = true := hFi_src p (pmem_iff.1 hfi2)
      cases hcv : coveredB Fo p <;> simp [hsf, hcv]
  · intro p
    rw [show (create_files Fo Fi src destRoot dst0 []).2 =
        (creFileLoop src destRoot [] Fi
          (creFolderLoop src destRoot (Fo ++ Fi) [] (sortByDepth Fo)
            ⟨dst0, [], []⟩)).log from rfl]
    rw [d4 p, c4 p]
    have hAp : pmem p (Fo ++ Fi) = (pmem p Fo || pmem p Fi) := pmem_append
    cases hfo2 : pmem p Fo
    · cases hfi2 : pmem p Fi
      · simp [countE, hAp, hfo2, hfi2]
      · cases hcv : coveredB Fo p <;> simp [countE, hAp, hfo2, hfi2, hcv]
    · have hcv : coveredB Fo p = true := covered_self (pmem_iff.1 hfo2)
      cases hfi2 : pmem p Fi <;> simp [countE, hAp, hfo2, hfi2, hcv]
  · intro e he
    rcases d5 e he with he1 | ⟨q, hq1, hq2⟩
    · rcases c5 e he1 with he2 | he3
      · cases he2
      · exact he3
    · refine ⟨q, ?_, hq2⟩
      rw [pmem_append, hq1]
      simp

/-! ### Update applier characterization -/

/-- Selective update on a failure-free run: a common file is re-copied exactly
    when the two modification times differ, producing exactly one UPDATED
    line, and is untouched otherwise. -/
theorem updLoop_char (destRoot : Path) (src : Tree) :
    ∀ (l : List Path) (t : Tree) (log : List LogEntry),
      l.Nodup →
      (∀ f ∈ l, (src.mtime f).isSome = true) →
      (∀ f ∈ l, (t.mtime f).isSome = true) →
      (∀ f ∈ l, ∀ d, parentDir f = some d → t.hasFolder d = true) →
      ∃ t' log2, updLoop destRoot src [] [] l t log = .ok (t', log ++ log2) ∧
        (∀ p, t'.mtime p = if pmem p l = true then src.mtime p else t.mtime p) ∧
        t'.folders = t.folders ∧
        (∀ p, countE (LogType.UPDATED, joinP destRoot p) log2 =
            if pmem p l = true ∧ ¬ src.mtime p = t.mtime p then 1 else 0) ∧
        (∀ e ∈ log2, ∃ q, pmem q l = true ∧ e = (LogType.UPDATED, joinP destRoot q)) := by
  intro l
  induction l with
  | nil =>
    intro t log hnd hsrc ht hpar
    refine ⟨t, [], ?_, ?_, rfl, ?_, ?_⟩
    · simp [updLoop]
    · intro p; simp [pmem]
    · intro p; simp [pmem, countE]
    · intro e he; cases he
  | cons f rest ih =>
    intro t log hnd hsrc ht hpar
    have hfrest : f ∉ rest := (List.nodup_cons.1 hnd).1
    have hfrestB : pmem f rest = false := by
      cases hv : pmem f rest
      · rfl
      · exact absurd (pmem_iff.1 hv) hfrest
    obtain ⟨ms, hms⟩ := Option.isSome_iff_exists.1 (hsrc f (by simp))
    obtain ⟨md, hmd⟩ := Option.isSome_iff_exists.1 (ht f (by simp))
    have hgs : getmtimeE [] src f = .ok ms := getmtimeE_ok rfl hms
    have hgd : getmtimeE [] t f = .ok md := getmtimeE_ok rfl hmd
    by_cases hne : md ≠ ms
    · have hcp : copy2 [] src t f = .ok (copyWrite src t f) :=
        copy2_isOk rfl (by unfold Tree.hasFile; simp [hms])
          (fun d hd => hpar f (by simp) d hd)
      have hwm := @copyWrite_mtime _ t _
        (show src.hasFile f = true by unfold Tree.hasFile; simp [hms])
      have hstep : updLoop destRoot src [] [] (f :: rest) t log =
          updLoop destRoot src [] [] rest (copyWrite src t f)
            (log ++ [(LogType.UPDATED, joinP destRoot f)]) := by
        simp only [updLoop, hgs, hgd, hcp, if_pos hne]
      obtain ⟨t', log2', hok, e1, e2, e3, e4⟩ := ih (copyWrite src t f)
        (log ++ [(LogType.UPDATED, joinP destRoot f)])
        (List.nodup_cons.1 hnd).2
        (fun q hq => hsrc q (by simp [hq]))
        (by
          intro q hq
          rw [hwm q]
          have hqf : ¬ q = f := fun hh => hfrest (hh ▸ hq)
          rw [if_neg hqf]
          exact ht q (by simp [hq]))
        (by
          intro q hq d hd
          show pmem d (copyWrite src t f).folders = true
          exact hpar q (by simp [hq]) d hd)
      refine ⟨t', (LogType.UPDATED, joinP destRoot f) :: log2', ?_, ?_, ?_, ?_, ?_⟩
      · rw [hstep, hok]
        simp [List.append_assoc]
      · intro p
        rw [e1 p, hwm p, pmem_cons]
        by_cases hp : f = p
        · subst hp
          rw [if_pos rfl, if_pos rfl, hfrestB]
          simp
        · have hp' : ¬ p = f := fun hh => hp hh.symm
          rw [if_neg hp, if_neg hp']
      · exact e2
      · intro p
        rw [show countE (LogType.UPDATED, joinP destRoot p)
              ((LogType.UPDATED, joinP destRoot f) :: log2') =
            (if (LogType.UPDATED, joinP destRoot f) =
              (LogType.UPDATED, joinP destRoot p) then 1 else 0) +
            countE (LogType.UPDATED, joinP destRoot p) log2' from rfl]
        rw [e3 p, pmem_cons]
        by_cases hp : f = p
        · subst hp
          rw [if_pos rfl, hfrestB]
          have hval : ¬ src.mtime f = t.mtime f := by
            rw [hms, hmd]
            intro hc
            injection hc with hc2
            exact hne hc2.symm
          simp [hval]
        · have hp' : ¬ ((LogType.UPDATED, joinP destRoot f) =
              (LogType.UPDATED, joinP destRoot p)) := by
            intro hc
            exact hp (joinP_inj (congrArg Prod.snd hc))
          rw [if_neg hp, if_neg hp']
          have hmt : (copyWrite src t f).mtime p = t.mtime p := by
            rw [hwm p, if_neg (fun hh => hp hh.symm)]
          rw [hmt]
          omega
      · intro e he
        rcases List.mem_cons.1 he with rfl | he2
        · exact ⟨f, by rw [pmem_cons, if_pos rfl], rfl⟩
        · obtain ⟨q, hq1, hq2⟩ := e4 e he2
          refine ⟨q, ?_, hq2⟩
          rw [pmem_cons]
          by_cases hq : f = q
          · rw [if_pos hq]
          · rw [if_neg hq]; exact hq1
    · have heq : md = ms := not_ne_iff.1 hne
      have hstep : updLoop destRoot src [] [] (f :: rest) t log =
          updLoop destRoot src [] [] rest t log := by
        simp only [updLoop, hgs, hgd, if_neg hne]
      obtain ⟨t', log2', hok, e1, e2, e3, e4⟩ := ih t log
        (List.nodup_cons.1 hnd).2
        (fun q hq => hsrc q (by simp [hq]))
        (fun q hq => ht q (by simp [hq]))
        (fun q hq d hd => hpar q (by simp [hq]) d hd)
      refine ⟨t', log2', ?_, ?_, e2, ?_, ?_⟩
      · rw [hstep, hok]
      · intro p
        rw [e1 p, pmem_cons]
        by_cases hp : f = p
        · subst hp
          rw [if_pos rfl, hfrestB]
          have : src.mtime f = t.mtime f := by rw [hms, hmd, heq]
          cases hv : pmem f rest
          · simp [this]
          · simp [this]
        · rw [if_neg hp]
      · intro p
        rw [e3 p, pmem_cons]
        by_cases hp : f = p
        · subst hp
          rw [if_pos rfl, hfrestB]
          have : src.mtime f = t.mtime f := by rw [hms, hmd, heq]
          simp [this]
        · rw [if_neg hp]
      · intro e he
        obtain ⟨q, hq1, hq2⟩ := e4 e he
        refine ⟨q, ?_, hq2⟩
        rw [pmem_cons]
        by_cases hq : f = q
        · rw [if_pos hq]
        · rw [if_neg hq]; exact hq1

/-- The update loop never aborts as long as both modification-time reads
    succeed, whatever the copy failures. -/
theorem updLoop_isOk (destRoot : Path) (src : Tree) (statL opL : List Path) :
    ∀ (l : List Path) (t : Tree) (log : List LogEntry),
      (∀ f ∈ l, pmem f statL = false) →
      (∀ f ∈ l, (src.mtime f).isSome = true) →
      (∀ f ∈ l, (t.mtime f).isSome = true) →
      ∃ r, updLoop destRoot src statL opL l t log = .ok r := by
  intro l
  induction l with
  | nil => intro t log _ _ _; exact ⟨(t, log), rfl⟩
  | cons f rest ih =>
    intro t log hstat hsrc ht
    obtain ⟨ms, hms⟩ := Option.isSome_iff_exists.1 (hsrc f (by simp))
    obtain ⟨md, hmd⟩ := Option.isSome_iff_exists.1 (ht f (by simp))
    have hgs : getmtimeE statL src f = .ok ms :=
      getmtimeE_ok (hstat f (by simp)) hms
    have hgd : getmtimeE statL t f = .ok md :=
      getmtimeE_ok (hstat f (by simp)) hmd
    by_cases hne : md ≠ ms
    · cases hcp : copy2 opL src t f with
      | ok t2 =>
        obtain ⟨_, _, hc3, _⟩ := copy2_ok hcp
        obtain ⟨r, hr⟩ := ih t2 (log ++ [(LogType.UPDATED, joinP destRoot f)])
          (fun q hq => hstat q (by simp [hq]))
          (fun q hq => hsrc q (by simp [hq]))
          (by
            intro q hq
            rw [hc3 q]
            by_cases hqf : q = f
            · rw [if_pos hqf]
              exact hsrc f (by simp)
            · rw [if_neg hqf]
              exact ht q (by simp [hq]))
        refine ⟨r, ?_⟩
        rw [show updLoop destRoot src statL opL (f :: rest) t log =
            updLoop destRoot src statL opL rest t2
              (log ++ [(LogType.UPDATED, joinP destRoot f)]) from by
          simp only [updLoop, hgs, hgd, hcp, if_pos hne]]
        exact hr
      | error u =>
        obtain ⟨r, hr⟩ := ih t (log ++ [(LogType.ERROR, joinP destRoot f)])
          (fun q hq => hstat q (by simp [hq]))
          (fun q hq => hsrc q (by simp [hq]))
          (fun q hq => ht q (by simp [hq]))
        refine ⟨r, ?_⟩
        rw [show updLoop destRoot src statL opL (f :: rest) t log =
            updLoop destRoot src statL opL rest t
              (log ++ [(LogType.ERROR, joinP destRoot f)]) from by
          simp only [updLoop, hgs, hgd, hcp, if_pos hne]]
        exact hr
    · obtain ⟨r, hr⟩ := ih t log
        (fun q hq => hstat q (by simp [hq]))
        (fun q hq => hsrc q (by simp [hq]))
        (fun q hq => ht q (by simp [hq]))
      refine ⟨r, ?_⟩
      rw [show updLoop destRoot src statL opL (f :: rest) t log =
          updLoop destRoot src statL opL rest t log from by
        simp only [updLoop, hgs, hgd, if_neg hne]]
      exact hr

/-- When every common file already carries the source timestamp, the update
    loop does nothing and emits nothing. -/
theorem updLoop_skip (destRoot : Path) (src : Tree) (statL opL : List Path) :
    ∀ (l : List Path) (t : Tree) (log : List LogEntry),
      (∀ f ∈ l, pmem f statL = false) →
      (∀ f ∈ l, ∃ m, src.mtime f = some m ∧ t.mtime f = some m) →
      updLoop destRoot src statL opL l t log = .ok (t, log) := by
  intro l
  induction l with
  | nil => intro t log _ _; rfl
  | cons f rest ih =>
    intro t log hstat heq
    obtain ⟨m, hms, hmd⟩ := heq f (by simp)
    have hgs : getmtimeE statL src f = .ok m :=
      getmtimeE_ok (hstat f (by simp)) hms
    have hgd : getmtimeE statL t f = .ok m :=
      getmtimeE_ok (hstat f (by simp)) hmd
    rw [show updLoop destRoot src statL opL (f :: rest) t log =
        updLoop destRoot src statL opL rest t log from by
      simp only [updLoop, hgs, hgd]
      rw [if_neg (by simp)]]
    exact ih t log (fun q hq => hstat q (by simp [hq]))
      (fun q hq => heq q (by simp [hq]))

/-! ### Failure-tolerant facts about the appliers -/

theorem delFolderLoop_pres (root : Path) (items op : List Path) (q : Path) :
    ∀ (l : List Path) (s : LoopSt), (∀ g ∈ l, sameOrUnderB g q = false) →
      (delFolderLoop root items op l s).tree.mtime q = s.tree.mtime q ∧
      (delFolderLoop root items op l s).tree.hasFolder q = s.tree.hasFolder q := by
  intro l
  induction l with
  | nil => intro s _; exact ⟨rfl, rfl⟩
  | cons g rest ih =>
    intro s hq
    by_cases hm : pmem g s.marked = true
    · rw [show delFolderLoop root items op (g :: rest) s =
          delFolderLoop root items op rest s from by simp [delFolderLoop, hm]]
      exact ih s (fun g' hg' => hq g' (by simp [hg']))
    · have hm' : pmem g s.marked = false := by
        cases hv : pmem g s.marked
        · rfl
        · exact absurd hv hm
      cases hr : rmtree op s.tree g with
      | ok t' =>
        obtain ⟨_, _, hrm, hrf⟩ := rmtree_ok hr
        rw [show delFolderLoop root items op (g :: rest) s =
            delFolderLoop root items op rest
              ⟨t', s.marked ++ items.filter (fun p => strContainsB g p),
                s.log ++ (items.filter (fun p => strContainsB g p)).map
                  (fun p => (LogType.DELETED, joinP root p))⟩ from by
          simp only [delFolderLoop, hm', Bool.false_eq_true, if_false, hr]]
        obtain ⟨e1, e2⟩ := ih
          ⟨t', s.marked ++ items.filter (fun p => strContainsB g p),
            s.log ++ (items.filter (fun p => strContainsB g p)).map
              (fun p => (LogType.DELETED, joinP root p))⟩
          (fun g' hg' => hq g' (by simp [hg']))
        constructor
        · rw [e1]
          show t'.mtime q = s.tree.mtime q
          rw [hrm q, if_neg (by simp [hq g (by simp)])]
        · rw [e2]
          show t'.hasFolder q = s.tree.hasFolder q
          rw [hrf q, hq g (by simp)]
          simp
      | error u =>
        rw [show delFolderLoop root items op (g :: rest) s =
            delFolderLoop root items op rest
              ⟨s.tree, s.marked, s.log ++ [(LogType.ERROR, joinP root g)]⟩ from by
          simp only [delFolderLoop, hm', Bool.false_eq_true, if_false, hr]]
        exact ih _ (fun g' hg' => hq g' (by simp [hg']))

theorem delFileLoop_state (root : Path) (op : List Path) :
    ∀ (l : List Path) (s : LoopSt),
      (delFileLoop root op l s).marked = s.marked ∧
      (delFileLoop root op l s).tree.folders = s.tree.folders := by
  intro l
  induction l with
  | nil => intro s; exact ⟨rfl, rfl⟩
  | cons f rest ih =>
    intro s
    by_cases hm : pmem f s.marked = true
    · rw [show delFileLoop root op (f :: rest) s = delFileLoop root op rest s from by
        simp [delFileLoop, hm]]
      exact ih s
    · have hm' : pmem f s.marked = false := by
        cases hv : pmem f s.marked
        · rfl
        · exact absurd hv hm
      cases hr : removeFile op s.tree f with
      | ok t' =>
        obtain ⟨_, _, _, hrf⟩ := removeFile_ok hr
        rw [show delFileLoop root op (f :: rest) s =
            delFileLoop root op rest
              ⟨t', s.marked, s.log ++ [(LogType.DELETED, joinP root f)]⟩ from by
          simp only [delFileLoop, hm', Bool.false_eq_true, if_false, hr]]
        obtain ⟨e1, e2⟩ := ih ⟨t', s.marked, s.log ++ [(LogType.DELETED, joinP root f)]⟩
        exact ⟨e1, e2.trans hrf⟩
      | error u =>
        rw [show delFileLoop root op (f :: rest) s =
            delFileLoop root op rest
              ⟨s.tree, s.marked, s.log ++ [(LogType.ERROR, joinP root f)]⟩ from by
          simp only [delFileLoop, hm', Bool.false_eq_true, if_false, hr]]
        exact ih _

theorem delFileLoop_pres (root : Path) (op : List Path) (q : Path) :
    ∀ (l : List Path) (s : LoopSt), pmem q l = false →
      (delFileLoop root op l s).tree.mtime q = s.tree.mtime q := by
  intro l
  induction l with
  | nil => intro s _; rfl
  | cons f rest ih =>
    intro s hq
    rw [pmem_cons] at hq
    have hfq : ¬ f = q := by
      intro hh
      rw [if_pos hh] at hq
      cases hq
    rw [if_neg hfq] at hq
    by_cases hm : pmem f s.marked = true
    · rw [show delFileLoop root op (f :: rest) s = delFileLoop root op rest s from by
        simp [delFileLoop, hm]]
      exact ih s hq
    · have hm' : pmem f s.marked = false := by
        cases hv : pmem f s.marked
        · rfl
        · exact absurd hv hm
      cases hr : removeFile op s.tree f with
      | ok t' =>
        obtain ⟨_, _, hrm, _⟩ := removeFile_ok hr
        rw [show delFileLoop root op (f :: rest) s =
            delFileLoop root op rest
              ⟨t', s.marked, s.log ++ [(LogType.DELETED, joinP root f)]⟩ from by
          simp only [delFileLoop, hm', Bool.false_eq_true, if_false, hr]]
        rw [ih _ hq]
        show t'.mtime q = s.tree.mtime q
        rw [hrm q, if_neg (fun hh => hfq hh.symm)]
      | error u =>
        rw [show delFileLoop root op (f :: rest) s =
            delFileLoop root op rest
              ⟨s.tree, s.marked, s.log ++ [(LogType.ERROR, joinP root f)]⟩ from by
          simp only [delFileLoop, hm', Bool.false_eq_true, if_false, hr]]
        exact ih _ hq

/-- Items never touched by any deleted folder or file keep their state across
    `delete_files`, whatever operations fail. -/
theorem delete_files_pres (root : Path) (Fo Fi : List Path) (t : Tree)
    (op : List Path) (q : Path)
    (h1 : ∀ g ∈ Fo, sameOrUnderB g q = false) (h2 : pmem q Fi = false) :
    (delete_files Fo Fi root t op).1.mtime q = t.mtime q := by
  unfold delete_files
  rw [delFileLoop_pres root op q Fi _ h2]
  exact (delFolderLoop_pres root (Fo ++ Fi) op q (sortByDepth Fo) ⟨t, [], []⟩
    (fun g hg => h1 g (sortByDepth_mem.1 hg))).1

theorem delete_files_pres_folder (root : Path) (Fo Fi : List Path) (t : Tree)
    (op : List Path) (q : Path)
    (h1 : ∀ g ∈ Fo, sameOrUnderB g q = false) :
    (delete_files Fo Fi root t op).1.hasFolder q = t.hasFolder q := by
  unfold delete_files
  show pmem q (delFileLoop root op Fi _).tree.folders = _
  rw [(delFileLoop_state root op Fi _).2]
  exact (delFolderLoop_pres root (Fo ++ Fi) op q (sortByDepth Fo) ⟨t, [], []⟩
    (fun g hg => h1 g (sortByDepth_mem.1 hg))).2

/-! ### Step equations for the four loops -/

theorem creFolderLoop_cons_skip {src : Tree} {destRoot : Path}
    {items op : List Path} {g : Path} {rest : List Path} {s : LoopSt}
    (hm : pmem g s.marked = true) :
    creFolderLoop src destRoot items op (g :: rest) s =
      creFolderLoop src destRoot items op rest s := by
  simp [creFolderLoop, hm]

theorem creFolderLoop_cons_ok {src : Tree} {destRoot : Path}
    {items op : List Path} {g : Path} {rest : List Path} {s : LoopSt} {t' : Tree}
    (hm : pmem g s.marked = false) (hr : copytree op src s.tree g = .ok t') :
    creFolderLoop src destRoot items op (g :: rest) s =
      creFolderLoop src destRoot items op rest
        ⟨t', s.marked ++ items.filter (fun p => strContainsB g p),
          s.log ++ (items.filter (fun p => strContainsB g p)).map
            (fun p => (LogType.CREATED, joinP destRoot p))⟩ := by
  simp only [creFolderLoop, hm, Bool.false_eq_true, if_false, hr]

theorem creFolderLoop_cons_err {src : Tree} {destRoot : Path}
    {items op : List Path} {g : Path} {rest : List Path} {s : LoopSt} {u : Unit}
    (hm : pmem g s.marked = false) (hr : copytree op src s.tree g = .error u) :
    creFolderLoop src destRoot items op (g :: rest) s =
      creFolderLoop src destRoot items op rest
        ⟨s.tree, s.marked, s.log ++ [(LogType.ERROR, joinP destRoot g)]⟩ := by
  simp only [creFolderLoop, hm, Bool.false_eq_true, if_false, hr]

theorem creFileLoop_cons_skip {src : Tree} {destRoot : Path} {op : List Path}
    {f : Path} {rest : List Path} {s : LoopSt}
    (hm : pmem f s.marked = true) :
    creFileLoop src destRoot op (f :: rest) s = creFileLoop src destRoot op rest s := by
  simp [creFileLoop, hm]

theorem creFileLoop_cons_ok {src : Tree} {destRoot : Path} {op : List Path}
    {f : Path} {rest : List Path} {s : LoopSt} {t' : Tree}
    (hm : pmem f s.marked = false) (hr : copy2 op src s.tree f = .ok t') :
    creFileLoop src destRoot op (f :: rest) s =
      creFileLoop src destRoot op rest
        ⟨t', s.marked, s.log ++ [(LogType.CREATED, joinP destRoot f)]⟩ := by
  simp only [creFileLoop, hm, Bool.false_eq_true, if_false, hr]

theorem creFileLoop_cons_err {src : Tree} {destRoot : Path} {op : List Path}
    {f : Path} {rest : List Path} {s : LoopSt} {u : Unit}
    (hm : pmem f s.marked = false) (hr : copy2 op src s.tree f = .error u) :
    creFileLoop src destRoot op (f :: rest) s =
      creFileLoop src destRoot op rest
        ⟨s.tree, s.marked, s.log ++ [(LogType.ERROR, joinP destRoot f)]⟩ := by
  simp only [creFileLoop, hm, Bool.false_eq_true, if_false, hr]

theorem delFileLoop_cons_skip {root : Path} {op : List Path}
    {f : Path} {rest : List Path} {s : LoopSt}
    (hm : pmem f s.marked = true) :
    delFileLoop root op (f :: rest) s = delFileLoop root op rest s := by
  simp [delFileLoop, hm]

theorem delFileLoop_cons_ok {root : Path} {op : List Path}
    {f : Path} {rest : List Path} {s : LoopSt} {t' : Tree}
    (hm : pmem f s.marked = false) (hr : removeFile op s.tree f = .ok t') :
    delFileLoop root op (f :: rest) s =
      delFileLoop root op rest
        ⟨t', s.marked, s.log ++ [(LogType.DELETED, joinP root f)]⟩ := by
  simp only [delFileLoop, hm, Bool.false_eq_true, if_false, hr]

theorem delFileLoop_cons_err {root : Path} {op : List Path}
    {f : Path} {rest : List Path} {s : LoopSt} {u : Unit}
    (hm : pmem f s.marked = false) (hr : removeFile op s.tree f = .error u) :
    delFileLoop root op (f :: rest) s =
      delFileLoop root op rest
        ⟨s.tree, s.marked, s.log ++ [(LogType.ERROR, joinP root f)]⟩ := by
  simp only [delFileLoop, hm, Bool.false_eq_true, if_false, hr]

theorem delFolderLoop_cons_skip {root : Path} {items op : List Path}
    {g : Path} {rest : List Path} {s : LoopSt}
    (hm : pmem g s.marked = true) :
    delFolderLoop root items op (g :: rest) s =
      delFolderLoop root items op rest s := by
  simp [delFolderLoop, hm]

theorem delFolderLoop_cons_ok {root : Path} {items op : List Path}
    {g : Path} {rest : List Path} {s : LoopSt} {t' : Tree}
    (hm : pmem g s.marked = false) (hr : rmtree op s.tree g = .ok t') :
    delFolderLoop root items op (g :: rest) s =
      delFolderLoop root items op rest
        ⟨t', s.marked ++ items.filter (fun p => strContainsB g p),
          s.log ++ (items.filter (fun p => strContainsB g p)).map
            (fun p => (LogType.DELETED, joinP root p))⟩ := by
  simp only [delFolderLoop, hm, Bool.false_eq_true, if_false, hr]

theorem delFolderLoop_cons_err {root : Path} {items op : List Path}
    {g : Path} {rest : List Path} {s : LoopSt} {u : Unit}
    (hm : pmem g s.marked = false) (hr : rmtree op s.tree g = .error u) :
    delFolderLoop root items op (g :: rest) s =
      delFolderLoop root items op rest
        ⟨s.tree, s.marked, s.log ++ [(LogType.ERROR, joinP root g)]⟩ := by
  simp only [delFolderLoop, hm, Bool.false_eq_true, if_false, hr]

theorem bool_not_true {b : Bool} (h : ¬ b = true) : b = false := by
  cases b
  · rfl
  · exact absurd rfl h

/-! ### Monotonicity and containment of the creation applier -/

theorem creFolderLoop_files_mono (src : Tree) (destRoot : Path)
    (items op : List Path) (q : Path) :
    ∀ (l : List Path) (s : LoopSt), (s.tree.mtime q).isSome = true →
      ((creFolderLoop src destRoot items op l s).tree.mtime q).isSome = true := by
  intro l
  induction l with
  | nil => intro s h; exact h
  | cons g rest ih =>
    intro s h
    by_cases hm : pmem g s.marked = true
    · rw [creFolderLoop_cons_skip hm]; exact ih s h
    · cases hr : copytree op src s.tree g with
      | ok t' =>
        obtain ⟨_, _, _, _, hcm, _⟩ := copytree_ok hr
        rw [creFolderLoop_cons_ok (bool_not_true hm) hr]
        apply ih
        show (t'.mtime q).isSome = true
        rw [hcm q]
        obtain ⟨m, hm2⟩ := Option.isSome_iff_exists.1 h
        simp [hm2]
      | error u =>
        rw [creFolderLoop_cons_err (bool_not_true hm) hr]
        exact ih _ h

theorem creFolderLoop_files_sub (src : Tree) (destRoot : Path)
    (items op : List Path) (q : Path) :
    ∀ (l : List Path) (s : LoopSt),
      ((creFolderLoop src destRoot items op l s).tree.mtime q).isSome = true →
      (s.tree.mtime q).isSome = true ∨ src.hasFile q = true := by
  intro l
  induction l with
  | nil => intro s h; exact .inl h
  | cons g rest ih =>
    intro s h
    by_cases hm : pmem g s.marked = true
    · rw [creFolderLoop_cons_skip hm] at h; exact ih s h
    · cases hr : copytree op src s.tree g with
      | ok t' =>
        obtain ⟨_, _, _, _, hcm, _⟩ := copytree_ok hr
        rw [creFolderLoop_cons_ok (bool_not_true hm) hr] at h
        rcases ih _ h with h2 | h2
        · rw [show (⟨t', _, _⟩ : LoopSt).tree = t' from rfl, hcm q] at h2
          cases hsq : s.tree.mtime q with
          | some m => exact .inl (by simp [hsq])
          | none =>
            rw [hsq] at h2
            cases hu : isUnderB g q
            · rw [hu] at h2; simp at h2
            · rw [hu] at h2
              simp only [if_pos rfl] at h2
              exact .inr h2
        · exact .inr h2
      | error u =>
        rw [creFolderLoop_cons_err (bool_not_true hm) hr] at h
        exact ih ⟨s.tree, s.marked, s.log ++ [(LogType.ERROR, joinP destRoot g)]⟩ h

theorem creFolderLoop_folders_mono (src : Tree) (destRoot : Path)
    (items op : List Path) (q : Path) :
    ∀ (l : List Path) (s : LoopSt), s.tree.hasFolder q = true →
      (creFolderLoop src destRoot items op l s).tree.hasFolder q = true := by
  intro l
  induction l with
  | nil => intro s h; exact h
  | cons g rest ih =>
    intro s h
    by_cases hm : pmem g s.marked = true
    · rw [creFolderLoop_cons_skip hm]; exact ih s h
    · cases hr : copytree op src s.tree g with
      | ok t' =>
        obtain ⟨_, _, _, _, _, hcf⟩ := copytree_ok hr
        rw [creFolderLoop_cons_ok (bool_not_true hm) hr]
        exact ih _ ((hcf q).2 (.inl h))
      | error u =>
        rw [creFolderLoop_cons_err (bool_not_true hm) hr]
        exact ih _ h

theorem creFolderLoop_folders_sub (src : Tree) (destRoot : Path)
    (items op : List Path) (q : Path)
    (hclosed : ∀ g p, src.hasFolder p = true → isUnderB g p = true →
      src.hasFolder g = true) :
    ∀ (l : List Path) (s : LoopSt),
      (creFolderLoop src destRoot items op l s).tree.hasFolder q = true →
      s.tree.hasFolder q = true ∨ src.hasFolder q = true := by
  intro l
  induction l with
  | nil => intro s h; exact .inl h
  | cons g rest ih =>
    intro s h
    by_cases hm : pmem g s.marked = true
    · rw [creFolderLoop_cons_skip hm] at h; exact ih s h
    · cases hr : copytree op src s.tree g with
      | ok t' =>
        obtain ⟨_, hsg, _, _, _, hcf⟩ := copytree_ok hr
        rw [creFolderLoop_cons_ok (bool_not_true hm) hr] at h
        rcases ih _ h with h2 | h2
        · rcases (hcf q).1 h2 with h3 | h3 | h3 | ⟨_, h4⟩
          · exact .inl h3
          · exact .inr (hclosed q g hsg h3)
          · exact .inr (h3 ▸ hsg)
          · exact .inr h4
        · exact .inr h2
      | error u =>
        rw [creFolderLoop_cons_err (bool_not_true hm) hr] at h
        exact ih ⟨s.tree, s.marked, s.log ++ [(LogType.ERROR, joinP destRoot g)]⟩ h

theorem creFileLoop_folders (src : Tree) (destRoot : Path) (op : List Path) :
    ∀ (l : List Path) (s : LoopSt),
      (creFileLoop src destRoot op l s).tree.folders = s.tree.folders ∧
      (creFileLoop src destRoot op l s).marked = s.marked := by
  intro l
  induction l with
  | nil => intro s; exact ⟨rfl, rfl⟩
  | cons f rest ih =>
    intro s
    by_cases hm : pmem f s.marked = true
    · rw [creFileLoop_cons_skip hm]; exact ih s
    · cases hr : copy2 op src s.tree f with
      | ok t' =>
        obtain ⟨_, _, _, hcf⟩ := copy2_ok hr
        rw [creFileLoop_cons_ok (bool_not_true hm) hr]
        obtain ⟨e1, e2⟩ := ih ⟨t', s.marked, s.log ++ [(LogType.CREATED, joinP destRoot f)]⟩
        exact ⟨e1.trans hcf, e2⟩
      | error u =>
        rw [creFileLoop_cons_err (bool_not_true hm) hr]
        exact ih _

theorem creFileLoop_files_mono (src : Tree) (destRoot : Path) (op : List Path)
    (q : Path) :
    ∀ (l : List Path) (s : LoopSt), (s.tree.mtime q).isSome = true →
      ((creFileLoop src destRoot op l s).tree.mtime q).isSome = true := by
  intro l
  induction l with
  | nil => intro s h; exact h
  | cons f rest ih =>
    intro s h
    by_cases hm : pmem f s.marked = true
    · rw [creFileLoop_cons_skip hm]; exact ih s h
    · cases hr : copy2 op src s.tree f with
      | ok t' =>
        obtain ⟨_, hsf, hcm, _⟩ := copy2_ok hr
        rw [creFileLoop_cons_ok (bool_not_true hm) hr]
        apply ih
        show (t'.mtime q).isSome = true
        rw [hcm q]
        by_cases hq : q = f
        · rw [if_pos hq]; exact hsf
        · rw [if_neg hq]; exact h
      | error u =>
        rw [creFileLoop_cons_err (bool_not_true hm) hr]
        exact ih _ h

theorem creFileLoop_files_sub (src : Tree) (destRoot : Path) (op : List Path)
    (q : Path) :
    ∀ (l : List Path) (s : LoopSt),
      ((creFileLoop src destRoot op l s).tree.mtime q).isSome = true →
      (s.tree.mtime q).isSome = true ∨ src.hasFile q = true := by
  intro l
  induction l with
  | nil => intro s h; exact .inl h
  | cons f rest ih =>
    intro s h
    by_cases hm : pmem f s.marked = true
    · rw [creFileLoop_cons_skip hm] at h; exact ih s h
    · cases hr : copy2 op src s.tree f with
      | ok t' =>
        obtain ⟨_, hsf, hcm, _⟩ := copy2_ok hr
        rw [creFileLoop_cons_ok (bool_not_true hm) hr] at h
        rcases ih _ h with h2 | h2
        · rw [show (⟨t', _, _⟩ : LoopSt).tree = t' from rfl, hcm q] at h2
          by_cases hq : q = f
          · exact .inr (hq ▸ hsf)
          · rw [if_neg hq] at h2
            exact .inl h2
        · exact .inr h2
      | error u =>
        rw [creFileLoop_cons_err (bool_not_true hm) hr] at h
        exact ih ⟨s.tree, s.marked, s.log ++ [(LogType.ERROR, joinP destRoot f)]⟩ h

theorem create_files_mono_file (Fo Fi : List Path) (src : Tree) (destRoot : Path)
    (t : Tree) (op : List Path) (q : Path) (h : (t.mtime q).isSome = true) :
    ((create_files Fo Fi src destRoot t op).1.mtime q).isSome = true := by
  unfold create_files
  exact creFileLoop_files_mono src destRoot op q Fi _
    (creFolderLoop_files_mono src destRoot (Fo ++ Fi) op q (sortByDepth Fo)
      ⟨t, [], []⟩ h)

theorem create_files_sub_file (Fo Fi : List Path) (src : Tree) (destRoot : Path)
    (t : Tree) (op : List Path) (q : Path)
    (h : ((create_files Fo Fi src destRoot t op).1.mtime q).isSome = true) :
    (t.mtime q).isSome = true ∨ src.hasFile q = true := by
  unfold create_files at h
  rcases creFileLoop_files_sub src destRoot op q Fi _ h with h2 | h2
  · exact creFolderLoop_files_sub src destRoot (Fo ++ Fi) op q (sortByDepth Fo)
      ⟨t, [], []⟩ h2
  · exact .inr h2

theorem create_files_mono_folder (Fo Fi : List Path) (src : Tree) (destRoot : Path)
    (t : Tree) (op : List Path) (q : Path) (h : t.hasFolder q = true) :
    (create_files Fo Fi src destRoot t op).1.hasFolder q = true := by
  unfold create_files
  show pmem q (creFileLoop src destRoot op Fi _).tree.folders = true
  rw [(creFileLoop_folders src destRoot op Fi _).1]
  exact creFolderLoop_folders_mono src destRoot (Fo ++ Fi) op q (sortByDepth Fo)
    ⟨t, [], []⟩ h

theorem create_files_sub_folder (Fo Fi : List Path) (src : Tree) (destRoot : Path)
    (t : Tree) (op : List Path) (q : Path)
    (hclosed : ∀ g p, src.hasFolder p = true → isUnderB g p = true →
      src.hasFolder g = true)
    (h : (create_files Fo Fi src destRoot t op).1.hasFolder q = true) :
    t.hasFolder q = true ∨ src.hasFolder q = true := by
  unfold create_files at h
  rw [show (creFileLoop src destRoot op Fi
      (creFolderLoop src destRoot (Fo ++ Fi) op (sortByDepth Fo)
        ⟨t, [], []⟩)).tree.hasFolder q =
      pmem q (creFileLoop src destRoot op Fi
        (creFolderLoop src destRoot (Fo ++ Fi) op (sortByDepth Fo)
          ⟨t, [], []⟩)).tree.folders from rfl,
    (creFileLoop_folders src destRoot op Fi _).1] at h
  exact creFolderLoop_folders_sub src destRoot (Fo ++ Fi) op q hclosed
    (sortByDepth Fo) ⟨t, [], []⟩ h

/-! ### Log entry levels of each applier -/

theorem delFolderLoop_types (root : Path) (items op : List Path) :
    ∀ (l : List Path) (s : LoopSt),
      ∀ e ∈ (delFolderLoop root items op l s).log,
        e ∈ s.log ∨ e.1 = LogType.DELETED ∨ e.1 = LogType.ERROR := by
  intro l
  induction l with
  | nil => intro s e he; exact .inl he
  | cons g rest ih =>
    intro s e he
    by_cases hm : pmem g s.marked = true
    · rw [delFolderLoop_cons_skip hm] at he; exact ih s e he
    · cases hr : rmtree op s.tree g with
      | ok t' =>
        rw [delFolderLoop_cons_ok (bool_not_true hm) hr] at he
        rcases ih _ e he with he2 | he2
        · rcases List.mem_append.1 he2 with he3 | he3
          · exact .inl he3
          · obtain ⟨q, _, hq2⟩ := List.mem_map.1 he3
            exact .inr (.inl (by rw [← hq2]))
        · exact .inr he2
      | error u =>
        rw [delFolderLoop_cons_err (bool_not_true hm) hr] at he
        rcases ih _ e he with he2 | he2
        · rcases List.mem_append.1 he2 with he3 | he3
          · exact .inl he3
          · rcases List.mem_singleton.1 he3 with rfl
            exact .inr (.inr rfl)
        · exact .inr he2

theorem delFileLoop_types (root : Path) (op : List Path) :
    ∀ (l : List Path) (s : LoopSt),
      ∀ e ∈ (delFileLoop root op l s).log,
        e ∈ s.log ∨ e.1 = LogType.DELETED ∨ e.1 = LogType.ERROR := by
  intro l
  induction l with
  | nil => intro s e he; exact .inl he
  | cons f rest ih =>
    intro s e he
    by_cases hm : pmem f s.marked = true
    · rw [delFileLoop_cons_skip hm] at he; exact ih s e he
    · cases hr : removeFile op s.tree f with
      | ok t' =>
        rw [delFileLoop_cons_ok (bool_not_true hm) hr] at he
        rcases ih _ e he with he2 | he2
        · rcases List.mem_append.1 he2 with he3 | he3
          · exact .inl he3
          · rcases List.mem_singleton.1 he3 with rfl
            exact .inr (.inl rfl)
        · exact .inr he2
      | error u =>
        rw [delFileLoop_cons_err (bool_not_true hm) hr] at he
        rcases ih _ e he with he2 | he2
        · rcases List.mem_append.1 he2 with he3 | he3
          · exact .inl he3
          · rcases List.mem_singleton.1 he3 with rfl
            exact .inr (.inr rfl)
        · exact .inr he2

theorem delete_files_types (Fo Fi : List Path) (root : Path) (t : Tree)
    (op : List Path) :
    ∀ e ∈ (delete_files Fo Fi root t op).2,
      e.1 = LogType.DELETED ∨ e.1 = LogType.ERROR := by
  intro e he
  rcases delFileLoop_types root op Fi _ e he with he2 | he2
  · rcases delFolderLoop_types root (Fo ++ Fi) op (sortByDepth Fo) ⟨t, [], []⟩ e he2
      with he3 | he3
    · cases he3
    · exact he3
  · exact he2

theorem creFolderLoop_types (src : Tree) (destRoot : Path) (items op : List Path) :
    ∀ (l : List Path) (s : LoopSt),
      ∀ e ∈ (creFolderLoop src destRoot items op l s).log,
        e ∈ s.log ∨ e.1 = LogType.CREATED ∨ e.1 = LogType.ERROR := by
  intro l
  induction l with
  | nil => intro s e he; exact .inl he
  | cons g rest ih =>
    intro s e he
    by_cases hm : pmem g s.marked = true
    · rw [creFolderLoop_cons_skip hm] at he; exact ih s e he
    · cases hr : copytree op src s.tree g with
      | ok t' =>
        rw [creFolderLoop_cons_ok (bool_not_true hm) hr] at he
        rcases ih _ e he with he2 | he2
        · rcases List.mem_append.1 he2 with he3 | he3
          · exact .inl he3
          · obtain ⟨q, _, hq2⟩ := List.mem_map.1 he3
            exact .inr (.inl (by rw [← hq2]))
        · exact .inr he2
      | error u =>
        rw [creFolderLoop_cons_err (bool_not_true hm) hr] at he
        rcases ih _ e he with he2 | he2
        · rcases List.mem_append.1 he2 with he3 | he3
          · exact .inl he3
          · rcases List.mem_singleton.1 he3 with rfl
            exact .inr (.inr rfl)
        · exact .inr he2

theorem creFileLoop_types (src : Tree) (destRoot : Path) (op : List Path) :
    ∀ (l : List Path) (s : LoopSt),
      ∀ e ∈ (creFileLoop src destRoot op l s).log,
        e ∈ s.log ∨ e.1 = LogType.CREATED ∨ e.1 = LogType.ERROR := by
  intro l
  induction l with
  | nil => intro s e he; exact .inl he
  | cons f rest ih =>
    intro s e he
    by_cases hm : pmem f s.marked = true
    · rw [creFileLoop_cons_skip hm] at he; exact ih s e he
    · cases hr : copy2 op src s.tree f with
      | ok t' =>
        rw [creFileLoop_cons_ok (bool_not_true hm) hr] at he
        rcases ih _ e he with he2 | he2
        · rcases List.mem_append.1 he2 with he3 | he3
          · exact .inl he3
          · rcases List.mem_singleton.1 he3 with rfl
            exact .inr (.inl rfl)
        · exact .inr he2
      | error u =>
        rw [creFileLoop_cons_err (bool_not_true hm) hr] at he
        rcases ih _ e he with he2 | he2
        · rcases List.mem_append.1 he2 with he3 | he3
          · exact .inl he3
          · rcases List.mem_singleton.1 he3 with rfl
            exact .inr (.inr rfl)
        · exact .inr he2

theorem create_files_types (Fo Fi : List Path) (src : Tree) (destRoot : Path)
    (t : Tree) (op : List Path) :
    ∀ e ∈ (create_files Fo Fi src destRoot t op).2,
      e.1 = LogType.CREATED ∨ e.1 = LogType.ERROR := by
  intro e he
  rcases creFileLoop_types src destRoot op Fi _ e he with he2 | he2
  · rcases creFolderLoop_types src destRoot (Fo ++ Fi) op (sortByDepth Fo)
      ⟨t, [], []⟩ e he2 with he3 | he3
    · cases he3
    · exact he3
  · exact he2

theorem updLoop_types (destRoot : Path) (src : Tree) (statL opL : List Path) :
    ∀ (l : List Path) (t : Tree) (log : List LogEntry)
      (r : Tree × List LogEntry),
      updLoop destRoot src statL opL l t log = .ok r →
      ∀ e ∈ r.2, e ∈ log ∨ e.1 = LogType.UPDATED ∨ e.1 = LogType.ERROR := by
  intro l
  induction l with
  | nil =>
    intro t log r h e he
    have h2 : ((t, log) : Tree × List LogEntry) = r := by
      injection h
    rw [← h2] at he
    exact .inl he
  | cons f rest ih =>
    intro t log r h e he
    cases hgs : getmtimeE statL src f with
    | error u =>
      rw [show updLoop destRoot src statL opL (f :: rest) t log = .error f from by
        simp only [updLoop, hgs]] at h
      cases h
    | ok ms =>
      cases hgd : getmtimeE statL t f with
      | error u =>
        rw [show updLoop destRoot src statL opL (f :: rest) t log = .error f from by
          simp only [updLoop, hgs, hgd]] at h
        cases h
      | ok md =>
        by_cases hne : md ≠ ms
        · cases hcp : copy2 opL src t f with
          | ok t2 =>
            rw [show updLoop destRoot src statL opL (f :: rest) t log =
                updLoop destRoot src statL opL rest t2
                  (log ++ [(LogType.UPDATED, joinP destRoot f)]) from by
              simp only [updLoop, hgs, hgd, hcp, if_pos hne]] at h
            rcases ih t2 _ r h e he with he2 | he2
            · rcases List.mem_append.1 he2 with he3 | he3
              · exact .inl he3
              · rcases List.mem_singleton.1 he3 with rfl
                exact .inr (.inl rfl)
            · exact .inr he2
          | error u =>
            rw [show updLoop destRoot src statL opL (f :: rest) t log =
                updLoop destRoot src statL opL rest t
                  (log ++ [(LogType.ERROR, joinP destRoot f)]) from by
              simp only [updLoop, hgs, hgd, hcp, if_pos hne]] at h
            rcases ih t _ r h e he with he2 | he2
            · rcases List.mem_append.1 he2 with he3 | he3
              · exact .inl he3
              · rcases List.mem_singleton.1 he3 with rfl
                exact .inr (.inr rfl)
            · exact .inr he2
        · rw [show updLoop destRoot src statL opL (f :: rest) t log =
              updLoop destRoot src statL opL rest t log from by
            simp only [updLoop, hgs, hgd, if_neg hne]] at h
          exact ih t log r h e he

theorem countE_zero_of_types {ty1 ty2 : LogType} {x : LogEntry}
    {l : List LogEntry} (h : ∀ e ∈ l, e.1 = ty1 ∨ e.1 = ty2)
    (hne1 : ¬ x.1 = ty1) (hne2 : ¬ x.1 = ty2) : countE x l = 0 := by
  apply countE_zero
  intro e he hc
  subst hc
  rcases h e he with h2 | h2
  · exact hne1 h2
  · exact hne2 h2

/-! ### Error containment and marking helpers -/

theorem delFileLoop_log_mono (root : Path) (op : List Path) :
    ∀ (l : List Path) (s : LoopSt) (e : LogEntry), e ∈ s.log →
      e ∈ (delFileLoop root op l s).log := by
  intro l
  induction l with
  | nil => intro s e he; exact he
  | cons f rest ih =>
    intro s e he
    by_cases hm : pmem f s.marked = true
    · rw [delFileLoop_cons_skip hm]; exact ih s e he
    · cases hr : removeFile op s.tree f with
      | ok t' =>
        rw [delFileLoop_cons_ok (bool_not_true hm) hr]
        exact ih _ e (List.mem_append.2 (.inl he))
      | error u =>
        rw [delFileLoop_cons_err (bool_not_true hm) hr]
        exact ih _ e (List.mem_append.2 (.inl he))

theorem creFileLoop_log_mono (src : Tree) (destRoot : Path) (op : List Path) :
    ∀ (l : List Path) (s : LoopSt) (e : LogEntry), e ∈ s.log →
      e ∈ (creFileLoop src destRoot op l s).log := by
  intro l
  induction l with
  | nil => intro s e he; exact he
  | cons f rest ih =>
    intro s e he
    by_cases hm : pmem f s.marked = true
    · rw [creFileLoop_cons_skip hm]; exact ih s e he
    · cases hr : copy2 op src s.tree f with
      | ok t' =>
        rw [creFileLoop_cons_ok (bool_not_true hm) hr]
        exact ih _ e (List.mem_append.2 (.inl he))
      | error u =>
        rw [creFileLoop_cons_err (bool_not_true hm) hr]
        exact ih _ e (List.mem_append.2 (.inl he))

/-- A file whose removal fails through the oracle still gets an ERROR line,
    and the loop continues: the entry is in the final log. -/
theorem delFileLoop_err (root : Path) (op : List Path) :
    ∀ (l : List Path) (s : LoopSt) (f : Path), f ∈ l →
      pmem f s.marked = false → pmem f op = true →
      (LogType.ERROR, joinP root f) ∈ (delFileLoop root op l s).log := by
  intro l
  induction l with
  | nil => intro s f hf; cases hf
  | cons f0 rest ih =>
    intro s f hf hmf hop
    by_cases he : f0 = f
    · subst he
      have hr : removeFile op s.tree f0 = .error () := removeFile_error (.inl hop)
      rw [delFileLoop_cons_err hmf hr]
      exact delFileLoop_log_mono root op rest _ _
        (List.mem_append.2 (.inr (by simp)))
    · have hf2 : f ∈ rest := by
        rcases List.mem_cons.1 hf with rfl | h2
        · exact absurd rfl he
        · exact h2
      by_cases hm : pmem f0 s.marked = true
      · rw [delFileLoop_cons_skip hm]
        exact ih s f hf2 hmf hop
      · cases hr : removeFile op s.tree f0 with
        | ok t' =>
          rw [delFileLoop_cons_ok (bool_not_true hm) hr]
          exact ih _ f hf2 hmf hop
        | error u =>
          rw [delFileLoop_cons_err (bool_not_true hm) hr]
          exact ih _ f hf2 hmf hop

/-- A file whose copy fails through the oracle still gets an ERROR line, and
    the loop continues: the entry is in the final log. -/
theorem creFileLoop_err (src : Tree) (destRoot : Path) (op : List Path) :
    ∀ (l : List Path) (s : LoopSt) (f : Path), f ∈ l →
      pmem f s.marked = false → pmem f op = true →
      (LogType.ERROR, joinP destRoot f) ∈ (creFileLoop src destRoot op l s).log := by
  intro l
  induction l with
  | nil => intro s f hf; cases hf
  | cons f0 rest ih =>
    intro s f hf hmf hop
    by_cases he : f0 = f
    · subst he
      have hr : copy2 op src s.tree f0 = .error () := copy2_error_locked hop
      rw [creFileLoop_cons_err hmf hr]
      exact creFileLoop_log_mono src destRoot op rest _ _
        (List.mem_append.2 (.inr (by simp)))
    · have hf2 : f ∈ rest := by
        rcases List.mem_cons.1 hf with rfl | h2
        · exact absurd rfl he
        · exact h2
      by_cases hm : pmem f0 s.marked = true
      · rw [creFileLoop_cons_skip hm]
        exact ih s f hf2 hmf hop
      · cases hr : copy2 op src s.tree f0 with
        | ok t' =>
          rw [creFileLoop_cons_ok (bool_not_true hm) hr]
          exact ih _ f hf2 hmf hop
        | error u =>
          rw [creFileLoop_cons_err (bool_not_true hm) hr]
          exact ih _ f hf2 hmf hop

theorem delFolderLoop_marked_mono (root : Path) (items op : List Path) :
    ∀ (l : List Path) (s : LoopSt) (p : Path), pmem p s.marked = true →
      pmem p (delFolderLoop root items op l s).marked = true := by
  intro l
  induction l with
  | nil => intro s p h; exact h
  | cons g rest ih =>
    intro s p h
    by_cases hm : pmem g s.marked = true
    · rw [delFolderLoop_cons_skip hm]; exact ih s p h
    · cases hr : rmtree op s.tree g with
      | ok t' =>
        rw [delFolderLoop_cons_ok (bool_not_true hm) hr]
        exact ih _ p (by rw [show (⟨t', s.marked ++ _, _⟩ : LoopSt).marked =
          s.marked ++ items.filter (fun q => strContainsB g q) from rfl,
          pmem_append, h]; rfl)
      | error u =>
        rw [delFolderLoop_cons_err (bool_not_true hm) hr]
        exact ih _ p h

theorem creFolderLoop_marked_mono (src : Tree) (destRoot : Path)
    (items op : List Path) :
    ∀ (l : List Path) (s : LoopSt) (p : Path), pmem p s.marked = true →
      pmem p (creFolderLoop src destRoot items op l s).marked = true := by
  intro l
  induction l with
  | nil => intro s p h; exact h
  | cons g rest ih =>
    intro s p h
    by_cases hm : pmem g s.marked = true
    · rw [creFolderLoop_cons_skip hm]; exact ih s p h
    · cases hr : copytree op src s.tree g with
      | ok t' =>
        rw [creFolderLoop_cons_ok (bool_not_true hm) hr]
        exact ih _ p (by rw [show (⟨t', s.marked ++ _, _⟩ : LoopSt).marked =
          s.marked ++ items.filter (fun q => strContainsB g q) from rfl,
          pmem_append, h]; rfl)
      | error u =>
        rw [creFolderLoop_cons_err (bool_not_true hm) hr]
        exact ih _ p h

/-- A successful recursive removal marks every item containing the folder's
    path as a substring, and the mark survives to the end of the loop. -/
theorem delFolderLoop_marks (root : Path) (items op : List Path)
    (g : Path) (rest : List Path) (s : LoopSt) (t' : Tree)
    (hm : pmem g s.marked = false) (hr : rmtree op s.tree g = .ok t')
    (p : Path) (hp : pmem p items = true) (hc : strContainsB g p = true) :
    pmem p (delFolderLoop root items op (g :: rest) s).marked = true := by
  rw [delFolderLoop_cons_ok hm hr]
  apply delFolderLoop_marked_mono
  rw [show (⟨t', s.marked ++ items.filter (fun q => strContainsB g q), _⟩
      : LoopSt).marked =
    s.marked ++ items.filter (fun q => strContainsB g q) from rfl]
  rw [pmem_append, pmem_filter, hc, hp]
  simp

/-- A successful recursive copy marks every item containing the folder's path
    as a substring, and the mark survives to the end of the loop. -/
theorem creFolderLoop_marks (src : Tree) (destRoot : Path) (items op : List Path)
    (g : Path) (rest : List Path) (s : LoopSt) (t' : Tree)
    (hm : pmem g s.marked = false) (hr : copytree op src s.tree g = .ok t')
    (p : Path) (hp : pmem p items = true) (hc : strContainsB g p = true) :
    pmem p (creFolderLoop src destRoot items op (g :: rest) s).marked = true := by
  rw [creFolderLoop_cons_ok hm hr]
  apply creFolderLoop_marked_mono
  rw [show (⟨t', s.marked ++ items.filter (fun q => strContainsB g q), _⟩
      : LoopSt).marked =
    s.marked ++ items.filter (fun q => strContainsB g q) from rfl]
  rw [pmem_append, pmem_filter, hc, hp]
  simp

/-! ### Cycle-level assembly -/

theorem sync_folders_neg {sroot rroot : Path} {w : World} {statL opL : List Path}
    (hflags : (w.logDirExists && w.logFileExists && w.sourceExists &&
      w.replicaExists) = false) :
    sync_folders sroot rroot w statL opL = .ok (false, w.replica, []) := by
  unfold sync_folders
  rw [if_pos (by simp [hflags])]

theorem sync_folders_pos {sroot rroot : Path} {w : World} {statL opL : List Path}
    (hflags : (w.logDirExists && w.logFileExists && w.sourceExists &&
      w.replicaExists) = true) :
    sync_folders sroot rroot w statL opL =
      match update_files (interL (filesOf w.source) (filesOf w.replica)) w.source
        rroot
        (create_files (diffL w.source.folders w.replica.folders)
          (diffL (filesOf w.source) (filesOf w.replica)) w.source rroot
          (delete_files (diffL w.replica.folders w.source.folders)
            (diffL (filesOf w.replica) (filesOf w.source)) rroot w.replica opL).1
          opL).1
        statL opL with
      | .error p => .error p
      | .ok u => .ok (true, u.1,
          (delete_files (diffL w.replica.folders w.source.folders)
            (diffL (filesOf w.replica) (filesOf w.source)) rroot w.replica opL).2 ++
          (create_files (diffL w.source.folders w.replica.folders)
            (diffL (filesOf w.source) (filesOf w.replica)) w.source rroot
            (delete_files (diffL w.replica.folders w.source.folders)
              (diffL (filesOf w.replica) (filesOf w.source)) rroot w.replica
              opL).1 opL).2 ++ u.2) := by
  unfold sync_folders
  rw [if_neg (by simp [hflags])]
  rfl

/-- Nothing of the source's folders, nor any file common to both trees, is
    hierarchically covered by a replica-only folder. -/
theorem covered_del_false {src rep : Tree} (hWFs : WF src) (hWFr : WF rep)
    {q : Path} (hq : q ∈ src.folders ∨ (q ∈ filesOf src ∧ q ∈ filesOf rep)) :
    coveredB (diffL rep.folders src.folders) q = false := by
  cases hv : coveredB (diffL rep.folders src.folders) q
  · rfl
  · exfalso
    obtain ⟨g, hg, hsu⟩ := coveredB_iff.1 hv
    obtain ⟨hgR, hgS⟩ := mem_diffL_iff.1 hg
    rcases sameOrUnderB_iff.1 hsu with rfl | hu
    · rcases hq with h1 | ⟨_, h3⟩
      · rw [pmem_iff.2 h1] at hgS; cases hgS
      · exact wf_disj hWFr hgR h3
    · rcases hq with h1 | ⟨h2, _⟩
      · rw [pmem_iff.2 (wf_closed_folder hWFs h1 hu)] at hgS; cases hgS
      · rw [pmem_iff.2 (wf_closed_file hWFs h2 hu)] at hgS; cases hgS

/-- Nothing of the replica's folders, nor any file common to both trees, is
    hierarchically covered by a source-only folder. -/
theorem covered_cre_false {src rep : Tree} (hWFs : WF src) (hWFr : WF rep)
    {q : Path} (hq : q ∈ rep.folders ∨ (q ∈ filesOf rep ∧ q ∈ filesOf src)) :
    coveredB (diffL src.folders rep.folders) q = false := by
  cases hv : coveredB (diffL src.folders rep.folders) q
  · rfl
  · exfalso
    obtain ⟨g, hg, hsu⟩ := coveredB_iff.1 hv
    obtain ⟨hgS, hgR⟩ := mem_diffL_iff.1 hg
    rcases sameOrUnderB_iff.1 hsu with rfl | hu
    · rcases hq with h1 | ⟨_, h3⟩
      · rw [pmem_iff.2 h1] at hgR; cases hgR
      · exact wf_disj hWFs hgS h3
    · rcases hq with h1 | ⟨h2, _⟩
      · rw [pmem_iff.2 (wf_closed_folder hWFr h1 hu)] at hgR; cases hgR
      · rw [pmem_iff.2 (wf_closed_file hWFr h2 hu)] at hgR; cases hgR

/-- Master characterization of one fully successful cycle whose substring
    tests agree with hierarchical containment on both diff item sets: the
    replica converges to the source, folders, files and timestamps alike. -/
theorem sync_char (sroot rroot : Path) (w : World)
    (hflags : (w.logDirExists && w.logFileExists && w.sourceExists &&
      w.replicaExists) = true)
    (hWFs : WF w.source) (hWFr : WF w.replica)
    (hexDel : ∀ g ∈ diffL w.replica.folders w.source.folders,
      ∀ p ∈ diffL w.replica.folders w.source.folders ++
        diffL (filesOf w.replica) (filesOf w.source),
        strContainsB g p = sameOrUnderB g p)
    (hexCre : ∀ g ∈ diffL w.source.folders w.replica.folders,
      ∀ p ∈ diffL w.source.folders w.replica.folders ++
        diffL (filesOf w.source) (filesOf w.replica),
        strContainsB g p = sameOrUnderB g p) :
    ∃ T L, sync_folders sroot rroot w [] [] = .ok (true, T, L) ∧
      (∀ p, T.hasFolder p = w.source.hasFolder p) ∧
      (∀ p, T.mtime p = w.source.mtime p) := by
  obtain ⟨d1, d2, d3, d4⟩ := delete_files_char rroot
    (diffL w.replica.folders w.source.folders)
    (diffL (filesOf w.replica) (filesOf w.source)) w.replica
    (diffL_nodup (wf_foldersNd hWFr)) (diffL_nodup (wf_filesNd hWFr))
    (by
      intro p hp hp2
      exact wf_disj hWFr (diffL_subset hp) (diffL_subset hp2))
    (fun g hg => hasFolder_iff.2 (diffL_subset hg))
    (fun f hf => hasFile_iff.2 (diffL_subset hf))
    hexDel
  have hsrc_disjB : ∀ p, (w.source).hasFolder p = true → (w.source).hasFile p = false := by
    intro p hp
    cases hv : (w.source).hasFile p
    · rfl
    · exact absurd (hasFile_iff.1 hv) (wf_disj hWFs (hasFolder_iff.1 hp))
  have hsrc_closedB : ∀ g p, (w.source).hasFolder p = true → isUnderB g p = true →
      (w.source).hasFolder g = true := by
    intro g p hp hu
    exact hasFolder_iff.2 (wf_closed_folder hWFs (hasFolder_iff.1 hp) hu)
  have hT1fo : ∀ p, (delete_files (diffL w.replica.folders w.source.folders)
      (diffL (filesOf w.replica) (filesOf w.source)) rroot w.replica []).1.hasFolder p =
      (!(coveredB (diffL w.replica.folders w.source.folders) p) &&
        w.replica.hasFolder p) := d1
  have hT1fi := d2
  obtain ⟨e1, e2, e3, e4⟩ := create_files_char rroot
    (diffL w.source.folders w.replica.folders)
    (diffL (filesOf w.source) (filesOf w.replica)) w.source
    (delete_files (diffL w.replica.folders w.source.folders)
      (diffL (filesOf w.replica) (filesOf w.source)) rroot w.replica []).1
    (diffL_nodup (wf_foldersNd hWFs)) (diffL_nodup (wf_filesNd hWFs))
    (by
      intro p hp hp2
      exact wf_disj hWFs (diffL_subset hp) (diffL_subset hp2))
    hsrc_disjB hsrc_closedB
    (fun g hg => hasFolder_iff.2 (diffL_subset hg))
    (by
      intro g hg
      obtain ⟨hgS, hgR⟩ := mem_diffL_iff.1 hg
      rw [hT1fo g]
      unfold Tree.hasFolder
      rw [hgR]
      simp)
    (by
      intro g hg
      obtain ⟨hgS, hgR⟩ := mem_diffL_iff.1 hg
      have hgSF : pmem g (filesOf w.source) = false := by
        cases hv : pmem g (filesOf w.source)
        · rfl
        · exact absurd (pmem_iff.1 hv) (wf_disj hWFs hgS)
      unfold Tree.hasFile
      rw [hT1fi g]
      cases hcv : (coveredB (diffL w.replica.folders w.source.folders) g ||
        pmem g (diffL (filesOf w.replica) (filesOf w.source))) with
      | true => simp
      | false =>
        rw [if_neg (by simp [hcv])]
        have hgRF : pmem g (filesOf w.replica) = false := by
          cases hv : pmem g (filesOf w.replica)
          · rfl
          · have : pmem g (diffL (filesOf w.replica) (filesOf w.source)) = true := by
              rw [pmem_diffL, hv, hgSF]
              rfl
            rw [this] at hcv
            simp at hcv
        cases hm : w.replica.mtime g with
        | none => rfl
        | some m =>
          have : pmem g (filesOf w.replica) = true := by
            apply pmem_iff.2
            apply hasFile_iff.1
            unfold Tree.hasFile
            rw [hm]
            rfl
          rw [this] at hgRF
          cases hgRF)
    (fun f hf => hasFile_iff.2 (diffL_subset hf))
    (by
      intro g hg a ha
      obtain ⟨hgS, hgR⟩ := mem_diffL_iff.1 hg
      have haS : a ∈ w.source.folders := wf_closed_folder hWFs hgS ha
      cases hv : pmem a w.replica.folders with
      | true =>
        left
        rw [hT1fo a, covered_del_false hWFs hWFr (.inl haS)]
        unfold Tree.hasFolder
        rw [hv]
        rfl
      | false =>
        right
        exact mem_diffL_iff.2 ⟨haS, hv⟩)
    (by
      intro q hq1 hq2
      have hqRF : q ∈ filesOf w.replica := by
        unfold Tree.hasFile at hq1
        rw [hT1fi q] at hq1
        by_cases hc : (coveredB (diffL w.replica.folders w.source.folders) q ||
            pmem q (diffL (filesOf w.replica) (filesOf w.source))) = true
        · rw [if_pos hc] at hq1
          cases hq1
        · rw [if_neg hc] at hq1
          exact hasFile_iff.1 hq1
      exact covered_cre_false hWFs hWFr (.inr ⟨hqRF, hasFile_iff.1 hq2⟩))
    (by
      intro f hf d hd
      have hu := parentDir_isUnder hd
      have hdS : d ∈ w.source.folders :=
        wf_closed_file hWFs (diffL_subset hf) hu
      cases hv : pmem d w.replica.folders with
      | true =>
        left
        rw [hT1fo d, covered_del_false hWFs hWFr (.inl hdS)]
        unfold Tree.hasFolder
        rw [hv]
        rfl
      | false =>
        right
        exact mem_diffL_iff.2 ⟨hdS, hv⟩)
    hexCre
  obtain ⟨t3, log3, hok, u1, u2, u3, u4⟩ := updLoop_char rroot w.source
    (interL (filesOf w.source) (filesOf w.replica))
    (create_files (diffL w.source.folders w.replica.folders)
      (diffL (filesOf w.source) (filesOf w.replica)) w.source rroot
      (delete_files (diffL w.replica.folders w.source.folders)
        (diffL (filesOf w.replica) (filesOf w.source)) rroot w.replica []).1 []).1
    []
    ((wf_filesNd hWFs).filter _)
    (fun f hf => mtime_isSome_of_mem (interL_subset hf))
    (by
      intro f hf
      obtain ⟨hfS, hfR⟩ := mem_interL_iff.1 hf
      rw [e2 f]
      by_cases hc : ((w.source).hasFile f &&
          (coveredB (diffL w.source.folders w.replica.folders) f ||
            pmem f (diffL (filesOf w.source) (filesOf w.replica)))) = true
      · rw [if_pos hc]
        exact mtime_isSome_of_mem hfS
      · rw [if_neg hc]
        rw [hT1fi f]
        have hcov : coveredB (diffL w.replica.folders w.source.folders) f = false :=
          covered_del_false hWFs hWFr (.inr ⟨hfS, hfR⟩)
        have hdfi : pmem f (diffL (filesOf w.replica) (filesOf w.source)) = false := by
          rw [pmem_diffL, pmem_iff.2 hfS]
          cases pmem f (filesOf w.replica) <;> rfl
        rw [if_neg (by simp [hcov, hdfi])]
        exact mtime_isSome_of_mem hfR)
    (by
      intro f hf d hd
      have hu := parentDir_isUnder hd
      obtain ⟨hfS, hfR⟩ := mem_interL_iff.1 hf
      have hdS : d ∈ w.source.folders := wf_closed_file hWFs hfS hu
      rw [e1 d]
      cases hv : pmem d w.replica.folders with
      | true =>
        rw [hT1fo d, covered_del_false hWFs hWFr (.inl hdS)]
        unfold Tree.hasFolder
        rw [hv]
        rfl
      | false =>
        have : d ∈ diffL w.source.folders w.replica.folders :=
          mem_diffL_iff.2 ⟨hdS, hv⟩
        rw [covered_self this, hasFolder_iff.2 hdS]
        simp)
  refine ⟨t3, (delete_files (diffL w.replica.folders w.source.folders)
      (diffL (filesOf w.replica) (filesOf w.source)) rroot w.replica []).2 ++
    (create_files (diffL w.source.folders w.replica.folders)
      (diffL (filesOf w.source) (filesOf w.replica)) w.source rroot
      (delete_files (diffL w.replica.folders w.source.folders)
        (diffL (filesOf w.replica) (filesOf w.source)) rroot w.replica []).1 []).2 ++
    log3, ?_, ?_, ?_⟩
  · rw [sync_folders_pos hflags]
    rw [show update_files (interL (filesOf w.source) (filesOf w.replica)) w.source
        rroot
        (create_files (diffL w.source.folders w.replica.folders)
          (diffL (filesOf w.source) (filesOf w.replica)) w.source rroot
          (delete_files (diffL w.replica.folders w.source.folders)
            (diffL (filesOf w.replica) (filesOf w.source)) rroot w.replica []).1
          []).1 [] [] =
      updLoop rroot w.source [] []
        (interL (filesOf w.source) (filesOf w.replica))
        (create_files (diffL w.source.folders w.replica.folders)
          (diffL (filesOf w.source) (filesOf w.replica)) w.source rroot
          (delete_files (diffL w.replica.folders w.source.folders)
            (diffL (filesOf w.replica) (filesOf w.source)) rroot w.replica []).1
          []).1 [] from rfl]
    rw [hok]
    simp
  · intro p
    have ht3 : t3.hasFolder p =
        (create_files (diffL w.source.folders w.replica.folders)
          (diffL (filesOf w.source) (filesOf w.replica)) w.source rroot
          (delete_files (diffL w.replica.folders w.source.folders)
            (diffL (filesOf w.replica) (filesOf w.source)) rroot w.replica []).1
          []).1.hasFolder p := by
      unfold Tree.hasFolder
      rw [u2]
    rw [ht3, e1 p]
    cases hs : (w.source).hasFolder p with
    | true =>
      have hpS : p ∈ w.source.folders := hasFolder_iff.1 hs
      cases hr : pmem p w.replica.folders with
      | true =>
        rw [hT1fo p, covered_del_false hWFs hWFr (.inl hpS)]
        unfold Tree.hasFolder
        rw [hr]
        rfl
      | false =>
        have : p ∈ diffL w.source.folders w.replica.folders :=
          mem_diffL_iff.2 ⟨hpS, hr⟩
        rw [covered_self this]
        simp
    | false =>
      rw [hT1fo p]
      simp only [Bool.false_and, Bool.or_false]
      cases hr : (w.replica).hasFolder p with
      | false => simp
      | true =>
        have hpR : p ∈ w.replica.folders := hasFolder_iff.1 hr
        have hpS : pmem p w.source.folders = false := by
          cases hv : pmem p w.source.folders
          · rfl
          · rw [hasFolder_iff.2 (pmem_iff.1 hv)] at hs
            cases hs
        have : p ∈ diffL w.replica.folders w.source.folders :=
          mem_diffL_iff.2 ⟨hpR, hpS⟩
        rw [covered_self this]
        simp
  · intro p
    rw [u1 p]
    cases hcm : pmem p (interL (filesOf w.source) (filesOf w.replica)) with
    | true => rfl
    | false =>
      rw [e2 p]
      cases hsf : (w.source).hasFile p with
      | true =>
        have hpS : p ∈ filesOf w.source := hasFile_iff.1 hsf
        have hpR : pmem p (filesOf w.replica) = false := by
          cases hv : pmem p (filesOf w.replica)
          · rfl
          · have : pmem p (interL (filesOf w.source) (filesOf w.replica)) = true := by
              rw [pmem_interL, pmem_iff.2 hpS, hv]
              rfl
            rw [this] at hcm
            cases hcm
        have : pmem p (diffL (filesOf w.source) (filesOf w.replica)) = true := by
          rw [pmem_diffL, pmem_iff.2 hpS, hpR]
          rfl
        rw [this]
        simp
      | false =>
        have hsn : (w.source).mtime p = none := mtime_none hsf
        simp only [Bool.false_and]
        rw [if_neg (by simp)]
        rw [hT1fi p, hsn]
        have hpSF : pmem p (filesOf w.source) = false := by
          cases hv : pmem p (filesOf w.source)
          · rfl
          · rw [hasFile_iff.2 (pmem_iff.1 hv)] at hsf
            cases hsf
        cases hv : pmem p (filesOf w.replica) with
        | true =>
          have : pmem p (diffL (filesOf w.replica) (filesOf w.source)) = true := by
            rw [pmem_diffL, hv, hpSF]
            rfl
          rw [this]
          simp
        | false =>
          have hrn : (w.replica).mtime p = none := by
            apply mtime_none
            cases hw : (w.replica).hasFile p
            · rfl
            · rw [pmem_iff.2 (hasFile_iff.1 hw)] at hv
              cases hv
          rw [hrn]
          cases (coveredB (diffL w.replica.folders w.source.folders) p ||
            pmem p (diffL (filesOf w.replica) (filesOf w.source))) <;> simp

theorem isUnder_ne {a b : Path} (h : isUnderB a b = true) : ¬ a = b := by
  intro hh
  subst hh
  exact absurd (isUnder_depth h) (lt_irrefl _)

theorem updLoop_folders (destRoot : Path) (src : Tree) (statL opL : List Path) :
    ∀ (l : List Path) (t : Tree) (log : List LogEntry) (r : Tree × List LogEntry),
      updLoop destRoot src statL opL l t log = .ok r → r.1.folders = t.folders := by
  intro l
  induction l with
  | nil =>
    intro t log r h
    have h2 : ((t, log) : Tree × List LogEntry) = r := by injection h
    rw [← h2]
  | cons f rest ih =>
    intro t log r h
    cases hgs : getmtimeE statL src f with
    | error u =>
      rw [show updLoop destRoot src statL opL (f :: rest) t log = .error f from by
        simp only [updLoop, hgs]] at h
      cases h
    | ok ms =>
      cases hgd : getmtimeE statL t f with
      | error u =>
        rw [show updLoop destRoot src statL opL (f :: rest) t log = .error f from by
          simp only [updLoop, hgs, hgd]] at h
        cases h
      | ok md =>
        by_cases hne : md ≠ ms
        · cases hcp : copy2 opL src t f with
          | ok t2 =>
            rw [show updLoop destRoot src statL opL (f :: rest) t log =
                updLoop destRoot src statL opL rest t2
                  (log ++ [(LogType.UPDATED, joinP destRoot f)]) from by
              simp only [updLoop, hgs, hgd, hcp, if_pos hne]] at h
            obtain ⟨_, _, _, hcf⟩ := copy2_ok hcp
            exact (ih t2 _ r h).trans hcf
          | error u =>
            rw [show updLoop destRoot src statL opL (f :: rest) t log =
                updLoop destRoot src statL opL rest t
                  (log ++ [(LogType.ERROR, joinP destRoot f)]) from by
              simp only [updLoop, hgs, hgd, hcp, if_pos hne]] at h
            exact ih t _ r h
        · rw [show updLoop destRoot src statL opL (f :: rest) t log =
              updLoop destRoot src statL opL rest t log from by
            simp only [updLoop, hgs, hgd, if_neg hne]] at h
          exact ih t log r h

theorem updLoop_sub_file (destRoot : Path) (src : Tree) (statL opL : List Path)
    (q : Path) :
    ∀ (l : List Path) (t : Tree) (log : List LogEntry) (r : Tree × List LogEntry),
      updLoop destRoot src statL opL l t log = .ok r →
      (r.1.mtime q).isSome = true →
      (t.mtime q).isSome = true ∨ src.hasFile q = true := by
  intro l
  induction l with
  | nil =>
    intro t log r h hq
    have h2 : ((t, log) : Tree × List LogEntry) = r := by injection h
    rw [← h2] at hq
    exact .inl hq
  | cons f rest ih =>
    intro t log r h hq
    cases hgs : getmtimeE statL src f with
    | error u =>
      rw [show updLoop destRoot src statL opL (f :: rest) t log = .error f from by
        simp only [updLoop, hgs]] at h
      cases h
    | ok ms =>
      cases hgd : getmtimeE statL t f with
      | error u =>
        rw [show updLoop destRoot src statL opL (f :: rest) t log = .error f from by
          simp only [updLoop, hgs, hgd]] at h
        cases h
      | ok md =>
        by_cases hne : md ≠ ms
        · cases hcp : copy2 opL src t f with
          | ok t2 =>
            rw [show updLoop destRoot src statL opL (f :: rest) t log =
                updLoop destRoot src statL opL rest t2
                  (log ++ [(LogType.UPDATED, joinP destRoot f)]) from by
              simp only [updLoop, hgs, hgd, hcp, if_pos hne]] at h
            obtain ⟨_, hsf, hcm, _⟩ := copy2_ok hcp
            rcases ih t2 _ r h hq with h2 | h2
            · rw [hcm q] at h2
              by_cases hqf : q = f
              · exact .inr (hqf ▸ hsf)
              · rw [if_neg hqf] at h2
                exact .inl h2
            · exact .inr h2
          | error u =>
            rw [show updLoop destRoot src statL opL (f :: rest) t log =
                updLoop destRoot src statL opL rest t
                  (log ++ [(LogType.ERROR, joinP destRoot f)]) from by
              simp only [updLoop, hgs, hgd, hcp, if_pos hne]] at h
            exact ih t _ r h hq
        · rw [show updLoop destRoot src statL opL (f :: rest) t log =
              updLoop destRoot src statL opL rest t log from by
            simp only [updLoop, hgs, hgd, if_neg hne]] at h
          exact ih t log r h hq

/-- Whatever item operations the oracle fails, a cycle whose stat calls all
    succeed still returns success. -/
theorem sync_ok_robust (sroot rroot : Path) (w : World) (opL : List Path)
    (hflags : (w.logDirExists && w.logFileExists && w.sourceExists &&
      w.replicaExists) = true)
    (hWFs : WF w.source) (hWFr : WF w.replica) :
    ∃ u, update_files (interL (filesOf w.source) (filesOf w.replica)) w.source
        rroot
        (create_files (diffL w.source.folders w.replica.folders)
          (diffL (filesOf w.source) (filesOf w.replica)) w.source rroot
          (delete_files (diffL w.replica.folders w.source.folders)
            (diffL (filesOf w.replica) (filesOf w.source)) rroot w.replica opL).1
          opL).1 [] opL = .ok u ∧
      sync_folders sroot rroot w [] opL = .ok (true, u.1,
        (delete_files (diffL w.replica.folders w.source.folders)
          (diffL (filesOf w.replica) (filesOf w.source)) rroot w.replica opL).2 ++
        (create_files (diffL w.source.folders w.replica.folders)
          (diffL (filesOf w.source) (filesOf w.replica)) w.source rroot
          (delete_files (diffL w.replica.folders w.source.folders)
            (diffL (filesOf w.replica) (filesOf w.source)) rroot w.replica opL).1
          opL).2 ++ u.2) := by
  have hup : ∃ r, update_files (interL (filesOf w.source) (filesOf w.replica))
      w.source rroot
      (create_files (diffL w.source.folders w.replica.folders)
        (diffL (filesOf w.source) (filesOf w.replica)) w.source rroot
        (delete_files (diffL w.replica.folders w.source.folders)
          (diffL (filesOf w.replica) (filesOf w.source)) rroot w.replica opL).1
        opL).1 [] opL = .ok r := by
    unfold update_files
    apply updLoop_isOk
    · intro f hf; rfl
    · intro f hf
      exact mtime_isSome_of_mem (interL_subset hf)
    · intro f hf
      obtain ⟨hfS, hfR⟩ := mem_interL_iff.1 hf
      apply create_files_mono_file
      have hcov : coveredB (diffL w.replica.folders w.source.folders) f = false :=
        covered_del_false hWFs hWFr (.inr ⟨hfS, hfR⟩)
      have hnu : ∀ g ∈ diffL w.replica.folders w.source.folders,
          sameOrUnderB g f = false := by
        intro g hg
        cases hv : sameOrUnderB g f
        · rfl
        · rw [covered_mono (fun x hx => hx) (coveredB_iff.2 ⟨g, hg, hv⟩)] at hcov
          cases hcov
      have hdfi : pmem f (diffL (filesOf w.replica) (filesOf w.source)) = false := by
        rw [pmem_diffL, pmem_iff.2 hfS]
        cases pmem f (filesOf w.replica) <;> rfl
      rw [delete_files_pres rroot _ _ w.replica opL f hnu hdfi]
      exact mtime_isSome_of_mem hfR
  obtain ⟨r, hr⟩ := hup
  refine ⟨r, hr, ?_⟩
  rw [sync_folders_pos hflags, hr]

/-- A cycle run on trees already equal to the source (same folders, same file
    timestamps) performs no mutation and emits no log entry. -/
theorem sync_second_run (sroot rroot : Path) (w2 : World)
    (hflags : (w2.logDirExists && w2.logFileExists && w2.sourceExists &&
      w2.replicaExists) = true)
    (heqD : ∀ p, w2.replica.hasFolder p = w2.source.hasFolder p)
    (heqF : ∀ p, w2.replica.mtime p = w2.source.mtime p) :
    sync_folders sroot rroot w2 [] [] = .ok (true, w2.replica, []) := by
  have hd1 : diffL w2.replica.folders w2.source.folders = [] := by
    apply List.filter_eq_nil.2
    intro x hx
    have : pmem x w2.source.folders = true := by
      have h2 := heqD x
      unfold Tree.hasFolder at h2
      rw [← h2]
      exact pmem_iff.2 hx
    simp [this]
  have hd2 : diffL (filesOf w2.replica) (filesOf w2.source) = [] := by
    apply List.filter_eq_nil.2
    intro x hx
    have h2 : (w2.source.mtime x).isSome = true := by
      rw [← heqF x]
      exact mtime_isSome_of_mem hx
    have : pmem x (filesOf w2.source) = true := pmem_iff.2 (hasFile_iff.1 h2)
    simp [this]
  have hd3 : diffL w2.source.folders w2.replica.folders = [] := by
    apply List.filter_eq_nil.2
    intro x hx
    have : pmem x w2.replica.folders = true := by
      have h2 := heqD x
      unfold Tree.hasFolder at h2
      rw [h2]
      exact pmem_iff.2 hx
    simp [this]
  have hd4 : diffL (filesOf w2.source) (filesOf w2.replica) = [] := by
    apply List.filter_eq_nil.2
    intro x hx
    have h2 : (w2.replica.mtime x).isSome = true := by
      rw [heqF x]
      exact mtime_isSome_of_mem hx
    have : pmem x (filesOf w2.replica) = true := pmem_iff.2 (hasFile_iff.1 h2)
    simp [this]
  rw [sync_folders_pos hflags, hd1, hd2, hd3, hd4]
  have hdel : delete_files [] [] rroot w2.replica [] = (w2.replica, []) := rfl
  have hcre : create_files [] [] w2.source rroot w2.replica [] = (w2.replica, []) := rfl
  rw [hdel, hcre]
  have hskip : update_files (interL (filesOf w2.source) (filesOf w2.replica))
      w2.source rroot w2.replica [] [] = .ok (w2.replica, []) := by
    unfold update_files
    apply updLoop_skip
    · intro f hf; rfl
    · intro f hf
      obtain ⟨hfS, _⟩ := mem_interL_iff.1 hf
      obtain ⟨m, hm⟩ := Option.isSome_iff_exists.1 (mtime_isSome_of_mem hfS)
      exact ⟨m, hm, by rw [heqF f, hm]⟩
  rw [hskip]
  rfl

/-- Upper bound on the marking: only substring hits of a processed folder
    ever enter the handled set of the deletion loop. -/
theorem delFolderLoop_marked_sub (root : Path) (items op : List Path) :
    ∀ (l : List Path) (s : LoopSt) (p : Path),
      pmem p (delFolderLoop root items op l s).marked = true →
      pmem p s.marked = true ∨ ∃ g ∈ l, strContainsB g p = true := by
  intro l
  induction l with
  | nil => intro s p h; exact .inl h
  | cons g rest ih =>
    intro s p h
    by_cases hm : pmem g s.marked = true
    · rw [delFolderLoop_cons_skip hm] at h
      rcases ih s p h with h2 | ⟨g2, hg2, hc2⟩
      · exact .inl h2
      · exact .inr ⟨g2, by simp [hg2], hc2⟩
    · cases hr : rmtree op s.tree g with
      | ok t' =>
        rw [delFolderLoop_cons_ok (bool_not_true hm) hr] at h
        rcases ih _ p h with h2 | ⟨g2, hg2, hc2⟩
        · replace h2 : pmem p (s.marked ++
              items.filter (fun q => strContainsB g q)) = true := h2
          rw [pmem_append] at h2
          rcases Bool.or_eq_true_iff.1 h2 with h3 | h3
          · exact .inl h3
          · rw [pmem_filter] at h3
            exact .inr ⟨g, by simp, (Bool.and_eq_true_iff.1 h3).1⟩
        · exact .inr ⟨g2, by simp [hg2], hc2⟩
      | error u =>
        rw [delFolderLoop_cons_err (bool_not_true hm) hr] at h
        rcases ih _ p h with h2 | ⟨g2, hg2, hc2⟩
        · exact .inl h2
        · exact .inr ⟨g2, by simp [hg2], hc2⟩

/-- Upper bound on the marking of the creation loop. -/
theorem creFolderLoop_marked_sub (src : Tree) (destRoot : Path)
    (items op : List Path) :
    ∀ (l : List Path) (s : LoopSt) (p : Path),
      pmem p (creFolderLoop src destRoot items op l s).marked = true →
      pmem p s.marked = true ∨ ∃ g ∈ l, strContainsB g p = true := by
  intro l
  induction l with
  | nil => intro s p h; exact .inl h
  | cons g rest ih =>
    intro s p h
    by_cases hm : pmem g s.marked = true
    · rw [creFolderLoop_cons_skip hm] at h
      rcases ih s p h with h2 | ⟨g2, hg2, hc2⟩
      · exact .inl h2
      · exact .inr ⟨g2, by simp [hg2], hc2⟩
    · cases hr : copytree op src s.tree g with
      | ok t' =>
        rw [creFolderLoop_cons_ok (bool_not_true hm) hr] at h
        rcases ih _ p h with h2 | ⟨g2, hg2, hc2⟩
        · replace h2 : pmem p (s.marked ++
              items.filter (fun q => strContainsB g q)) = true := h2
          rw [pmem_append] at h2
          rcases Bool.or_eq_true_iff.1 h2 with h3 | h3
          · exact .inl h3
          · rw [pmem_filter] at h3
            exact .inr ⟨g, by simp, (Bool.and_eq_true_iff.1 h3).1⟩
        · exact .inr ⟨g2, by simp [hg2], hc2⟩
      | error u =>
        rw [creFolderLoop_cons_err (bool_not_true hm) hr] at h
        rcases ih _ p h with h2 | ⟨g2, hg2, hc2⟩
        · exact .inl h2
        · exact .inr ⟨g2, by simp [hg2], hc2⟩

theorem delete_files_log (Fo Fi : List Path) (root : Path) (t : Tree)
    (op : List Path) :
    (delete_files Fo Fi root t op).2 =
      (delFileLoop root op Fi (delFolderLoop root (Fo ++ Fi) op (sortByDepth Fo)
        ⟨t, [], []⟩)).log := rfl

theorem create_files_log (Fo Fi : List Path) (src : Tree) (destRoot : Path)
    (t : Tree) (op : List Path) :
    (create_files Fo Fi src destRoot t op).2 =
      (creFileLoop src destRoot op Fi (creFolderLoop src destRoot (Fo ++ Fi) op
        (sortByDepth Fo) ⟨t, [], []⟩)).log := rfl

theorem mem_diffL_iff_not {p : Path} {a b : List Path} :
    p ∈ diffL a b ↔ p ∈ a ∧ p ∉ b := by
  rw [mem_diffL_iff]
  constructor
  · rintro ⟨h1, h2⟩
    exact ⟨h1, fun hm => by rw [pmem_iff.2 hm] at h2; cases h2⟩
  · rintro ⟨h1, h2⟩
    refine ⟨h1, ?_⟩
    cases hv : pmem p b
    · rfl
    · exact absurd (pmem_iff.1 hv) h2

theorem rmtree_error {op : List Path} {t : Tree} {g : Path}
    (h : pmem g op = true ∨ t.hasFolder g = false) :
    rmtree op t g = .error () := by
  unfold rmtree
  rcases h with h | h
  · rw [if_pos (by simp [h])]
  · rw [if_pos (by simp [h])]

theorem delFolderLoop_log_mono (root : Path) (items op : List Path) :
    ∀ (l : List Path) (s : LoopSt) (e : LogEntry), e ∈ s.log →
      e ∈ (delFolderLoop root items op l s).log := by
  intro l
  induction l with
  | nil => intro s e he; exact he
  | cons g rest ih =>
    intro s e he
    by_cases hm : pmem g s.marked = true
    · rw [delFolderLoop_cons_skip hm]
      exact ih s e he
    · cases hr : rmtree op s.tree g with
      | ok t' =>
        rw [delFolderLoop_cons_ok (bool_not_true hm) hr]
        exact ih _ e (List.mem_append.2 (.inl he))
      | error u =>
        rw [delFolderLoop_cons_err (bool_not_true hm) hr]
        exact ih _ e (List.mem_append.2 (.inl he))

theorem creFolderLoop_log_mono (src : Tree) (destRoot : Path)
    (items op : List Path) :
    ∀ (l : List Path) (s : LoopSt) (e : LogEntry), e ∈ s.log →
      e ∈ (creFolderLoop src destRoot items op l s).log := by
  intro l
  induction l with
  | nil => intro s e he; exact he
  | cons g rest ih =>
    intro s e he
    by_cases hm : pmem g s.marked = true
    · rw [creFolderLoop_cons_skip hm]
      exact ih s e he
    · cases hr : copytree op src s.tree g with
      | ok t' =>
        rw [creFolderLoop_cons_ok (bool_not_true hm) hr]
        exact ih _ e (List.mem_append.2 (.inl he))
      | error u =>
        rw [creFolderLoop_cons_err (bool_not_true hm) hr]
        exact ih _ e (List.mem_append.2 (.inl he))

/-- Whenever the deletion folder loop reaches a folder the cascade has not
    yet marked and its recursive removal fails, an ERROR line is logged; a
    locked folder therefore either has its ERROR line or was skipped as
    already handled. -/
theorem delFolderLoop_err_or (root : Path) (items op : List Path) :
    ∀ (l : List Path) (s : LoopSt) (g : Path), g ∈ l → pmem g op = true →
      (LogType.ERROR, joinP root g) ∈ (delFolderLoop root items op l s).log ∨
      pmem g (delFolderLoop root items op l s).marked = true := by
  intro l
  induction l with
  | nil => intro s g hg; cases hg
  | cons g0 rest ih =>
    intro s g hg hop
    by_cases he : g0 = g
    · subst he
      by_cases hm : pmem g0 s.marked = true
      · rw [delFolderLoop_cons_skip hm]
        exact .inr (delFolderLoop_marked_mono root items op rest s g0 hm)
      · have hr : rmtree op s.tree g0 = .error () := rmtree_error (.inl hop)
        rw [delFolderLoop_cons_err (bool_not_true hm) hr]
        refine .inl (delFolderLoop_log_mono root items op rest _ _ ?_)
        exact List.mem_append.2 (.inr (by simp))
    · have hg2 : g ∈ rest := by
        rcases List.mem_cons.1 hg with rfl | h2
        · exact absurd rfl he
        · exact h2
      by_cases hm : pmem g0 s.marked = true
      · rw [delFolderLoop_cons_skip hm]
        exact ih s g hg2 hop
      · cases hr : rmtree op s.tree g0 with
        | ok t' =>
          rw [delFolderLoop_cons_ok (bool_not_true hm) hr]
          exact ih _ g hg2 hop
        | error u =>
          rw [delFolderLoop_cons_err (bool_not_true hm) hr]
          exact ih _ g hg2 hop

/-- Creation-side analogue: a locked folder reached unmarked gets its ERROR
    line from the failed recursive copy, or was skipped as already handled. -/
theorem creFolderLoop_err_or (src : Tree) (destRoot : Path)
    (items op : List Path) :
    ∀ (l : List Path) (s : LoopSt) (g : Path), g ∈ l → pmem g op = true →
      (LogType.ERROR, joinP destRoot g) ∈
        (creFolderLoop src destRoot items op l s).log ∨
      pmem g (creFolderLoop src destRoot items op l s).marked = true := by
  intro l
  induction l with
  | nil => intro s g hg; cases hg
  | cons g0 rest ih =>
    intro s g hg hop
    by_cases he : g0 = g
    · subst he
      by_cases hm : pmem g0 s.marked = true
      · rw [creFolderLoop_cons_skip hm]
        exact .inr (creFolderLoop_marked_mono src destRoot items op rest s g0 hm)
      · have hr : copytree op src s.tree g0 = .error () :=
          copytree_error (.inl hop)
        rw [creFolderLoop_cons_err (bool_not_true hm) hr]
        refine .inl (creFolderLoop_log_mono src destRoot items op rest _ _ ?_)
        exact List.mem_append.2 (.inr (by simp))
    · have hg2 : g ∈ rest := by
        rcases List.mem_cons.1 hg with rfl | h2
        · exact absurd rfl he
        · exact h2
      by_cases hm : pmem g0 s.marked = true
      · rw [creFolderLoop_cons_skip hm]
        exact ih s g hg2 hop
      · cases hr : copytree op src s.tree g0 with
        | ok t' =>
          rw [creFolderLoop_cons_ok (bool_not_true hm) hr]
          exact ih _ g hg2 hop
        | error u =>
          rw [creFolderLoop_cons_err (bool_not_true hm) hr]
          exact ih _ g hg2 hop

theorem updLoop_log_mono (destRoot : Path) (src : Tree) (statL opL : List Path) :
    ∀ (l : List Path) (t : Tree) (log : List LogEntry)
      (r : Tree × List LogEntry),
      updLoop destRoot src statL opL l t log = .ok r →
      ∀ e ∈ log, e ∈ r.2 := by
  intro l
  induction l with
  | nil =>
    intro t log r h e he
    have h2 : ((t, log) : Tree × List LogEntry) = r := by injection h
    rw [← h2]
    exact he
  | cons f rest ih =>
    intro t log r h e he
    cases hgs : getmtimeE statL src f with
    | error u =>
      rw [show updLoop destRoot src statL opL (f :: rest) t log = .error f from by
        simp only [updLoop, hgs]] at h
      cases h
    | ok ms =>
      cases hgd : getmtimeE statL t f with
      | error u =>
        rw [show updLoop destRoot src statL opL (f :: rest) t log = .error f from by
          simp only [updLoop, hgs, hgd]] at h
        cases h
      | ok md =>
        by_cases hne : md ≠ ms
        · cases hcp : copy2 opL src t f with
          | ok t2 =>
            rw [show updLoop destRoot src statL opL (f :: rest) t log =
                updLoop destRoot src statL opL rest t2
                  (log ++ [(LogType.UPDATED, joinP destRoot f)]) from by
              simp only [updLoop, hgs, hgd, hcp, if_pos hne]] at h
            exact ih t2 _ r h e (List.mem_append.2 (.inl he))
          | error u =>
            rw [show updLoop destRoot src statL opL (f :: rest) t log =
                updLoop destRoot src statL opL rest t
                  (log ++ [(LogType.ERROR, joinP destRoot f)]) from by
              simp only [updLoop, hgs, hgd, hcp, if_pos hne]] at h
            exact ih t _ r h e (List.mem_append.2 (.inl he))
        · rw [show updLoop destRoot src statL opL (f :: rest) t log =
              updLoop destRoot src statL opL rest t log from by
            simp only [updLoop, hgs, hgd, if_neg hne]] at h
          exact ih t log r h e he

theorem getmtimeE_ok_inv {statL : List Path} {t : Tree} {f : Path} {m : Nat}
    (h : getmtimeE statL t f = .ok m) : t.mtime f = some m := by
  unfold getmtimeE at h
  by_cases hs : pmem f statL = true
  · rw [if_pos hs] at h; cases h
  · rw [if_neg hs] at h
    cases hm : t.mtime f with
    | none => rw [hm] at h; cases h
    | some m2 =>
      rw [hm] at h
      have h2 : (Except.ok m2 : Except Unit Nat) = .ok m := h
      injection h2 with h3
      rw [h3]

/-- Whenever the update loop finds differing timestamps for a file whose
    copy the oracle fails, an ERROR line for that file reaches the final
    log, and the loop still completes. -/
theorem updLoop_err (destRoot : Path) (src : Tree) (opL : List Path) :
    ∀ (l : List Path) (t : Tree) (log : List LogEntry)
      (r : Tree × List LogEntry) (f : Path),
      l.Nodup → f ∈ l → pmem f opL = true →
      ¬ src.mtime f = t.mtime f →
      updLoop destRoot src [] opL l t log = .ok r →
      (LogType.ERROR, joinP destRoot f) ∈ r.2 := by
  intro l
  induction l with
  | nil => intro t log r f _ hf; cases hf
  | cons f0 rest ih =>
    intro t log r f hnd hf hop hne h
    cases hgs : getmtimeE [] src f0 with
    | error u =>
      rw [show updLoop destRoot src [] opL (f0 :: rest) t log = .error f0 from by
        simp only [updLoop, hgs]] at h
      cases h
    | ok ms =>
      cases hgd : getmtimeE [] t f0 with
      | error u =>
        rw [show updLoop destRoot src [] opL (f0 :: rest) t log = .error f0 from by
          simp only [updLoop, hgs, hgd]] at h
        cases h
      | ok md =>
        by_cases hef : f0 = f
        · subst hef
          have hms := getmtimeE_ok_inv hgs
          have hmd := getmtimeE_ok_inv hgd
          have hne2 : md ≠ ms := fun hmm => hne (by rw [hms, hmd, hmm])
          have hcp : copy2 opL src t f0 = .error () := copy2_error_locked hop
          rw [show updLoop destRoot src [] opL (f0 :: rest) t log =
              updLoop destRoot src [] opL rest t
                (log ++ [(LogType.ERROR, joinP destRoot f0)]) from by
            simp only [updLoop, hgs, hgd, hcp, if_pos hne2]] at h
          exact updLoop_log_mono destRoot src [] opL rest t _ r h _
            (List.mem_append.2 (.inr (by simp)))
        · have hf2 : f ∈ rest := by
            rcases List.mem_cons.1 hf with rfl | h2
            · exact absurd rfl hef
            · exact h2
          have hnd2 : rest.Nodup := (List.nodup_cons.1 hnd).2
          by_cases hnem : md ≠ ms
          · cases hcp : copy2 opL src t f0 with
            | ok t2 =>
              rw [show updLoop destRoot src [] opL (f0 :: rest) t log =
                  updLoop destRoot src [] opL rest t2
                    (log ++ [(LogType.UPDATED, joinP destRoot f0)]) from by
                simp only [updLoop, hgs, hgd, hcp, if_pos hnem]] at h
              obtain ⟨_, _, hcm, _⟩ := copy2_ok hcp
              have hne2 : ¬ src.mtime f = t2.mtime f := by
                rw [hcm f, if_neg (fun hh => hef hh.symm)]
                exact hne
              exact ih t2 _ r f hnd2 hf2 hop hne2 h
            | error u =>
              rw [show updLoop destRoot src [] opL (f0 :: rest) t log =
                  updLoop destRoot src [] opL rest t
                    (log ++ [(LogType.ERROR, joinP destRoot f0)]) from by
                simp only [updLoop, hgs, hgd, hcp, if_pos hnem]] at h
              exact ih t _ r f hnd2 hf2 hop hne h
          · rw [show updLoop destRoot src [] opL (f0 :: rest) t log =
                updLoop destRoot src [] opL rest t log from by
              simp only [updLoop, hgs, hgd, if_neg hnem]] at h
            exact ih t log r f hnd2 hf2 hop hne h

/-! ### Claim theorems -/

/-- C1: Convergence, corrected.  The claim as stated fails: with replica
folders `b1`, `b10` and file `b10/x` and an empty source, one cycle leaves
folder `b10` behind because the substring test marks it as handled when `b1`
is removed (`c1_counterexample`).  Convergence does hold whenever the engine's
substring containment test agrees with hierarchical containment on the two
diff item sets: then one fully successful clean cycle makes the folder set,
the file set and every modification timestamp of the replica equal to those
of the source. -/
theorem c1_convergence (sroot rroot : Path) (w : World)
    (hflags : (w.logDirExists && w.logFileExists && w.sourceExists &&
      w.replicaExists) = true)
    (hWFs : WF w.source) (hWFr : WF w.replica)
    (hexDel : ∀ g ∈ diffL w.replica.folders w.source.folders,
      ∀ p ∈ diffL w.replica.folders w.source.folders ++
        diffL (filesOf w.replica) (filesOf w.source),
        strContainsB g p = sameOrUnderB g p)
    (hexCre : ∀ g ∈ diffL w.source.folders w.replica.folders,
      ∀ p ∈ diffL w.source.folders w.replica.folders ++
        diffL (filesOf w.source) (filesOf w.replica),
        strContainsB g p = sameOrUnderB g p) :
    ∃ T L, sync_folders sroot rroot w [] [] = .ok (true, T, L) ∧
      (∀ p, T.hasFolder p = w.source.hasFolder p) ∧
      (∀ p, T.mtime p = w.source.mtime p) :=
  sync_char sroot rroot w hflags hWFs hWFr hexDel hexCre

/-- After one cycle on `wB` the replica still holds folder `b10`, which the
empty source does not: convergence fails on this input. -/
theorem c1_counterexample :
    treeB1.hasFolder pB10 = true ∧ wB.source.hasFolder pB10 = false := by
  decide

theorem c1_witness :
    ∃ T L, sync_folders sroot rroot wCreate [] [] = .ok (true, T, L) ∧
      (∀ p, T.hasFolder p = wCreate.source.hasFolder p) ∧
      (∀ p, T.mtime p = wCreate.source.mtime p) :=
  c1_convergence sroot rroot wCreate (by decide) (by decide) (by decide)
    (by decide) (by decide)

/-- C2: Deletion completeness, corrected.  As stated the claim fails: with
replica folders `ab` and `b` and file `ab/x`, the folder `ab` and its file
receive a second DELETED line when `b` is processed, because `"b"` occurs as
a substring of both (`c2_counterexample`).  Under the substring/hierarchy
agreement proviso on the deletion diff sets the guarantee holds for
arbitrary diff sets: every replica-only folder `A` with a nested
replica-only file `A/x` is removed by one cycle, with exactly one DELETED
line for `A` and exactly one for `A/x`, whatever else the diff holds. -/
theorem c2_deletion (sroot rroot : Path) (w : World) (A fx : Path)
    (hflags : (w.logDirExists && w.logFileExists && w.sourceExists &&
      w.replicaExists) = true)
    (hWFs : WF w.source) (hWFr : WF w.replica)
    (hexDel : ∀ g ∈ diffL w.replica.folders w.source.folders,
      ∀ p ∈ diffL w.replica.folders w.source.folders ++
        diffL (filesOf w.replica) (filesOf w.source),
        strContainsB g p = sameOrUnderB g p)
    (hA : A ∈ diffL w.replica.folders w.source.folders)
    (hfx : fx ∈ diffL (filesOf w.replica) (filesOf w.source))
    (hAfx : isUnderB A fx = true) :
    ∃ T L, sync_folders sroot rroot w [] [] = .ok (true, T, L) ∧
      T.hasFolder A = false ∧ T.hasFile fx = false ∧
      countE (LogType.DELETED, joinP rroot A) L = 1 ∧
      countE (LogType.DELETED, joinP rroot fx) L = 1 := by
  have hAS : pmem A w.source.folders = false := by
    have h4 := pmem_iff.2 hA
    rw [pmem_diffL] at h4
    rcases Bool.and_eq_true_iff.1 h4 with ⟨_, h5⟩
    cases hvv : pmem A w.source.folders
    · rfl
    · rw [hvv] at h5; cases h5
  have hsrcfx : w.source.hasFile fx = false := by
    have h4 := pmem_iff.2 hfx
    rw [pmem_diffL] at h4
    rcases Bool.and_eq_true_iff.1 h4 with ⟨_, h5⟩
    cases hvv : w.source.hasFile fx
    · rfl
    · rw [pmem_iff.2 (hasFile_iff.1 hvv)] at h5; cases h5
  obtain ⟨d1, d2, d3, d4⟩ := delete_files_char rroot
    (diffL w.replica.folders w.source.folders)
    (diffL (filesOf w.replica) (filesOf w.source)) w.replica
    (diffL_nodup (wf_foldersNd hWFr)) (diffL_nodup (wf_filesNd hWFr))
    (fun p hp hp2 => wf_disj hWFr (diffL_subset hp) (diffL_subset hp2))
    (fun g hg => hasFolder_iff.2 (diffL_subset hg))
    (fun f hf => hasFile_iff.2 (diffL_subset hf))
    hexDel
  obtain ⟨u, hup, hsync⟩ := sync_ok_robust sroot rroot w [] hflags hWFs hWFr
  unfold update_files at hup
  have hfold := updLoop_folders rroot w.source [] [] _ _ _ u hup
  refine ⟨u.1, _, hsync, ?_, ?_, ?_, ?_⟩
  · cases hv : u.1.hasFolder A
    · rfl
    · exfalso
      have hv2 : (create_files (diffL w.source.folders w.replica.folders)
          (diffL (filesOf w.source) (filesOf w.replica)) w.source rroot
          (delete_files (diffL w.replica.folders w.source.folders)
            (diffL (filesOf w.replica) (filesOf w.source)) rroot w.replica
            []).1 []).1.hasFolder A = true := by
        unfold Tree.hasFolder at hv ⊢
        rw [← hfold]
        exact hv
      rcases create_files_sub_folder _ _ _ _ _ _ A
        (fun g p hp hu =>
          hasFolder_iff.2 (wf_closed_folder hWFs (hasFolder_iff.1 hp) hu))
        hv2 with h2 | h2
      · rw [d1 A, covered_self hA] at h2
        simp at h2
      · unfold Tree.hasFolder at h2
        rw [hAS] at h2; cases h2
  · cases hv : u.1.hasFile fx
    · rfl
    · exfalso
      rcases updLoop_sub_file rroot w.source [] [] fx _ _ _ u hup hv with h2 | h2
      · rcases create_files_sub_file _ _ _ _ _ _ fx h2 with h3 | h3
        · rw [d2 fx, if_pos (by rw [pmem_iff.2 hfx]; simp)] at h3
          cases h3
        · rw [hsrcfx] at h3; cases h3
      · rw [hsrcfx] at h2; cases h2
  · rw [countE_append, countE_append, d3 A,
      if_pos (show pmem A (diffL w.replica.folders w.source.folders ++
        diffL (filesOf w.replica) (filesOf w.source)) = true by
        rw [pmem_append, pmem_iff.2 hA]; simp)]
    have hc1 : countE (LogType.DELETED, joinP rroot A)
        (create_files (diffL w.source.folders w.replica.folders)
          (diffL (filesOf w.source) (filesOf w.replica)) w.source rroot
          (delete_files (diffL w.replica.folders w.source.folders)
            (diffL (filesOf w.replica) (filesOf w.source)) rroot w.replica
            []).1 []).2 = 0 :=
      countE_zero_of_types (create_files_types _ _ _ _ _ _)
        (fun h => LogType.noConfusion h) (fun h => LogType.noConfusion h)
    have hc2 : countE (LogType.DELETED, joinP rroot A) u.2 = 0 := by
      apply countE_zero
      intro x hx hxe
      rcases updLoop_types rroot w.source [] [] _ _ _ u hup x hx with h | h | h
      · cases h
      · subst hxe; simp at h
      · subst hxe; simp at h
    rw [hc1, hc2]
  · rw [countE_append, countE_append, d3 fx,
      if_pos (show pmem fx (diffL w.replica.folders w.source.folders ++
        diffL (filesOf w.replica) (filesOf w.source)) = true by
        rw [pmem_append, pmem_iff.2 hfx]; simp)]
    have hc1 : countE (LogType.DELETED, joinP rroot fx)
        (create_files (diffL w.source.folders w.replica.folders)
          (diffL (filesOf w.source) (filesOf w.replica)) w.source rroot
          (delete_files (diffL w.replica.folders w.source.folders)
            (diffL (filesOf w.replica) (filesOf w.source)) rroot w.replica
            []).1 []).2 = 0 :=
      countE_zero_of_types (create_files_types _ _ _ _ _ _)
        (fun h => LogType.noConfusion h) (fun h => LogType.noConfusion h)
    have hc2 : countE (LogType.DELETED, joinP rroot fx) u.2 = 0 := by
      apply countE_zero
      intro x hx hxe
      rcases updLoop_types rroot w.source [] [] _ _ _ u hup x hx with h | h | h
      · cases h
      · subst hxe; simp at h
      · subst hxe; simp at h
    rw [hc1, hc2]

/-- On the replica with folders `ab`, `b` and file `ab/x` and an empty
source, the cycle logs the DELETED line for `ab` twice. -/
theorem c2_counterexample :
    countE (LogType.DELETED, joinP rroot pAB)
      ((okLog (sync_folders sroot rroot wAB [] [])).getD []) = 2 := by
  decide

theorem c2_witness :
    ∃ T L, sync_folders sroot rroot wA [] [] = .ok (true, T, L) ∧
      T.hasFolder pA = false ∧ T.hasFile pAx = false ∧
      countE (LogType.DELETED, joinP rroot pA) L = 1 ∧
      countE (LogType.DELETED, joinP rroot pAx) L = 1 :=
  c2_deletion sroot rroot wA pA pAx (by decide) (by decide) (by decide)
    (by decide) (by decide) (by decide) (by decide)

/-- C3: Cascade deduplication by substring containment, confirmed.  A
successfully processed folder marks every diff item that contains its
relative path as a substring; hence on the `b1`/`b10` input the
non-descendant file `b10/x` is marked, skipped by its own loop, and logged
as DELETED (respectively CREATED) although it survives deletion
(respectively is never created). -/
theorem c3_cascade_marking (root : Path) (items op : List Path) (g p : Path)
    (rest : List Path) (s : LoopSt) (t' : Tree)
    (hm : pmem g s.marked = false) (hr : rmtree op s.tree g = .ok t')
    (hp : pmem p items = true) (hc : strContainsB g p = true) :
    pmem p (delFolderLoop root items op (g :: rest) s).marked = true ∧
    (∀ (src : Tree) (s2 : LoopSt) (t2 : Tree), pmem g s2.marked = false →
      copytree op src s2.tree g = .ok t2 →
      pmem p (creFolderLoop src root items op (g :: rest) s2).marked = true) ∧
    (strContainsB pB1 pB10x = true ∧ isUnderB pB1 pB10x = false) ∧
    (treeB1.hasFile pB10x = true ∧
      countE (LogType.DELETED, joinP rroot pB10x)
        ((okLog (sync_folders sroot rroot wB [] [])).getD []) = 1) ∧
    (((okTree (sync_folders sroot rroot wBc [] [])).getD emptyTree).hasFile
        pB10x = false ∧
      countE (LogType.CREATED, joinP rroot pB10x)
        ((okLog (sync_folders sroot rroot wBc [] [])).getD []) = 1) :=
  ⟨delFolderLoop_marks root items op g rest s t' hm hr p hp hc,
    fun src s2 t2 hm2 hr2 =>
      creFolderLoop_marks src root items op g rest s2 t2 hm2 hr2 p hp hc,
    by decide, by decide, by decide⟩

theorem c3_witness :
    pmem pB10x (delFolderLoop rroot [pB1, pB10, pB10x] [] (pB1 :: [pB10])
      ⟨repB, [], []⟩).marked = true ∧
    (∀ (src : Tree) (s2 : LoopSt) (t2 : Tree), pmem pB1 s2.marked = false →
      copytree [] src s2.tree pB1 = .ok t2 →
      pmem pB10x (creFolderLoop src rroot [pB1, pB10, pB10x] []
        (pB1 :: [pB10]) s2).marked = true) ∧
    (strContainsB pB1 pB10x = true ∧ isUnderB pB1 pB10x = false) ∧
    (treeB1.hasFile pB10x = true ∧
      countE (LogType.DELETED, joinP rroot pB10x)
        ((okLog (sync_folders sroot rroot wB [] [])).getD []) = 1) ∧
    (((okTree (sync_folders sroot rroot wBc [] [])).getD emptyTree).hasFile
        pB10x = false ∧
      countE (LogType.CREATED, joinP rroot pB10x)
        ((okLog (sync_folders sroot rroot wBc [] [])).getD []) = 1) :=
  c3_cascade_marking rroot [pB1, pB10, pB10x] [] pB1 pB10x [pB10]
    ⟨repB, [], []⟩ ⟨[(pB10x, 7)], [pB10]⟩ (by decide) rfl (by decide) (by decide)

/-- C4: Diff Computer purity, confirmed.  `compute_diff` is a pure function
of the two snapshots whose five result sets satisfy exactly the stated
set-difference and intersection equations; no timestamp enters the
computation. -/
theorem c4_diff_computer
    (source_files source_folders replica_files replica_folders : List Path) :
    (∀ p, p ∈ (compute_diff source_files source_folders replica_files
        replica_folders).deletedFolders ↔
      p ∈ replica_folders ∧ p ∉ source_folders) ∧
    (∀ p, p ∈ (compute_diff source_files source_folders replica_files
        replica_folders).deletedFiles ↔
      p ∈ replica_files ∧ p ∉ source_files) ∧
    (∀ p, p ∈ (compute_diff source_files source_folders replica_files
        replica_folders).createdFolders ↔
      p ∈ source_folders ∧ p ∉ replica_folders) ∧
    (∀ p, p ∈ (compute_diff source_files source_folders replica_files
        replica_folders).createdFiles ↔
      p ∈ source_files ∧ p ∉ replica_files) ∧
    (∀ p, p ∈ (compute_diff source_files source_folders replica_files
        replica_folders).commonFiles ↔
      p ∈ source_files ∧ p ∈ replica_files) :=
  ⟨fun p => mem_diffL_iff_not, fun p => mem_diffL_iff_not,
    fun p => mem_diffL_iff_not, fun p => mem_diffL_iff_not,
    fun p => mem_interL_iff⟩

/-- C5: Cycle result semantics, corrected.  The failure direction holds: a
false existence flag makes the cycle return False at once, with the replica
untouched and no log output.  The unconditional-True direction fails: a
`getmtime` failure in the update phase aborts the cycle with an exception
(`c5_counterexample`).  When every stat call succeeds, the cycle does return
True however many item operations fail. -/
theorem c5_cycle_result (sroot rroot : Path) (w : World) (opL : List Path)
    (hWFs : WF w.source) (hWFr : WF w.replica) :
    ((w.logDirExists && w.logFileExists && w.sourceExists &&
        w.replicaExists) = false →
      sync_folders sroot rroot w [] opL = .ok (false, w.replica, [])) ∧
    ((w.logDirExists && w.logFileExists && w.sourceExists &&
        w.replicaExists) = true →
      ∃ T L, sync_folders sroot rroot w [] opL = .ok (true, T, L)) := by
  constructor
  · intro hf
    exact sync_folders_neg hf
  · intro ht
    obtain ⟨u, _, hsync⟩ := sync_ok_robust sroot rroot w opL ht hWFs hWFr
    exact ⟨u.1, _, hsync⟩

/-- With all four existence flags true, a stat failure on the common file `d`
makes the cycle raise instead of returning True. -/
theorem c5_counterexample :
    okFlag (sync_folders sroot rroot wD [pD] []) = none := by
  decide

theorem c5_witness :
    ((wD.logDirExists && wD.logFileExists && wD.sourceExists &&
        wD.replicaExists) = false →
      sync_folders sroot rroot wD [] [pD] = .ok (false, wD.replica, [])) ∧
    ((wD.logDirExists && wD.logFileExists && wD.sourceExists &&
        wD.replicaExists) = true →
      ∃ T L, sync_folders sroot rroot wD [] [pD] = .ok (true, T, L)) :=
  c5_cycle_result sroot rroot wD [pD] (by decide) (by decide)

/-- C6: Item-local error containment, corrected.  For the mutating calls the
claim holds at every site: whenever the deletion applier reaches a folder or
file the cascade has not marked as handled and its removal fails, whenever
the creation applier does so and its recursive or single copy fails, and
whenever the update applier sees differing timestamps and its copy fails,
an ERROR line with the offending path is logged and the cycle continues to
a successful return.  The claim fails for the stat calls: the two `getmtime`
calls of the update phase sit outside the `try` block, so their failure
propagates out of the cycle (`c6_counterexample`). -/
theorem c6_error_containment (sroot rroot : Path) (w : World) (opL : List Path)
    (hflags : (w.logDirExists && w.logFileExists && w.sourceExists &&
      w.replicaExists) = true)
    (hWFs : WF w.source) (hWFr : WF w.replica) :
    ∃ T L, sync_folders sroot rroot w [] opL = .ok (true, T, L) ∧
      (∀ g ∈ diffL w.replica.folders w.source.folders, pmem g opL = true →
        (LogType.ERROR, joinP rroot g) ∈ L ∨
        pmem g (delFolderLoop rroot
          (diffL w.replica.folders w.source.folders ++
            diffL (filesOf w.replica) (filesOf w.source)) opL
          (sortByDepth (diffL w.replica.folders w.source.folders))
          ⟨w.replica, [], []⟩).marked = true) ∧
      (∀ f ∈ diffL (filesOf w.replica) (filesOf w.source), pmem f opL = true →
        (LogType.ERROR, joinP rroot f) ∈ L ∨
        pmem f (delFolderLoop rroot
          (diffL w.replica.folders w.source.folders ++
            diffL (filesOf w.replica) (filesOf w.source)) opL
          (sortByDepth (diffL w.replica.folders w.source.folders))
          ⟨w.replica, [], []⟩).marked = true) ∧
      (∀ g ∈ diffL w.source.folders w.replica.folders, pmem g opL = true →
        (LogType.ERROR, joinP rroot g) ∈ L ∨
        pmem g (creFolderLoop w.source rroot
          (diffL w.source.folders w.replica.folders ++
            diffL (filesOf w.source) (filesOf w.replica)) opL
          (sortByDepth (diffL w.source.folders w.replica.folders))
          ⟨(delete_files (diffL w.replica.folders w.source.folders)
            (diffL (filesOf w.replica) (filesOf w.source)) rroot w.replica
            opL).1, [], []⟩).marked = true) ∧
      (∀ f ∈ diffL (filesOf w.source) (filesOf w.replica), pmem f opL = true →
        (LogType.ERROR, joinP rroot f) ∈ L ∨
        pmem f (creFolderLoop w.source rroot
          (diffL w.source.folders w.replica.folders ++
            diffL (filesOf w.source) (filesOf w.replica)) opL
          (sortByDepth (diffL w.source.folders w.replica.folders))
          ⟨(delete_files (diffL w.replica.folders w.source.folders)
            (diffL (filesOf w.replica) (filesOf w.source)) rroot w.replica
            opL).1, [], []⟩).marked = true) ∧
      (∀ f ∈ interL (filesOf w.source) (filesOf w.replica), pmem f opL = true →
        ¬ w.source.mtime f =
          ((create_files (diffL w.source.folders w.replica.folders)
            (diffL (filesOf w.source) (filesOf w.replica)) w.source rroot
            (delete_files (diffL w.replica.folders w.source.folders)
              (diffL (filesOf w.replica) (filesOf w.source)) rroot w.replica
              opL).1 opL).1.mtime f) →
        (LogType.ERROR, joinP rroot f) ∈ L) := by
  obtain ⟨u, hup, hsync⟩ := sync_ok_robust sroot rroot w opL hflags hWFs hWFr
  unfold update_files at hup
  refine ⟨u.1, _, hsync, ?_, ?_, ?_, ?_, ?_⟩
  · intro g hg hop
    rcases delFolderLoop_err_or rroot
      (diffL w.replica.folders w.source.folders ++
        diffL (filesOf w.replica) (filesOf w.source)) opL
      (sortByDepth (diffL w.replica.folders w.source.folders))
      ⟨w.replica, [], []⟩ g (sortByDepth_mem.2 hg) hop with h | h
    · refine .inl (List.mem_append.2 (.inl (List.mem_append.2 (.inl ?_))))
      rw [delete_files_log]
      exact delFileLoop_log_mono rroot opL _ _ _ h
    · exact .inr h
  · intro f hf hop
    by_cases hm : pmem f (delFolderLoop rroot
        (diffL w.replica.folders w.source.folders ++
          diffL (filesOf w.replica) (filesOf w.source)) opL
        (sortByDepth (diffL w.replica.folders w.source.folders))
        ⟨w.replica, [], []⟩).marked = true
    · exact .inr hm
    · refine .inl (List.mem_append.2 (.inl (List.mem_append.2 (.inl ?_))))
      rw [delete_files_log]
      exact delFileLoop_err rroot opL _ _ f hf (bool_not_true hm) hop
  · intro g hg hop
    rcases creFolderLoop_err_or w.source rroot
      (diffL w.source.folders w.replica.folders ++
        diffL (filesOf w.source) (filesOf w.replica)) opL
      (sortByDepth (diffL w.source.folders w.replica.folders))
      ⟨(delete_files (diffL w.replica.folders w.source.folders)
        (diffL (filesOf w.replica) (filesOf w.source)) rroot w.replica
        opL).1, [], []⟩ g (sortByDepth_mem.2 hg) hop with h | h
    · refine .inl (List.mem_append.2 (.inl (List.mem_append.2 (.inr ?_))))
      rw [create_files_log]
      exact creFileLoop_log_mono w.source rroot opL _ _ _ h
    · exact .inr h
  · intro f hf hop
    by_cases hm : pmem f (creFolderLoop w.source rroot
        (diffL w.source.folders w.replica.folders ++
          diffL (filesOf w.source) (filesOf w.replica)) opL
        (sortByDepth (diffL w.source.folders w.replica.folders))
        ⟨(delete_files (diffL w.replica.folders w.source.folders)
          (diffL (filesOf w.replica) (filesOf w.source)) rroot w.replica
          opL).1, [], []⟩).marked = true
    · exact .inr hm
    · refine .inl (List.mem_append.2 (.inl (List.mem_append.2 (.inr ?_))))
      rw [create_files_log]
      exact creFileLoop_err w.source rroot opL _ _ f hf (bool_not_true hm) hop
  · intro f hf hop hne
    refine List.mem_append.2 (.inr ?_)
    have hnd : (interL (filesOf w.source) (filesOf w.replica)).Nodup :=
      (wf_filesNd hWFs).filter _
    exact updLoop_err rroot w.source opL _ _ _ u f hnd hf hop hne hup

/-- Both trees share the file `c`; failing its stat call makes the whole
cycle raise, carrying the path out of the engine. -/
theorem c6_counterexample :
    errPath (sync_folders sroot rroot wC [pC] []) = some pC := by
  decide

theorem c6_witness :
    ∃ T L, sync_folders sroot rroot wE [] [pC] = .ok (true, T, L) ∧
      (∀ g ∈ diffL wE.replica.folders wE.source.folders, pmem g [pC] = true →
        (LogType.ERROR, joinP rroot g) ∈ L ∨
        pmem g (delFolderLoop rroot
          (diffL wE.replica.folders wE.source.folders ++
            diffL (filesOf wE.replica) (filesOf wE.source)) [pC]
          (sortByDepth (diffL wE.replica.folders wE.source.folders))
          ⟨wE.replica, [], []⟩).marked = true) ∧
      (∀ f ∈ diffL (filesOf wE.replica) (filesOf wE.source), pmem f [pC] = true →
        (LogType.ERROR, joinP rroot f) ∈ L ∨
        pmem f (delFolderLoop rroot
          (diffL wE.replica.folders wE.source.folders ++
            diffL (filesOf wE.replica) (filesOf wE.source)) [pC]
          (sortByDepth (diffL wE.replica.folders wE.source.folders))
          ⟨wE.replica, [], []⟩).marked = true) ∧
      (∀ g ∈ diffL wE.source.folders wE.replica.folders, pmem g [pC] = true →
        (LogType.ERROR, joinP rroot g) ∈ L ∨
        pmem g (creFolderLoop wE.source rroot
          (diffL wE.source.folders wE.replica.folders ++
            diffL (filesOf wE.source) (filesOf wE.replica)) [pC]
          (sortByDepth (diffL wE.source.folders wE.replica.folders))
          ⟨(delete_files (diffL wE.replica.folders wE.source.folders)
            (diffL (filesOf wE.replica) (filesOf wE.source)) rroot wE.replica
            [pC]).1, [], []⟩).marked = true) ∧
      (∀ f ∈ diffL (filesOf wE.source) (filesOf wE.replica), pmem f [pC] = true →
        (LogType.ERROR, joinP rroot f) ∈ L ∨
        pmem f (creFolderLoop wE.source rroot
          (diffL wE.source.folders wE.replica.folders ++
            diffL (filesOf wE.source) (filesOf wE.replica)) [pC]
          (sortByDepth (diffL wE.source.folders wE.replica.folders))
          ⟨(delete_files (diffL wE.replica.folders wE.source.folders)
            (diffL (filesOf wE.replica) (filesOf wE.source)) rroot wE.replica
            [pC]).1, [], []⟩).marked = true) ∧
      (∀ f ∈ interL (filesOf wE.source) (filesOf wE.replica), pmem f [pC] = true →
        ¬ wE.source.mtime f =
          ((create_files (diffL wE.source.folders wE.replica.folders)
            (diffL (filesOf wE.source) (filesOf wE.replica)) wE.source rroot
            (delete_files (diffL wE.replica.folders wE.source.folders)
              (diffL (filesOf wE.replica) (filesOf wE.source)) rroot wE.replica
              [pC]).1 [pC]).1.mtime f) →
        (LogType.ERROR, joinP rroot f) ∈ L) :=
  c6_error_containment sroot rroot wE [pC] (by decide) (by decide) (by decide)

/-- C7: Selective update, confirmed.  On a duplicate-free list of common
files, the clean update phase succeeds; every listed file takes the source
timestamp and every unlisted file keeps its own, so a listed file is
rewritten exactly when the two timestamps differ, and exactly one UPDATED
line appears for it in that case and none otherwise. -/
theorem c7_selective_update (destRoot : Path) (src t : Tree) (l : List Path)
    (hnd : l.Nodup)
    (hsrc : ∀ f ∈ l, (src.mtime f).isSome = true)
    (ht : ∀ f ∈ l, (t.mtime f).isSome = true)
    (hpar : ∀ f ∈ l, ∀ d, parentDir f = some d → t.hasFolder d = true) :
    ∃ t' log2, update_files l src destRoot t [] [] = .ok (t', log2) ∧
      (∀ p, t'.mtime p = if pmem p l = true then src.mtime p else t.mtime p) ∧
      t'.folders = t.folders ∧
      (∀ p, countE (LogType.UPDATED, joinP destRoot p) log2 =
        if pmem p l = true ∧ ¬ src.mtime p = t.mtime p then 1 else 0) := by
  obtain ⟨t', log2, hok, hm, hf, hcnt, _⟩ :=
    updLoop_char destRoot src l t [] hnd hsrc ht hpar
  exact ⟨t', log2, hok, hm, hf, hcnt⟩

theorem c7_witness :
    ∃ t' log2, update_files [pC] srcC rroot repC [] [] = .ok (t', log2) ∧
      (∀ p, t'.mtime p =
        if pmem p [pC] = true then srcC.mtime p else repC.mtime p) ∧
      t'.folders = repC.folders ∧
      (∀ p, countE (LogType.UPDATED, joinP rroot p) log2 =
        if pmem p [pC] = true ∧ ¬ srcC.mtime p = repC.mtime p then 1 else 0) :=
  c7_selective_update rroot srcC repC [pC] (by decide) (by decide) (by decide)
    (by
      intro f hf d hd
      rw [List.mem_singleton.1 hf] at hd
      rw [show parentDir pC = none from rfl] at hd
      exact Option.noConfusion hd)

/-- C8: Idempotence, corrected.  As stated the claim fails: the first cycle
on the `b1`/`b10` replica leaves `b10` and `b10/x` behind, so the second
cycle emits further DELETED lines (`c8_counterexample`).  When the substring
test agrees with hierarchical containment on the diff item sets, the first
clean cycle converges and the second cycle performs no operation and logs
nothing. -/
theorem c8_idempotence (sroot rroot : Path) (w : World)
    (hflags : (w.logDirExists && w.logFileExists && w.sourceExists &&
      w.replicaExists) = true)
    (hWFs : WF w.source) (hWFr : WF w.replica)
    (hexDel : ∀ g ∈ diffL w.replica.folders w.source.folders,
      ∀ p ∈ diffL w.replica.folders w.source.folders ++
        diffL (filesOf w.replica) (filesOf w.source),
        strContainsB g p = sameOrUnderB g p)
    (hexCre : ∀ g ∈ diffL w.source.folders w.replica.folders,
      ∀ p ∈ diffL w.source.folders w.replica.folders ++
        diffL (filesOf w.source) (filesOf w.replica),
        strContainsB g p = sameOrUnderB g p) :
    ∃ T L, sync_folders sroot rroot w [] [] = .ok (true, T, L) ∧
      sync_folders sroot rroot
        ⟨w.source, T, w.logDirExists, w.logFileExists, w.sourceExists,
          w.replicaExists⟩ [] [] = .ok (true, T, []) := by
  obtain ⟨T, L, hrun, hfold, hmt⟩ :=
    sync_char sroot rroot w hflags hWFs hWFr hexDel hexCre
  exact ⟨T, L, hrun, sync_second_run sroot rroot _ hflags hfold hmt⟩

/-- The second cycle after syncing `wB` still deletes folder `b10`: the runs
are not log-silent on repetition. -/
theorem c8_counterexample :
    countE (LogType.DELETED, joinP rroot pB10)
      ((okLog (sync_folders sroot rroot wB2 [] [])).getD []) = 1 := by
  decide

theorem c8_witness :
    ∃ T L, sync_folders sroot rroot wCreateFile [] [] = .ok (true, T, L) ∧
      sync_folders sroot rroot
        ⟨wCreateFile.source, T, wCreateFile.logDirExists,
          wCreateFile.logFileExists, wCreateFile.sourceExists,
          wCreateFile.replicaExists⟩ [] [] = .ok (true, T, []) :=
  c8_idempotence sroot rroot wCreateFile (by decide) (by decide) (by decide)
    (by decide) (by decide)

/-- C9: Fixed applier order, confirmed.  A cycle whose flags pass runs the
Deletion Applier on the replica, feeds its result to the Creation Applier,
feeds that to the Update Applier, and concatenates the three logs in that
order; both folder appliers process their folder list sorted ascending by
separator-count depth, a permutation of the diff folder set. -/
theorem c9_applier_order (sroot rroot : Path) (w : World)
    (u : Tree × List LogEntry)
    (hflags : (w.logDirExists && w.logFileExists && w.sourceExists &&
      w.replicaExists) = true)
    (hup : update_files (interL (filesOf w.source) (filesOf w.replica))
      w.source rroot
      (create_files (diffL w.source.folders w.replica.folders)
        (diffL (filesOf w.source) (filesOf w.replica)) w.source rroot
        (delete_files (diffL w.replica.folders w.source.folders)
          (diffL (filesOf w.replica) (filesOf w.source)) rroot w.replica []).1
        []).1 [] [] = .ok u) :
    sync_folders sroot rroot w [] [] = .ok (true, u.1,
      (delete_files (diffL w.replica.folders w.source.folders)
        (diffL (filesOf w.replica) (filesOf w.source)) rroot w.replica []).2 ++
      (create_files (diffL w.source.folders w.replica.folders)
        (diffL (filesOf w.source) (filesOf w.replica)) w.source rroot
        (delete_files (diffL w.replica.folders w.source.folders)
          (diffL (filesOf w.replica) (filesOf w.source)) rroot w.replica []).1
        []).2 ++ u.2) ∧
    ((sortByDepth (diffL w.replica.folders w.source.folders)).Pairwise
        (fun a b => depthOf a ≤ depthOf b) ∧
      (sortByDepth (diffL w.replica.folders w.source.folders)).Perm
        (diffL w.replica.folders w.source.folders)) ∧
    ((sortByDepth (diffL w.source.folders w.replica.folders)).Pairwise
        (fun a b => depthOf a ≤ depthOf b) ∧
      (sortByDepth (diffL w.source.folders w.replica.folders)).Perm
        (diffL w.source.folders w.replica.folders)) := by
  refine ⟨?_, ⟨sortByDepth_sorted _, sortByDepth_perm _⟩,
    ⟨sortByDepth_sorted _, sortByDepth_perm _⟩⟩
  rw [sync_folders_pos hflags, hup]

theorem c9_witness :
    sync_folders sroot rroot wB [] [] = .ok (true,
      ((⟨[(pB10x, 7)], [pB10]⟩ : Tree), ([] : List LogEntry)).1,
      (delete_files (diffL wB.replica.folders wB.source.folders)
        (diffL (filesOf wB.replica) (filesOf wB.source)) rroot wB.replica []).2 ++
      (create_files (diffL wB.source.folders wB.replica.folders)
        (diffL (filesOf wB.source) (filesOf wB.replica)) wB.source rroot
        (delete_files (diffL wB.replica.folders wB.source.folders)
          (diffL (filesOf wB.replica) (filesOf wB.source)) rroot wB.replica
          []).1 []).2 ++
      ((⟨[(pB10x, 7)], [pB10]⟩ : Tree), ([] : List LogEntry)).2) ∧
    ((sortByDepth (diffL wB.replica.folders wB.source.folders)).Pairwise
        (fun a b => depthOf a ≤ depthOf b) ∧
      (sortByDepth (diffL wB.replica.folders wB.source.folders)).Perm
        (diffL wB.replica.folders wB.source.folders)) ∧
    ((sortByDepth (diffL wB.source.folders wB.replica.folders)).Pairwise
        (fun a b => depthOf a ≤ depthOf b) ∧
      (sortByDepth (diffL wB.source.folders wB.replica.folders)).Perm
        (diffL wB.source.folders wB.replica.folders)) :=
  c9_applier_order sroot rroot wB (⟨[(pB10x, 7)], [pB10]⟩, []) (by decide) rfl

/-- C10: Log append-mode recreation, confirmed.  Writing an event to a
missing log file recreates it holding just that event, and appending to an
existing one keeps all prior lines; the vanished log file is detected as
cycle-fatal only by the existence check at cycle start, which then returns
failure with the replica untouched. -/
theorem c10_log_recreation (sroot rroot : Path) (w : World) (e : LogEntry)
    (prior : List LogEntry)
    (hgone : w.logFileExists = false) :
    log_message none e = some [e] ∧
    log_message (some prior) e = some (prior ++ [e]) ∧
    sync_folders sroot rroot w [] [] = .ok (false, w.replica, []) :=
  ⟨rfl, rfl, sync_folders_neg (by simp [hgone])⟩

theorem c10_witness :
    log_message none (LogType.ERROR, pC) = some [(LogType.ERROR, pC)] ∧
    log_message (some []) (LogType.ERROR, pC) =
      some ([] ++ [(LogType.ERROR, pC)]) ∧
    sync_folders sroot rroot wNoLog [] [] = .ok (false, wNoLog.replica, []) :=
  c10_log_recreation sroot rroot wNoLog (LogType.ERROR, pC) [] rfl

end Sync
